import Mathlib

/-!
# ecstore: a store of entities indexed by type name and by id

A shallow embedding of `ecstore.go` and `util.go`.

* An `Entity` is a Go interface value: the nil interface, or a dynamic type together with a
  value.  Only what the store consults is kept: the reflect kind, whether a pointer is nil, the
  pointee type, the address (reference identity, Go `==` on pointers) and the result of `Id()`.
* The two Go maps are finite maps (`Finmap`); a Go slice held by the store is a `List`
  (the nil slice and the empty slice are both `[]`).
* The operations run under one lock, so they are modelled as sequential state transformers.
  `Id()` is a fixed function of the entity: ids do not change while an entity is stored.
* What the operations do to the mutex is kept apart, as the sequence of lock events and map
  accesses of each operation (`Event`, `disciplined`).
* The slice `GetAll` returns is the one the type index holds, so what a caller sees through
  it later depends on the backing array. For that the operations are embedded a second time
  with buckets as slices over a heap of arrays (`SliceStore`, namespace `slices`);
  `Shows_run` proves that the store on lists is what the store on slices shows.
* `Add(s...)` receives the caller's slice `s` itself and reads its elements one iteration at
  a time, while its own appends may write into the same array. `slices.AddArgs` is `Add` on
  a caller's slice (`ArgSlice`); `AddArgs_eq_Add` proves that it is `Add` on the list of
  elements the slice shows when no element lies in the spare capacity of a bucket.
-/

namespace ecstore

/-- The `reflect.Kind`s the store distinguishes. -/
inductive Kind
  | Pointer
  | Struct
  | Other
  deriving DecidableEq, Repr

/-- A Go type as `reflect` shows it: the package it is declared in, `Name()` and `Kind()`. -/
structure GoType where
  pkgPath : String
  name : String
  kind : Kind
  deriving DecidableEq, Repr

/-- A value of the Go interface type `Entity`. -/
inductive Entity
  /-- the nil interface value -/
  | nil
  /-- a typed nil pointer `(*elem)(nil)` -/
  | nilPtr (elem : GoType)
  /-- a non-nil pointer of type `*elem` to the object at `addr`, whose `Id()` is `id` -/
  | ptr (elem : GoType) (addr : Nat) (id : String)
  /-- a dynamic value that is not a pointer (`isStruct`: its kind is `Struct`) -/
  | value (isStruct : Bool) (typeName : String) (id : String)
  deriving DecidableEq, Repr

namespace Entity

/-- `reflect.ValueOf(e).Kind()` for a non-nil interface value. -/
def Kind : Entity → ecstore.Kind
  | nil => .Other
  | nilPtr _ => .Pointer
  | ptr _ _ _ => .Pointer
  | value isStruct _ _ => if isStruct then .Struct else .Other

/-- `reflect.ValueOf(e).IsNil()` (asked of pointers only). -/
def IsNil : Entity → Bool
  | nilPtr _ => true
  | _ => false

/-- `reflect.ValueOf(e).Elem().Kind()` of a non-nil pointer. -/
def ElemKind : Entity → ecstore.Kind
  | ptr elem _ _ => elem.kind
  | nilPtr elem => elem.kind
  | _ => .Other

/-- `reflect.TypeOf(e).Elem().Name()` of a pointer. -/
def ElemName : Entity → String
  | ptr elem _ _ => elem.name
  | nilPtr elem => elem.name
  | _ => ""

/-- The method `Id()` of the interface. -/
def Id : Entity → String
  | ptr _ _ id => id
  | value _ _ id => id
  | _ => ""

end Entity

/-- The two error values of `errlib.go`. -/
inductive Error
  | ErrNoEntitiesProvided
  | ErrInvalidEntityPointer
  deriving DecidableEq, Repr

open Error

/-- `getTypeKey` of `util.go`. -/
def getTypeKey (e : Entity) : Except Error String :=
  if e = Entity.nil then
    .error ErrInvalidEntityPointer
  else if e.Kind = Kind.Pointer ∧ e.IsNil = true then
    .error ErrInvalidEntityPointer
  else if e.Kind ≠ Kind.Pointer ∨ e.ElemKind ≠ Kind.Struct then
    .error ErrInvalidEntityPointer
  else
    .ok e.ElemName

/-- The struct `ecStore` without its mutex: the type index and the id index. -/
structure ecStore where
  store : Finmap (fun _ : String => List Entity)
  idCache : Finmap (fun _ : String => Entity)
  deriving DecidableEq

/-- `New()`: both maps empty. -/
def New : ecStore :=
  { store := ∅, idCache := ∅ }

/-- The body of the loop of `Add` after validation: create the bucket if absent, append the
entity to it, and point the id index at the entity. -/
def addEntity (e : ecStore) (key : String) (entity : Entity) : ecStore :=
  let store1 := if key ∈ e.store then e.store else e.store.insert key []
  let store2 := store1.insert key (((store1.lookup key).getD []) ++ [entity])
  { store := store2, idCache := e.idCache.insert entity.Id entity }

/-- The loop of `Add` over the values it reads, in the order it reads them: the state reached
and the error returned. The loop reads `entities[k]` when iteration `k` starts, so the list
is what the caller's slice showed when the call was made only if no append of the loop
writes into that slice (`slices.Apart`, `AddArgs_eq_Add`); `slices.AddArgs` reads the
arguments from the caller's slice. -/
def addLoop : ecStore → List Entity → ecStore × Option Error
  | e, [] => (e, none)
  | e, entity :: rest =>
    if entity = Entity.nil then
      (e, some ErrInvalidEntityPointer)
    else if entity.Kind = Kind.Pointer ∧ entity.IsNil = true then
      (e, some ErrInvalidEntityPointer)
    else
      match getTypeKey entity with
      | .error err => (e, some err)
      | .ok key => addLoop (addEntity e key entity) rest

/-- `Add(entities...)`, on the values the loop reads (see `addLoop`). -/
def Add (e : ecStore) (entities : List Entity) : ecStore × Option Error :=
  if entities.length = 0 then (e, some ErrNoEntitiesProvided)
  else addLoop e entities

/-- The inner loop of `Remove`: the index of the first entry of `list` equal to `entity`,
counted from `i`. -/
def findEntry (entity : Entity) : List Entity → Nat → Option Nat
  | [], _ => none
  | entry :: rest, i => if entry = entity then some i else findEntry entity rest (i + 1)

/-- The statements `list[i] = list[len(list)-1]` and `list[:len(list)-1]`. -/
def swapRemove (list : List Entity) (i : Nat) : List Entity :=
  ((list.set i (list.getD (list.length - 1) Entity.nil))).take (list.length - 1)

/-- The body of the loop of `Remove` after validation. -/
def removeEntity (e : ecStore) (key : String) (entity : Entity) : ecStore :=
  match e.store.lookup key with
  | none => e
  | some list =>
    match findEntry entity list 0 with
    | none => e
    | some i =>
      let store1 := e.store.insert key (swapRemove list i)
      let idCache1 := e.idCache.erase (list.getD i Entity.nil).Id
      let store2 := if ((store1.lookup key).getD []).length = 0 then store1.erase key else store1
      { store := store2, idCache := idCache1 }

/-- The loop of `Remove` over the values it reads, in the order it reads them. -/
def removeLoop : ecStore → List Entity → ecStore × Option Error
  | e, [] => (e, none)
  | e, entity :: rest =>
    if entity = Entity.nil then
      (e, some ErrInvalidEntityPointer)
    else if entity.Kind = Kind.Pointer ∧ entity.IsNil = true then
      (e, some ErrInvalidEntityPointer)
    else
      match getTypeKey entity with
      | .error err => (e, some err)
      | .ok key => removeLoop (removeEntity e key entity) rest

/-- `Remove(entities...)`. -/
def Remove (e : ecStore) (entities : List Entity) : ecStore × Option Error :=
  if entities.length = 0 then (e, some ErrNoEntitiesProvided)
  else removeLoop e entities

/-- `GetAll(ent)`: the bucket of the sample's type key (the nil slice when there is none). -/
def GetAll (e : ecStore) (ent : Entity) : Except Error (List Entity) :=
  match getTypeKey ent with
  | .error err => .error err
  | .ok key =>
    match e.store.lookup key with
    | none => .ok []
    | some rawList => .ok rawList

/-- `GetFirst(ent)`. -/
def GetFirst (e : ecStore) (ent : Entity) : Except Error (Option Entity) :=
  match GetAll e ent with
  | .error err => .error err
  | .ok list => if list.length = 0 then .ok none else .ok list.head?

/-- `GetById(id)`: `none` is the nil entity returned for an absent id. -/
def GetById (e : ecStore) (id : String) : Option Entity :=
  e.idCache.lookup id

/-- `Clear()`. -/
def Clear (_e : ecStore) : ecStore × Option Error :=
  ({ store := ∅, idCache := ∅ }, none)

/-- `CountType(ent)`. -/
def CountType (e : ecStore) (ent : Entity) : Nat :=
  match GetAll e ent with
  | .error _ => 0
  | .ok list => list.length

/-- `CountTotal()`: `len(e.idCache)`. -/
def CountTotal (e : ecStore) : Nat :=
  e.idCache.keys.card

/-- The sum of the lengths of all buckets of the type index. -/
def bucketTotal (e : ecStore) : Nat :=
  ∑ key in e.store.keys, ((e.store.lookup key).getD []).length

/-- The store states reachable from `New()` by `Add`, `Remove` and `Clear` calls, whatever
their arguments and whether or not they return an error. -/
inductive Reachable : ecStore → Prop
  | new : Reachable New
  | add (e : ecStore) (entities : List Entity) : Reachable e → Reachable (Add e entities).1
  | remove (e : ecStore) (entities : List Entity) : Reachable e → Reachable (Remove e entities).1
  | clear (e : ecStore) : Reachable e → Reachable (Clear e).1

/-- An entity the store accepts: `getTypeKey` succeeds on it. -/
def Valid (entity : Entity) : Prop :=
  ∃ key, getTypeKey entity = .ok key

/-- What holds of every reachable state: no bucket is empty, a bucket holds only entities of
its own type key, and an entry of the id index is filed under the id of its entity, which is
a member of the bucket of its type key. -/
structure Inv (e : ecStore) : Prop where
  nonempty : ∀ key list, e.store.lookup key = some list → list ≠ []
  keyed : ∀ key list, e.store.lookup key = some list → ∀ x ∈ list, getTypeKey x = .ok key
  indexed : ∀ id x, e.idCache.lookup id = some x →
    x.Id = id ∧ ∃ key list, getTypeKey x = .ok key ∧ e.store.lookup key = some list ∧ x ∈ list

/-- Whether the type key of `entity` resolves, and to `key`. -/
def hasTypeKey (key : String) (entity : Entity) : Bool :=
  match getTypeKey entity with
  | .ok k => decide (k = key)
  | .error _ => false

/-- The dynamic type of an entity, as far as the model keeps it: the pointee type of a
pointer. -/
def pointee : Entity → Option GoType
  | .ptr elem _ _ => some elem
  | .nilPtr elem => some elem
  | _ => none

/-- The store after a sequence of `Add` calls, one per argument list. -/
def addAll (e : ecStore) (calls : List (List Entity)) : ecStore :=
  calls.foldl (fun s entities => (Add s entities).1) e

/-- The store holds exactly the entities of the duplicate-free list `live`, whose ids are
pairwise distinct: every bucket is a rearrangement of the entities of `live` with its type
key, and the id index maps the id of each entity of `live` to it and holds nothing else. -/
structure Live (e : ecStore) (live : List Entity) : Prop where
  nodup : live.Nodup
  ids : (live.map Entity.Id).Nodup
  valid : ∀ x ∈ live, Valid x
  nonempty : ∀ key list, e.store.lookup key = some list → list ≠ []
  bucket : ∀ key, ((e.store.lookup key).getD []).Perm (live.filter (hasTypeKey key))
  cached : ∀ x ∈ live, e.idCache.lookup x.Id = some x
  indexed : ∀ id x, e.idCache.lookup id = some x → x ∈ live ∧ x.Id = id

/-- The entity is a member of some bucket of the type index. -/
def Stored (e : ecStore) (x : Entity) : Prop :=
  ∃ key list, e.store.lookup key = some list ∧ x ∈ list

/-- The uniqueness the caller is to supply for the arguments of an `Add`: valid entities that
are pairwise distinct, not already stored, with ids pairwise distinct and not in the id
index. -/
def FreshArgs (e : ecStore) (entities : List Entity) : Prop :=
  (∀ x ∈ entities, Valid x) ∧ entities.Nodup ∧ (∀ x ∈ entities, ¬ Stored e x) ∧
    (entities.map Entity.Id).Nodup ∧ (∀ x ∈ entities, GetById e x.Id = none)

/-- The states reachable from `New()` by `Add`, `Remove` and `Clear` calls in which each
successful `Add` passes fresh arguments; an `Add` that returns an error is not constrained. -/
inductive ReachableSuccessFresh : ecStore → Prop
  | new : ReachableSuccessFresh New
  | add (e : ecStore) (entities : List Entity) : ReachableSuccessFresh e →
      ((Add e entities).2 = none → FreshArgs e entities) →
      ReachableSuccessFresh (Add e entities).1
  | remove (e : ecStore) (entities : List Entity) : ReachableSuccessFresh e →
      ReachableSuccessFresh (Remove e entities).1
  | clear (e : ecStore) : ReachableSuccessFresh e → ReachableSuccessFresh (Clear e).1

/-- The states reachable from `New()` by `Add`, `Remove` and `Clear` calls in which each `Add`
passes fresh arguments up to its first invalid argument, if it has one: `addFailing` is an
`Add` that stops at the invalid argument `bad` after applying `pre`. -/
inductive ReachableFresh : ecStore → Prop
  | new : ReachableFresh New
  | add (e : ecStore) (entities : List Entity) : ReachableFresh e → FreshArgs e entities →
      ReachableFresh (Add e entities).1
  | addFailing (e : ecStore) (pre : List Entity) (bad : Entity) (post : List Entity) :
      ReachableFresh e → FreshArgs e pre → ¬ Valid bad →
      ReachableFresh (Add e (pre ++ bad :: post)).1
  | remove (e : ecStore) (entities : List Entity) : ReachableFresh e →
      ReachableFresh (Remove e entities).1
  | clear (e : ecStore) : ReachableFresh e → ReachableFresh (Clear e).1

/-! ## The mutex

What each operation does, in order, to the mutex `mu` and to the two maps. `defer` makes the
unlock the last event on every return path. -/

/-- An acquisition or release of `mu`, or an access to one of the two indices: `store`, the
arrays of its buckets included, and `idCache`. -/
inductive Event
  | Lock
  | Unlock
  | RLock
  | RUnlock
  | readStore
  | writeStore
  | readIdCache
  | writeIdCache
  deriving DecidableEq, Repr

/-- How the calling goroutine holds `mu`. -/
inductive Held
  | free
  | shared
  | exclusive
  deriving DecidableEq, Repr

/-- Whether a sequence of events, begun with `mu` held as given, reads the maps only while
`mu` is held, writes them only while it is held exclusively, and ends with `mu` released. -/
def disciplined : Held → List Event → Bool
  | h, [] => decide (h = Held.free)
  | .free, .Lock :: t => disciplined .exclusive t
  | .exclusive, .Unlock :: t => disciplined .free t
  | .free, .RLock :: t => disciplined .shared t
  | .shared, .RUnlock :: t => disciplined .free t
  | .shared, .readStore :: t => disciplined .shared t
  | .shared, .readIdCache :: t => disciplined .shared t
  | .exclusive, .readStore :: t => disciplined .exclusive t
  | .exclusive, .writeStore :: t => disciplined .exclusive t
  | .exclusive, .readIdCache :: t => disciplined .exclusive t
  | .exclusive, .writeIdCache :: t => disciplined .exclusive t
  | _, _ => false

/-- The map accesses of the loop of `Add`. -/
def addLoopEvents : ecStore → List Entity → List Event
  | _, [] => []
  | e, entity :: rest =>
    if entity = Entity.nil then []
    else if entity.Kind = Kind.Pointer ∧ entity.IsNil = true then []
    else
      match getTypeKey entity with
      | .error _ => []
      | .ok key =>
        [Event.readStore] ++ (if key ∈ e.store then [] else [Event.writeStore]) ++
          [Event.readStore, Event.writeStore, Event.writeIdCache] ++
          addLoopEvents (addEntity e key entity) rest

/-- The events of `Add(entities...)`. -/
def AddEvents (e : ecStore) (entities : List Entity) : List Event :=
  if entities.length = 0 then []
  else [Event.Lock] ++ addLoopEvents e entities ++ [Event.Unlock]

/-- The map accesses of one iteration of the loop of `Remove` on a valid entity. -/
def removeEntityEvents (e : ecStore) (key : String) (entity : Entity) : List Event :=
  match e.store.lookup key with
  | none => [Event.readStore]
  | some list =>
    match findEntry entity list 0 with
    | none => [Event.readStore]
    | some i =>
      [Event.readStore, Event.writeStore, Event.writeIdCache, Event.readStore] ++
        (if (swapRemove list i).length = 0 then [Event.writeStore] else [])

/-- The map accesses of the loop of `Remove`. -/
def removeLoopEvents : ecStore → List Entity → List Event
  | _, [] => []
  | e, entity :: rest =>
    if entity = Entity.nil then []
    else if entity.Kind = Kind.Pointer ∧ entity.IsNil = true then []
    else
      match getTypeKey entity with
      | .error _ => []
      | .ok key => removeEntityEvents e key entity ++ removeLoopEvents (removeEntity e key entity) rest

/-- The events of `Remove(entities...)`. -/
def RemoveEvents (e : ecStore) (entities : List Entity) : List Event :=
  if entities.length = 0 then []
  else [Event.Lock] ++ removeLoopEvents e entities ++ [Event.Unlock]

/-- The events of `GetAll(ent)`. -/
def GetAllEvents (ent : Entity) : List Event :=
  match getTypeKey ent with
  | .error _ => [Event.RLock, Event.RUnlock]
  | .ok _ => [Event.RLock, Event.readStore, Event.RUnlock]

/-- The events of `CountType(ent)`: those of its call of `GetAll`; `len(list)` reads the
returned slice header only. -/
def CountTypeEvents (ent : Entity) : List Event :=
  GetAllEvents ent

/-- The events of `GetFirst(ent)`: those of its call of `GetAll`, whose deferred unlock has
run when it returns, and then, for a non-empty result, the read of `list[0]` from the
bucket's backing array. -/
def GetFirstEvents (e : ecStore) (ent : Entity) : List Event :=
  GetAllEvents ent ++
    match GetAll e ent with
    | .error _ => []
    | .ok list => if list.length = 0 then [] else [Event.readStore]

/-- The events of `GetById(id)`. -/
def GetByIdEvents : List Event :=
  [Event.RLock, Event.readIdCache, Event.RUnlock]

/-- The events of `Clear()`. -/
def ClearEvents : List Event :=
  [Event.Lock, Event.writeStore, Event.writeIdCache, Event.Unlock]

/-- The events of `CountTotal()`: `len(e.idCache)` and nothing else. -/
def CountTotalEvents : List Event :=
  [Event.readIdCache]

/-! ## Buckets as slices over backing arrays

The same operations with the buckets as Go slices: a slice is a view of a backing array, and
`GetAll` hands out the slice the type index holds, so the caller and the store share the
array. The growth of the capacity on reallocation is left to the runtime by the language;
it is the parameter `grow`. -/

/-- A Go slice as the store makes them: the address of its backing array, at whose first
element it starts, its length and its capacity. -/
structure Slice where
  arr : Nat
  len : Nat
  cap : Nat
  deriving DecidableEq, Repr

/-- The nil slice, also standing for `make([]Entity, 0)`: no elements, no capacity. -/
def nilSlice : Slice := ⟨0, 0, 0⟩

/-- The backing arrays by address, and the next address to allocate at. -/
structure Heap where
  arrays : Nat → List Entity
  next : Nat

namespace Heap

/-- The elements a slice shows. -/
def view (h : Heap) (s : Slice) : List Entity :=
  (h.arrays s.arr).take s.len

/-- The assignment `a[i] = x` to the array at address `a`. -/
def write (h : Heap) (a i : Nat) (x : Entity) : Heap :=
  { arrays := fun b => if b = a then (h.arrays a).set i x else h.arrays b, next := h.next }

/-- The built-in `append(s, x)`: in place when the capacity allows, otherwise into a fresh
array, large enough, that receives a copy of the elements. -/
def push (grow : Nat → Nat) (h : Heap) (s : Slice) (x : Entity) : Heap × Slice :=
  if s.len < s.cap then
    (h.write s.arr s.len x, ⟨s.arr, s.len + 1, s.cap⟩)
  else
    let c := max (grow s.cap) (s.len + 1)
    ({ arrays := fun b =>
          if b = h.next then h.view s ++ x :: List.replicate (c - (s.len + 1)) Entity.nil
          else h.arrays b,
       next := h.next + 1 },
      ⟨h.next, s.len + 1, c⟩)

end Heap

/-- The struct `ecStore` with its buckets as slices, and the heap they point into. -/
structure SliceStore where
  store : Finmap (fun _ : String => Slice)
  idCache : Finmap (fun _ : String => Entity)
  heap : Heap

namespace slices

/-- `New()`. Address 0 is kept for the allocations of size zero. -/
def New : SliceStore :=
  { store := ∅, idCache := ∅, heap := { arrays := fun _ => [], next := 1 } }

/-- The body of the loop of `Add` after validation. -/
def addEntity (grow : Nat → Nat) (e : SliceStore) (key : String) (entity : Entity) :
    SliceStore :=
  let store1 := if key ∈ e.store then e.store else e.store.insert key nilSlice
  let r := e.heap.push grow ((store1.lookup key).getD nilSlice) entity
  { store := store1.insert key r.2, idCache := e.idCache.insert entity.Id entity, heap := r.1 }

/-- The loop of `Add` over the values it reads, in the order it reads them (see
`ecstore.addLoop`); `addArgsFrom` reads them from the caller's slice. -/
def addLoop (grow : Nat → Nat) : SliceStore → List Entity → SliceStore × Option Error
  | e, [] => (e, none)
  | e, entity :: rest =>
    if entity = Entity.nil then
      (e, some ErrInvalidEntityPointer)
    else if entity.Kind = Kind.Pointer ∧ entity.IsNil = true then
      (e, some ErrInvalidEntityPointer)
    else
      match getTypeKey entity with
      | .error err => (e, some err)
      | .ok key => addLoop grow (addEntity grow e key entity) rest

/-- `Add(entities...)`, on the values the loop reads; `AddArgs` is the call on the caller's
slice. -/
def Add (grow : Nat → Nat) (e : SliceStore) (entities : List Entity) :
    SliceStore × Option Error :=
  if entities.length = 0 then (e, some ErrNoEntitiesProvided)
  else addLoop grow e entities

/-- The body of the loop of `Remove` after validation: `list[i] = list[len(list)-1]` writes
into the backing array, `list[:len(list)-1]` keeps the array and the capacity. -/
def removeEntity (e : SliceStore) (key : String) (entity : Entity) : SliceStore :=
  match e.store.lookup key with
  | none => e
  | some list =>
    match findEntry entity (e.heap.view list) 0 with
    | none => e
    | some i =>
      let heap1 := e.heap.write list.arr i ((e.heap.view list).getD (list.len - 1) Entity.nil)
      let store1 := e.store.insert key ⟨list.arr, list.len - 1, list.cap⟩
      let idCache1 := e.idCache.erase ((e.heap.view list).getD i Entity.nil).Id
      let store2 :=
        if ((store1.lookup key).getD nilSlice).len = 0 then store1.erase key else store1
      { store := store2, idCache := idCache1, heap := heap1 }

/-- The loop of `Remove`. -/
def removeLoop : SliceStore → List Entity → SliceStore × Option Error
  | e, [] => (e, none)
  | e, entity :: rest =>
    if entity = Entity.nil then
      (e, some ErrInvalidEntityPointer)
    else if entity.Kind = Kind.Pointer ∧ entity.IsNil = true then
      (e, some ErrInvalidEntityPointer)
    else
      match getTypeKey entity with
      | .error err => (e, some err)
      | .ok key => removeLoop (removeEntity e key entity) rest

/-- `Remove(entities...)`. -/
def Remove (e : SliceStore) (entities : List Entity) : SliceStore × Option Error :=
  if entities.length = 0 then (e, some ErrNoEntitiesProvided)
  else removeLoop e entities

/-- `GetAll(ent)`: the slice held by the type index itself, or the nil slice. -/
def GetAll (e : SliceStore) (ent : Entity) : Except Error Slice :=
  match getTypeKey ent with
  | .error err => .error err
  | .ok key =>
    match e.store.lookup key with
    | none => .ok nilSlice
    | some rawList => .ok rawList

/-- `Clear()`: two fresh maps; the arrays stay where they are. -/
def Clear (e : SliceStore) : SliceStore × Option Error :=
  ({ store := ∅, idCache := ∅, heap := e.heap }, none)

/-- A call that changes the store. -/
inductive Call
  | add (entities : List Entity)
  | remove (entities : List Entity)
  | clear

/-- The state after a call. -/
def step (grow : Nat → Nat) (e : SliceStore) : Call → SliceStore
  | .add entities => (Add grow e entities).1
  | .remove entities => (Remove e entities).1
  | .clear => (Clear e).1

/-- The state after a sequence of calls. -/
def run (grow : Nat → Nat) (e : SliceStore) (calls : List Call) : SliceStore :=
  calls.foldl (step grow) e

/-- Whether a call is an `Add` or a `Clear`. -/
def Call.keeps : Call → Bool
  | .add _ => true
  | .remove _ => false
  | .clear => true

/-- The slices of the type index lie in allocated arrays, within their bounds, and the
slices of two keys lie in two arrays. -/
structure WF (e : SliceStore) : Prop where
  next_pos : 1 ≤ e.heap.next
  bounds : ∀ key t, e.store.lookup key = some t →
    t.arr < e.heap.next ∧ t.len ≤ t.cap ∧ t.cap ≤ (e.heap.arrays t.arr).length
  distinct : ∀ k1 k2 t1 t2, e.store.lookup k1 = some t1 → e.store.lookup k2 = some t2 →
    t1.arr = t2.arr → k1 = k2

/-- A slice handed out earlier is still backed: its array is allocated and long enough. -/
def Backed (h : Heap) (s : Slice) : Prop :=
  s.arr < h.next ∧ s.len ≤ (h.arrays s.arr).length

/-- No slice of the type index that shares the array of `s` is shorter than `s`. -/
def Covered (e : SliceStore) (s : Slice) : Prop :=
  ∀ key t, e.store.lookup key = some t → t.arr = s.arr → s.len ≤ t.len

/-- The store with lists as buckets is what the store on slices shows: the same id index,
and under every key the elements of the slice held there. -/
structure Shows (s : SliceStore) (e : ecStore) : Prop where
  idCache : e.idCache = s.idCache
  store : ∀ key, e.store.lookup key = (s.store.lookup key).map s.heap.view

/-- The state after a call, buckets as lists. -/
def listStep (e : ecStore) : Call → ecStore
  | .add entities => (ecstore.Add e entities).1
  | .remove entities => (ecstore.Remove e entities).1
  | .clear => (ecstore.Clear e).1

/-- The state after a sequence of calls, buckets as lists. -/
def listRun (e : ecStore) (calls : List Call) : ecStore :=
  calls.foldl listStep e

/-- `GetById(id)`. -/
def GetById (e : SliceStore) (id : String) : Option Entity :=
  e.idCache.lookup id

/-- `CountType(ent)`: the length of the slice `GetAll` returns, 0 when it fails. -/
def CountType (e : SliceStore) (ent : Entity) : Nat :=
  match GetAll e ent with
  | .error _ => 0
  | .ok list => list.len

/-- The slice a caller passes as `entities...`: `len` elements of the array at `arr`, from
index `off` on. The parameter `entities` of a call `Add(s...)` is the slice `s` itself, not a
copy of its elements. -/
structure ArgSlice where
  arr : Nat
  off : Nat
  len : Nat
  deriving DecidableEq, Repr

/-- The elements the caller's slice shows when the call is made. -/
def argList (h : Heap) (args : ArgSlice) : List Entity :=
  ((h.arrays args.arr).drop args.off).take args.len

/-- The loop of `Add` on the caller's slice, from iteration `k` with `n` iterations to go:
`range` fixes the number of iterations when the loop starts and reads `entities[k]` from the
array when iteration `k` starts, after the appends of the iterations before. -/
def addArgsFrom (grow : Nat → Nat) (args : ArgSlice) :
    Nat → Nat → SliceStore → SliceStore × Option Error
  | 0, _, e => (e, none)
  | n + 1, k, e =>
    if (e.heap.arrays args.arr).getD (args.off + k) Entity.nil = Entity.nil then
      (e, some ErrInvalidEntityPointer)
    else if ((e.heap.arrays args.arr).getD (args.off + k) Entity.nil).Kind = Kind.Pointer ∧
        ((e.heap.arrays args.arr).getD (args.off + k) Entity.nil).IsNil = true then
      (e, some ErrInvalidEntityPointer)
    else
      match getTypeKey ((e.heap.arrays args.arr).getD (args.off + k) Entity.nil) with
      | .error err => (e, some err)
      | .ok key =>
        addArgsFrom grow args n (k + 1)
          (addEntity grow e key ((e.heap.arrays args.arr).getD (args.off + k) Entity.nil))

/-- `Add(entities...)` on the caller's slice. -/
def AddArgs (grow : Nat → Nat) (e : SliceStore) (args : ArgSlice) :
    SliceStore × Option Error :=
  if args.len = 0 then (e, some ErrNoEntitiesProvided)
  else addArgsFrom grow args args.len 0 e

/-- The caller's slice lies within an allocated array, and none of its elements lies in the
spare capacity of a bucket, the part of a bucket's array from its length on, where `append`
writes in place. -/
structure Apart (e : SliceStore) (args : ArgSlice) : Prop where
  allocated : args.arr < e.heap.next
  inside : args.off + args.len ≤ (e.heap.arrays args.arr).length
  apart : ∀ key t, e.store.lookup key = some t → t.arr = args.arr → args.off + args.len ≤ t.len

/-- The caller's side of a call with explicit arguments `Add(x1, ..., xn)`: a fresh array
holding the arguments, and the slice of all of it. -/
def place (e : SliceStore) (entities : List Entity) : SliceStore × ArgSlice :=
  ({ store := e.store, idCache := e.idCache,
     heap := { arrays := fun b => if b = e.heap.next then entities else e.heap.arrays b,
               next := e.heap.next + 1 } },
    ⟨e.heap.next, 0, entities.length⟩)

/-- A call `Add(x1, ..., xn)` with explicit arguments. -/
def addPlaced (grow : Nat → Nat) (e : SliceStore) (entities : List Entity) :
    SliceStore × Option Error :=
  AddArgs grow (place e entities).1 (place e entities).2

/-- The state after a sequence of calls of `Add` with explicit arguments. -/
def addAllPlaced (grow : Nat → Nat) (e : SliceStore) (calls : List (List Entity)) :
    SliceStore :=
  calls.foldl (fun e entities => (addPlaced grow e entities).1) e

end slices

/-- The slice `s` passed as `s...`. -/
def Slice.args (s : Slice) : slices.ArgSlice :=
  ⟨s.arr, 0, s.len⟩

/-- The capacity growth of the Go runtime for small slices: doubling. -/
def double (cap : Nat) : Nat :=
  if cap = 0 then 1 else 2 * cap

/-! ## Sample entities and stores

The struct types of the test suite, a second package declaring a type of the same name, and a
few entities at distinct addresses. -/

/-- The struct type `SimpleEntity` of the tests. -/
def tSimple : GoType := ⟨"ecstore_test", "SimpleEntity", .Struct⟩

/-- The struct type `ComplexEntity` of the tests. -/
def tComplex : GoType := ⟨"ecstore_test", "ComplexEntity", .Struct⟩

/-- A struct type named `SimpleEntity` declared in another package. -/
def tSimpleElsewhere : GoType := ⟨"other_pkg", "SimpleEntity", .Struct⟩

/-- `&SimpleEntity{id: "a"}` at address 1. -/
def entA : Entity := .ptr tSimple 1 "a"

/-- `&SimpleEntity{id: "a"}` at address 2: another object with the id of `entA`. -/
def entA2 : Entity := .ptr tSimple 2 "a"

/-- `&SimpleEntity{id: "b"}` at address 3. -/
def entB : Entity := .ptr tSimple 3 "b"

/-- `&ComplexEntity{id: "c"}` at address 4. -/
def entC : Entity := .ptr tComplex 4 "c"

/-- An object of the other package's `SimpleEntity`, at address 5. -/
def entElsewhere : Entity := .ptr tSimpleElsewhere 5 "x"

/-- The type witness `&SimpleEntity{}` at address 9. -/
def sampleSimple : Entity := .ptr tSimple 9 ""

/-- The store after `Add(entA)`. -/
def storeA : ecStore := (Add New [entA]).1

/-- The store after `Add(entA)` and `Add(entA2)`: two objects sharing the id `"a"`. -/
def storeDup : ecStore := (Add storeA [entA2]).1

/-- The store after `Add(entElsewhere)`. -/
def storeElsewhere : ecStore := (Add New [entElsewhere]).1

/-- The store after `Add(entA, entB, entC)`. -/
def storeABC : ecStore := (Add New [entA, entB, entC]).1

/-- The store on slices after `Add(entA, entB)`, capacities doubling. -/
def sliceAB : SliceStore := slices.run double slices.New [.add [entA, entB]]

/-- The store after the failing call `Add(entA, entA2, nil)`. -/
def storePartial : ecStore := (Add New [entA, entA2, Entity.nil]).1

/-- `&SimpleEntity{id: "d"}` at address 6. -/
def entD : Entity := .ptr tSimple 6 "d"

/-- The store on slices after `Add(entA, entB)` and `Remove(entB)`: the bucket has length 1
in the array of capacity 2 at address 2, which still holds `entB` at index 1. -/
def sliceABminusB : SliceStore := (slices.Remove sliceAB [entB]).1

/-- The store on slices after `Add(entA, entB, entD)`, capacities doubling: the bucket has
length 3 in the array of capacity 4 at address 3. -/
def sliceABD : SliceStore := slices.run double slices.New [.add [entA, entB, entD]]

/-- The store `sliceABD` after the caller's `append(all, nil)` on the slice `all` that
`GetAll` returned: the append writes `nil` in place at index 3 of the bucket's array. -/
def sliceABDnil : SliceStore :=
  { store := sliceABD.store, idCache := sliceABD.idCache,
    heap := (sliceABD.heap.push double ⟨3, 3, 4⟩ Entity.nil).1 }

/-! ## Resolution of the type key -/

theorem Valid_ptr (elem : GoType) (addr : Nat) (id : String) (h : elem.kind = Kind.Struct) :
    Valid (.ptr elem addr id) := by
  refine ⟨elem.name, ?_⟩
  simp [getTypeKey, Entity.Kind, Entity.IsNil, Entity.ElemKind, Entity.ElemName, h]

theorem not_Valid_nil : ¬ Valid Entity.nil := by
  rintro ⟨key, hk⟩
  simp [getTypeKey] at hk

theorem not_Valid_of_error {entity : Entity} {err : Error} (h : getTypeKey entity = .error err) :
    ¬ Valid entity := by
  rintro ⟨key, hkey⟩
  rw [h] at hkey
  cases hkey

theorem getTypeKey_ok_iff (e : Entity) (key : String) :
    getTypeKey e = .ok key ↔
      ∃ elem addr id, e = .ptr elem addr id ∧ elem.kind = Kind.Struct ∧ elem.name = key := by
  cases e with
  | nil => simp [getTypeKey]
  | nilPtr elem => simp [getTypeKey, Entity.Kind, Entity.IsNil]
  | value b n i => cases b <;> simp [getTypeKey, Entity.Kind, Entity.IsNil]
  | ptr elem addr id =>
    by_cases h : elem.kind = Kind.Struct
    · simp [getTypeKey, Entity.Kind, Entity.IsNil, Entity.ElemKind, Entity.ElemName, h]
    · simp [getTypeKey, Entity.Kind, Entity.IsNil, Entity.ElemKind, Entity.ElemName, h]

theorem getTypeKey_error (e : Entity) (err : Error) (h : getTypeKey e = .error err) :
    err = ErrInvalidEntityPointer := by
  unfold getTypeKey at h
  split_ifs at h <;> (injection h with h; exact h.symm)

theorem getTypeKey_cases (e : Entity) :
    (∃ key, getTypeKey e = .ok key) ∨ getTypeKey e = .error ErrInvalidEntityPointer := by
  cases h : getTypeKey e with
  | ok key => exact Or.inl ⟨key, rfl⟩
  | error err => rw [getTypeKey_error e err h]; exact Or.inr rfl

theorem not_nil_of_ok {e : Entity} {key : String} (h : getTypeKey e = .ok key) :
    e ≠ Entity.nil ∧ ¬ (e.Kind = Kind.Pointer ∧ e.IsNil = true) := by
  obtain ⟨elem, addr, id, rfl, -, -⟩ := (getTypeKey_ok_iff e key).1 h
  simp [Entity.IsNil]

/-! ## One step of the loops -/

theorem addLoop_cons_ok (e : ecStore) (entity : Entity) (rest : List Entity) (key : String)
    (h : getTypeKey entity = .ok key) :
    addLoop e (entity :: rest) = addLoop (addEntity e key entity) rest := by
  obtain ⟨h1, h2⟩ := not_nil_of_ok h
  simp only [addLoop, h1, h2, if_false, h]

theorem addLoop_cons_invalid (e : ecStore) (entity : Entity) (rest : List Entity)
    (h : ¬ Valid entity) :
    addLoop e (entity :: rest) = (e, some ErrInvalidEntityPointer) := by
  rcases getTypeKey_cases entity with hk | hk
  · exact absurd hk h
  · simp only [addLoop, hk]
    split_ifs <;> rfl

theorem removeLoop_cons_ok (e : ecStore) (entity : Entity) (rest : List Entity) (key : String)
    (h : getTypeKey entity = .ok key) :
    removeLoop e (entity :: rest) = removeLoop (removeEntity e key entity) rest := by
  obtain ⟨h1, h2⟩ := not_nil_of_ok h
  simp only [removeLoop, h1, h2, if_false, h]

theorem removeLoop_cons_invalid (e : ecStore) (entity : Entity) (rest : List Entity)
    (h : ¬ Valid entity) :
    removeLoop e (entity :: rest) = (e, some ErrInvalidEntityPointer) := by
  rcases getTypeKey_cases entity with hk | hk
  · exact absurd hk h
  · simp only [removeLoop, hk]
    split_ifs <;> rfl

/-! ## The two indices after `addEntity` -/

theorem addEntity_store_same (e : ecStore) (key : String) (entity : Entity) :
    (addEntity e key entity).store.lookup key =
      some (((e.store.lookup key).getD []) ++ [entity]) := by
  unfold addEntity
  by_cases h : key ∈ e.store
  · simp [h]
  · have h0 : e.store.lookup key = none := Finmap.lookup_eq_none.2 h
    simp [h, h0]

theorem addEntity_store_other (e : ecStore) (key : String) (entity : Entity) (key' : String)
    (h : key' ≠ key) :
    (addEntity e key entity).store.lookup key' = e.store.lookup key' := by
  unfold addEntity
  by_cases hk : key ∈ e.store
  · simp [hk, Finmap.lookup_insert_of_ne _ h]
  · simp [hk, Finmap.lookup_insert_of_ne _ h]

theorem addEntity_idCache (e : ecStore) (key : String) (entity : Entity) :
    (addEntity e key entity).idCache = e.idCache.insert entity.Id entity := rfl

/-! ## The inner loop of `Remove` and the swap with the last element -/

theorem findEntry_some (entity : Entity) (list : List Entity) (n i : Nat)
    (h : findEntry entity list n = some i) :
    ∃ a b, list = a ++ entity :: b ∧ entity ∉ a ∧ i = n + a.length := by
  induction list generalizing n with
  | nil => simp [findEntry] at h
  | cons entry rest ih =>
    unfold findEntry at h
    by_cases hx : entry = entity
    · rw [if_pos hx] at h
      injection h with h
      exact ⟨[], rest, by simp [hx], by simp, by simp [h]⟩
    · rw [if_neg hx] at h
      obtain ⟨a, b, hl, hn, hi⟩ := ih (n + 1) h
      refine ⟨entry :: a, b, by simp [hl], ?_, by simp [hi]; omega⟩
      simp only [List.mem_cons, not_or]
      exact ⟨fun hc => hx hc.symm, hn⟩

theorem findEntry_none (entity : Entity) (list : List Entity) (n : Nat) :
    findEntry entity list n = none ↔ entity ∉ list := by
  induction list generalizing n with
  | nil => simp [findEntry]
  | cons entry rest ih =>
    unfold findEntry
    by_cases hx : entry = entity
    · simp [hx]
    · rw [if_neg hx, ih (n + 1)]
      simp only [List.mem_cons, not_or]
      exact ⟨fun h => ⟨fun hc => hx hc.symm, h⟩, fun h => h.2⟩

theorem findEntry_append (entity : Entity) (a b : List Entity) (h : entity ∉ a) :
    findEntry entity (a ++ entity :: b) 0 = some a.length := by
  have key : ∀ (a : List Entity) (n : Nat), entity ∉ a →
      findEntry entity (a ++ entity :: b) n = some (n + a.length) := by
    intro a
    induction a with
    | nil => intro n _; simp [findEntry]
    | cons x a ih =>
      intro n hn
      simp only [List.mem_cons, not_or] at hn
      have hx : x ≠ entity := fun hc => hn.1 hc.symm
      rw [List.cons_append, findEntry, if_neg hx, ih (n + 1) hn.2, List.length_cons,
        Nat.add_assoc, Nat.add_comm 1]
  simpa using key a 0 h

theorem swapRemove_last (a : List Entity) (x : Entity) :
    swapRemove (a ++ [x]) a.length = a := by
  simp [swapRemove, List.getD_eq_getElem?_getD]

theorem swapRemove_middle (a b : List Entity) (x z : Entity) :
    swapRemove (a ++ x :: (b ++ [z])) a.length = a ++ z :: b := by
  have hlen : (a ++ x :: (b ++ [z])).length - 1 = a.length + (b.length + 1) := by
    simp
  have hget : (a ++ x :: (b ++ [z])).getD (a.length + (b.length + 1)) Entity.nil = z := by
    rw [List.getD_eq_getElem?_getD, List.getElem?_append_right (by omega)]
    simp
  unfold swapRemove
  rw [hlen, hget]
  have hset : (a ++ x :: (b ++ [z])).set a.length z = (a ++ z :: b) ++ [z] := by
    simp
  rw [hset]
  have : a.length + (b.length + 1) = (a ++ z :: b).length := by simp
  rw [this, List.take_left]

theorem swapRemove_perm (a b : List Entity) (x : Entity) :
    (swapRemove (a ++ x :: b) a.length).Perm (a ++ b) := by
  rcases List.eq_nil_or_concat b with hb | ⟨b', z, hb⟩
  · subst hb
    rw [swapRemove_last]
    simp
  · subst hb
    rw [List.concat_eq_append, swapRemove_middle]
    refine List.Perm.append_left a ?_
    have : z :: b' = [z] ++ b' := rfl
    rw [this]
    exact List.perm_append_comm

/-! ## The two indices after `removeEntity` -/

theorem removeEntity_absent (e : ecStore) (key : String) (entity : Entity)
    (h : e.store.lookup key = none) : removeEntity e key entity = e := by
  simp [removeEntity, h]

theorem removeEntity_not_mem (e : ecStore) (key : String) (entity : Entity) (list : List Entity)
    (h : e.store.lookup key = some list) (hn : entity ∉ list) :
    removeEntity e key entity = e := by
  have hf : findEntry entity list 0 = none := (findEntry_none entity list 0).2 hn
  simp [removeEntity, h, hf]

theorem erase_insert_same {V : Type} (m : Finmap (fun _ : String => V)) (key : String) (v : V) :
    (m.insert key v).erase key = m.erase key := by
  apply Finmap.ext_lookup
  intro k
  by_cases hk : k = key
  · subst hk; simp
  · rw [Finmap.lookup_erase_ne hk, Finmap.lookup_erase_ne hk, Finmap.lookup_insert_of_ne _ hk]

theorem removeEntity_found (e : ecStore) (key : String) (entity : Entity) (a b : List Entity)
    (h : e.store.lookup key = some (a ++ entity :: b)) (hn : entity ∉ a) :
    removeEntity e key entity =
      { store := if (swapRemove (a ++ entity :: b) a.length).length = 0 then e.store.erase key
          else e.store.insert key (swapRemove (a ++ entity :: b) a.length),
        idCache := e.idCache.erase entity.Id } := by
  have hf := findEntry_append entity a b hn
  have hg : (a ++ entity :: b).getD a.length Entity.nil = entity := by
    rw [List.getD_eq_getElem?_getD, List.getElem?_append_right (Nat.le_refl _)]
    simp
  simp only [removeEntity, h, hf, hg, Finmap.lookup_insert, Option.getD_some, erase_insert_same]

theorem removeEntity_idCache_cases (e : ecStore) (key : String) (entity : Entity) :
    removeEntity e key entity = e ∨
      ∃ a b, e.store.lookup key = some (a ++ entity :: b) ∧ entity ∉ a := by
  cases h : e.store.lookup key with
  | none => exact Or.inl (removeEntity_absent e key entity h)
  | some list =>
    by_cases hm : entity ∈ list
    · right
      cases hf : findEntry entity list 0 with
      | none => exact absurd hm ((findEntry_none entity list 0).1 hf)
      | some i =>
        obtain ⟨a, b, hl, hna, -⟩ := findEntry_some entity list 0 i hf
        exact ⟨a, b, by rw [hl], hna⟩
    · exact Or.inl (removeEntity_not_mem e key entity list h hm)

theorem removeEntity_store_other (e : ecStore) (key : String) (entity : Entity) (key' : String)
    (h : key' ≠ key) :
    (removeEntity e key entity).store.lookup key' = e.store.lookup key' := by
  rcases removeEntity_idCache_cases e key entity with h0 | ⟨a, b, hl, hna⟩
  · rw [h0]
  · rw [removeEntity_found e key entity a b hl hna]
    dsimp only
    split_ifs
    · exact Finmap.lookup_erase_ne h
    · exact Finmap.lookup_insert_of_ne _ h

theorem removeEntity_store_same (e : ecStore) (key : String) (entity : Entity) (a b : List Entity)
    (h : e.store.lookup key = some (a ++ entity :: b)) (hn : entity ∉ a) :
    (removeEntity e key entity).store.lookup key =
      if a ++ b = [] then none else some (swapRemove (a ++ entity :: b) a.length) := by
  rw [removeEntity_found e key entity a b h hn]
  have hlen : (swapRemove (a ++ entity :: b) a.length).length = (a ++ b).length :=
    (swapRemove_perm a b entity).length_eq
  dsimp only
  by_cases hab : a ++ b = []
  · have h0 : (swapRemove (a ++ entity :: b) a.length).length = 0 := by rw [hlen, hab]; rfl
    rw [if_pos h0, if_pos hab]
    exact Finmap.lookup_erase _ _
  · have h0 : (swapRemove (a ++ entity :: b) a.length).length ≠ 0 := by
      rw [hlen]
      exact fun hc => hab (List.length_eq_zero.1 hc)
    rw [if_neg h0, if_neg hab]
    exact Finmap.lookup_insert _

/-! ## The invariant of the reachable states -/

theorem Inv_New : Inv New := by
  refine ⟨?_, ?_, ?_⟩ <;> intro a b h <;> simp [New] at h

theorem Inv_addEntity (e : ecStore) (key : String) (entity : Entity) (hI : Inv e)
    (hk : getTypeKey entity = .ok key) : Inv (addEntity e key entity) := by
  have look : ∀ k list, (addEntity e key entity).store.lookup k = some list →
      (k = key ∧ list = ((e.store.lookup key).getD []) ++ [entity]) ∨
      (k ≠ key ∧ e.store.lookup k = some list) := by
    intro k list h
    by_cases hkk : k = key
    · subst hkk
      rw [addEntity_store_same] at h
      injection h with h
      exact Or.inl ⟨rfl, h.symm⟩
    · rw [addEntity_store_other e key entity k hkk] at h
      exact Or.inr ⟨hkk, h⟩
  refine ⟨?_, ?_, ?_⟩
  · intro k list h
    rcases look k list h with ⟨-, hl⟩ | ⟨-, hl⟩
    · rw [hl]; simp
    · exact hI.nonempty k list hl
  · intro k list h x hx
    rcases look k list h with ⟨hkk, hl⟩ | ⟨-, hl⟩
    · subst hkk
      rw [hl, List.mem_append] at hx
      rcases hx with hx | hx
      · cases ho : e.store.lookup k with
        | none => rw [ho] at hx; simp at hx
        | some old =>
          rw [ho] at hx
          exact hI.keyed k old ho x hx
      · rw [List.mem_singleton.1 hx]; exact hk
    · exact hI.keyed k list hl x hx
  · intro id x h
    rw [addEntity_idCache] at h
    by_cases hid : id = entity.Id
    · subst hid
      rw [Finmap.lookup_insert] at h
      injection h with h
      subst h
      exact ⟨rfl, key, _, hk, addEntity_store_same e key entity, by simp⟩
    · rw [Finmap.lookup_insert_of_ne _ hid] at h
      obtain ⟨h1, k, list, h2, h3, h4⟩ := hI.indexed id x h
      refine ⟨h1, k, ?_⟩
      by_cases hkk : k = key
      · subst hkk
        exact ⟨_, h2, addEntity_store_same e k entity, by rw [h3]; simp [h4]⟩
      · exact ⟨list, h2, by rw [addEntity_store_other e key entity k hkk]; exact h3, h4⟩

theorem Inv_removeEntity (e : ecStore) (key : String) (entity : Entity) (hI : Inv e) :
    Inv (removeEntity e key entity) := by
  rcases removeEntity_idCache_cases e key entity with h0 | ⟨a, b, hl, hna⟩
  · rw [h0]; exact hI
  have hperm := swapRemove_perm a b entity
  have hsame := removeEntity_store_same e key entity a b hl hna
  have hid : (removeEntity e key entity).idCache = e.idCache.erase entity.Id := by
    rw [removeEntity_found e key entity a b hl hna]
  have look : ∀ k list, (removeEntity e key entity).store.lookup k = some list →
      (k = key ∧ list = swapRemove (a ++ entity :: b) a.length ∧ a ++ b ≠ []) ∨
      (k ≠ key ∧ e.store.lookup k = some list) := by
    intro k list h
    by_cases hkk : k = key
    · subst hkk
      rw [hsame] at h
      by_cases hab : a ++ b = []
      · rw [if_pos hab] at h; cases h
      · rw [if_neg hab] at h
        injection h with h
        exact Or.inl ⟨rfl, h.symm, hab⟩
    · rw [removeEntity_store_other e key entity k hkk] at h
      exact Or.inr ⟨hkk, h⟩
  refine ⟨?_, ?_, ?_⟩
  · intro k list h
    rcases look k list h with ⟨-, hlist, hab⟩ | ⟨-, hlist⟩
    · rw [hlist]
      intro hc
      apply hab
      have := hperm.length_eq
      rw [hc] at this
      exact List.length_eq_zero.1 this.symm
    · exact hI.nonempty k list hlist
  · intro k list h x hx
    rcases look k list h with ⟨hkk, hlist, -⟩ | ⟨-, hlist⟩
    · subst hkk
      rw [hlist] at hx
      have hx2 : x ∈ a ++ b := hperm.subset hx
      apply hI.keyed k _ hl x
      rw [List.mem_append] at hx2 ⊢
      rcases hx2 with hx2 | hx2
      · exact Or.inl hx2
      · exact Or.inr (List.mem_cons_of_mem _ hx2)
    · exact hI.keyed k list hlist x hx
  · intro id x h
    rw [hid] at h
    have hne : id ≠ entity.Id := by
      intro hc
      rw [hc, Finmap.lookup_erase] at h
      cases h
    rw [Finmap.lookup_erase_ne hne] at h
    obtain ⟨h1, k, list, h2, h3, h4⟩ := hI.indexed id x h
    refine ⟨h1, k, ?_⟩
    have hxe : x ≠ entity := fun hc => hne (by rw [← h1, hc])
    by_cases hkk : k = key
    · subst hkk
      rw [hl] at h3
      injection h3 with h3
      subst h3
      have hx2 : x ∈ a ++ b := by
        rw [List.mem_append] at h4 ⊢
        rcases h4 with h4 | h4
        · exact Or.inl h4
        · rcases List.mem_cons.1 h4 with h4 | h4
          · exact absurd h4 hxe
          · exact Or.inr h4
      have hab : a ++ b ≠ [] := List.ne_nil_of_mem hx2
      exact ⟨_, h2, by rw [hsame, if_neg hab], hperm.symm.subset hx2⟩
    · exact ⟨list, h2, by rw [removeEntity_store_other e key entity k hkk]; exact h3, h4⟩

theorem Inv_addLoop (entities : List Entity) :
    ∀ e : ecStore, Inv e → Inv (addLoop e entities).1 := by
  induction entities with
  | nil => intro e hI; exact hI
  | cons entity rest ih =>
    intro e hI
    rcases getTypeKey_cases entity with ⟨key, hk⟩ | hk
    · rw [addLoop_cons_ok e entity rest key hk]
      exact ih _ (Inv_addEntity e key entity hI hk)
    · have hv : ¬ Valid entity := by
        rintro ⟨key, hkey⟩
        rw [hk] at hkey
        cases hkey
      rw [addLoop_cons_invalid e entity rest hv]
      exact hI

theorem Inv_removeLoop (entities : List Entity) :
    ∀ e : ecStore, Inv e → Inv (removeLoop e entities).1 := by
  induction entities with
  | nil => intro e hI; exact hI
  | cons entity rest ih =>
    intro e hI
    rcases getTypeKey_cases entity with ⟨key, hk⟩ | hk
    · rw [removeLoop_cons_ok e entity rest key hk]
      exact ih _ (Inv_removeEntity e key entity hI)
    · have hv : ¬ Valid entity := by
        rintro ⟨key, hkey⟩
        rw [hk] at hkey
        cases hkey
      rw [removeLoop_cons_invalid e entity rest hv]
      exact hI

theorem Inv_of_Reachable (e : ecStore) (h : Reachable e) : Inv e := by
  induction h with
  | new => exact Inv_New
  | add e entities _ ih =>
    unfold Add
    split_ifs
    · exact ih
    · exact Inv_addLoop entities e ih
  | remove e entities _ ih =>
    unfold Remove
    split_ifs
    · exact ih
    · exact Inv_removeLoop entities e ih
  | clear e _ _ => exact Inv_New

/-! ## C1: the size of the id index and the bucket lengths -/

theorem Reachable_storeA : Reachable storeA := Reachable.add New [entA] Reachable.new

theorem Reachable_storeDup : Reachable storeDup := Reachable.add storeA [entA2] Reachable_storeA

theorem CountTotal_le_bucketTotal_of_Inv (e : ecStore) (hI : Inv e) :
    CountTotal e ≤ bucketTotal e := by
  let f : String → Entity := fun id => (e.idCache.lookup id).getD Entity.nil
  let ents : Finset Entity :=
    e.store.keys.biUnion (fun key => ((e.store.lookup key).getD []).toFinset)
  have hmaps : ∀ id ∈ e.idCache.keys, f id ∈ ents := by
    intro id hid
    obtain ⟨x, hx⟩ := Finmap.mem_iff.1 (Finmap.mem_keys.1 hid)
    obtain ⟨-, key, list, -, hl, hm⟩ := hI.indexed id x hx
    have hfx : f id = x := by simp [f, hx]
    rw [hfx]
    refine Finset.mem_biUnion.2 ⟨key, ?_, ?_⟩
    · exact Finmap.mem_keys.2 (Finmap.mem_of_lookup_eq_some hl)
    · simp [hl, hm]
  have hinj : Set.InjOn f e.idCache.keys := by
    intro i hi j hj hij
    obtain ⟨x, hx⟩ := Finmap.mem_iff.1 (Finmap.mem_keys.1 (Finset.mem_coe.1 hi))
    obtain ⟨y, hy⟩ := Finmap.mem_iff.1 (Finmap.mem_keys.1 (Finset.mem_coe.1 hj))
    have hfx : f i = x := by simp [f, hx]
    have hfy : f j = y := by simp [f, hy]
    rw [hfx, hfy] at hij
    rw [← (hI.indexed i x hx).1, ← (hI.indexed j y hy).1, hij]
  calc CountTotal e = e.idCache.keys.card := rfl
    _ ≤ ents.card := Finset.card_le_card_of_injOn f hmaps hinj
    _ ≤ ∑ key in e.store.keys, (((e.store.lookup key).getD []).toFinset).card :=
        Finset.card_biUnion_le
    _ ≤ ∑ key in e.store.keys, ((e.store.lookup key).getD []).length :=
        Finset.sum_le_sum (fun key _ => List.toFinset_card_le _)
    _ = bucketTotal e := rfl

/-- C1, refuted as stated: after `Add(entA)` and `Add(entA2)`, two objects of one type that
share the id `"a"`, the store is reachable, the id index has one entry and the only bucket
has two, so `CountTotal()` is 1 while the bucket lengths (and `CountType`) sum to 2. -/
theorem C1_counterexample :
    Reachable storeDup ∧ CountTotal storeDup = 1 ∧ bucketTotal storeDup = 2 ∧
      CountType storeDup sampleSimple = 2 ∧ CountTotal storeDup ≠ bucketTotal storeDup :=
  ⟨Reachable_storeDup, by decide, by decide, by decide, by decide⟩

/-- C1, amended: in every store state reachable from `New()` by `Add`, `Remove` and `Clear`
calls (entity ids fixed), `CountTotal()`, the size of the id index, is at most the sum of the
lengths of all type buckets. -/
theorem C1_CountTotal_le_bucketTotal (e : ecStore) (h : Reachable e) :
    CountTotal e ≤ bucketTotal e :=
  CountTotal_le_bucketTotal_of_Inv e (Inv_of_Reachable e h)

/-- Witness of C1 at the store holding two objects with one id. -/
theorem C1_CountTotal_le_bucketTotal_witness :
    Reachable storeDup ∧ CountTotal storeDup ≤ bucketTotal storeDup :=
  ⟨Reachable_storeDup, C1_CountTotal_le_bucketTotal storeDup Reachable_storeDup⟩

/-! ## Calls with one argument, and the readers in terms of the maps -/

theorem Add_singleton (e : ecStore) (entity : Entity) (key : String)
    (hk : getTypeKey entity = .ok key) :
    Add e [entity] = (addEntity e key entity, none) := by
  have h1 : Add e [entity] = addLoop e [entity] := by simp [Add]
  rw [h1, addLoop_cons_ok e entity [] key hk]
  rfl

theorem Remove_singleton (e : ecStore) (entity : Entity) (key : String)
    (hk : getTypeKey entity = .ok key) :
    Remove e [entity] = (removeEntity e key entity, none) := by
  have h1 : Remove e [entity] = removeLoop e [entity] := by simp [Remove]
  rw [h1, removeLoop_cons_ok e entity [] key hk]
  rfl

theorem GetAll_of_key (e : ecStore) (ent : Entity) (key : String)
    (hk : getTypeKey ent = .ok key) :
    GetAll e ent = .ok ((e.store.lookup key).getD []) := by
  cases h : e.store.lookup key <;> simp [GetAll, hk, h]

theorem CountType_of_key (e : ecStore) (ent : Entity) (key : String)
    (hk : getTypeKey ent = .ok key) :
    CountType e ent = ((e.store.lookup key).getD []).length := by
  unfold CountType
  rw [GetAll_of_key e ent key hk]

theorem exists_first_occurrence (entity : Entity) (list : List Entity) (h : entity ∈ list) :
    ∃ a b, list = a ++ entity :: b ∧ entity ∉ a := by
  cases hf : findEntry entity list 0 with
  | none => exact absurd h ((findEntry_none entity list 0).1 hf)
  | some i =>
    obtain ⟨a, b, hl, hna, -⟩ := findEntry_some entity list 0 i hf
    exact ⟨a, b, hl, hna⟩

/-- The bucket of `key` after `removeEntity` found the entity: a rearrangement of the bucket
without the first occurrence of the entity. -/
theorem removeEntity_bucket (e : ecStore) (key : String) (entity : Entity) (a b : List Entity)
    (h : e.store.lookup key = some (a ++ entity :: b)) (hn : entity ∉ a) :
    (((removeEntity e key entity).store.lookup key).getD []).Perm (a ++ b) := by
  rw [removeEntity_store_same e key entity a b h hn]
  by_cases hab : a ++ b = []
  · rw [if_pos hab, hab]; exact List.Perm.refl _
  · rw [if_neg hab]; exact swapRemove_perm a b entity

theorem removeEntity_idCache (e : ecStore) (key : String) (entity : Entity) (a b : List Entity)
    (h : e.store.lookup key = some (a ++ entity :: b)) (hn : entity ∉ a) :
    (removeEntity e key entity).idCache = e.idCache.erase entity.Id := by
  rw [removeEntity_found e key entity a b h hn]

/-! ## C2: `Add(E)` followed by `Remove(E)` -/

theorem CountTotal_erase_insert (e : ecStore) (id : String) (x : Entity) :
    ((e.idCache.insert id x).erase id).keys.card =
      if GetById e id = none then CountTotal e else CountTotal e - 1 := by
  rw [erase_insert_same, Finmap.keys_erase]
  unfold GetById CountTotal
  by_cases hin : id ∈ e.idCache
  · have hne : e.idCache.lookup id ≠ none := fun hc => (Finmap.lookup_eq_none.1 hc) hin
    rw [if_neg hne, Finset.card_erase_of_mem (Finmap.mem_keys.2 hin)]
  · have hnone : e.idCache.lookup id = none := Finmap.lookup_eq_none.2 hin
    rw [if_pos hnone, Finset.erase_eq_of_not_mem (fun hc => hin (Finmap.mem_keys.1 hc))]

/-- C2, refuted as stated: in the reachable store holding `entA` (id `"a"`), `Add(entA2)`
followed by `Remove(entA2)`, for the valid entity `entA2` with the same id, leaves
`CountTotal()` at 0, not at its value 1 before the `Add`. -/
theorem C2_counterexample :
    Reachable storeA ∧ Valid entA2 ∧ CountTotal storeA = 1 ∧
      CountTotal (Remove (Add storeA [entA2]).1 [entA2]).1 = 0 :=
  ⟨Reachable_storeA, ⟨"SimpleEntity", rfl⟩, by decide, by decide⟩

/-- C2, amended: for every store state and every valid entity `E`, `Add(E)` and then
`Remove(E)` both succeed, restore `CountType(E)` to its value before the `Add`, and leave
`GetById(E.Id())` absent; `CountTotal()` is restored when `E.Id()` was not in the id index
before the `Add`, and is one less than before when it was. -/
theorem C2_add_remove_round_trip (e : ecStore) (E : Entity) (hE : Valid E) :
    (Add e [E]).2 = none ∧ (Remove (Add e [E]).1 [E]).2 = none ∧
    CountType (Remove (Add e [E]).1 [E]).1 E = CountType e E ∧
    GetById (Remove (Add e [E]).1 [E]).1 E.Id = none ∧
    (GetById e E.Id = none → CountTotal (Remove (Add e [E]).1 [E]).1 = CountTotal e) ∧
    (GetById e E.Id ≠ none → CountTotal (Remove (Add e [E]).1 [E]).1 + 1 = CountTotal e) := by
  obtain ⟨key, hk⟩ := hE
  rw [Add_singleton e E key hk, Remove_singleton _ E key hk]
  have hl := addEntity_store_same e key E
  obtain ⟨a, b, hab, hna⟩ := exists_first_occurrence E (((e.store.lookup key).getD []) ++ [E])
    (by simp)
  rw [hab] at hl
  have hperm := removeEntity_bucket (addEntity e key E) key E a b hl hna
  have hid := removeEntity_idCache (addEntity e key E) key E a b hl hna
  rw [addEntity_idCache] at hid
  have hlen : (a ++ b).length = ((e.store.lookup key).getD []).length := by
    have := congrArg List.length hab
    simp only [List.length_append, List.length_cons, List.length_singleton,
      List.length_nil] at this ⊢
    omega
  have hcard := CountTotal_erase_insert e E.Id E
  refine ⟨rfl, rfl, ?_, ?_, ?_, ?_⟩
  · rw [CountType_of_key _ E key hk, CountType_of_key e E key hk, hperm.length_eq, hlen]
  · show (removeEntity (addEntity e key E) key E).idCache.lookup E.Id = none
    rw [hid]
    exact Finmap.lookup_erase _ _
  · intro hnone
    show (removeEntity (addEntity e key E) key E).idCache.keys.card = CountTotal e
    rw [hid, hcard, if_pos hnone]
  · intro hsome
    show (removeEntity (addEntity e key E) key E).idCache.keys.card + 1 = CountTotal e
    rw [hid, hcard, if_neg hsome]
    have hpos : 0 < CountTotal e := by
      unfold CountTotal
      apply Finset.card_pos.2
      refine ⟨E.Id, Finmap.mem_keys.2 ?_⟩
      by_contra hc
      exact hsome (Finmap.lookup_eq_none.2 hc)
    omega

/-- Witness of C2 at the store holding `entA` and the entity `entB`. -/
theorem C2_add_remove_round_trip_witness :
    Valid entB ∧
    ((Add storeA [entB]).2 = none ∧ (Remove (Add storeA [entB]).1 [entB]).2 = none ∧
    CountType (Remove (Add storeA [entB]).1 [entB]).1 entB = CountType storeA entB ∧
    GetById (Remove (Add storeA [entB]).1 [entB]).1 entB.Id = none ∧
    (GetById storeA entB.Id = none →
      CountTotal (Remove (Add storeA [entB]).1 [entB]).1 = CountTotal storeA) ∧
    (GetById storeA entB.Id ≠ none →
      CountTotal (Remove (Add storeA [entB]).1 [entB]).1 + 1 = CountTotal storeA)) :=
  ⟨⟨"SimpleEntity", rfl⟩, C2_add_remove_round_trip storeA entB ⟨"SimpleEntity", rfl⟩⟩

/-! ## C3: what `Remove(E1)` does to the id index -/

theorem Remove_singleton_invalid (e : ecStore) (entity : Entity) (h : ¬ Valid entity) :
    Remove e [entity] = (e, some ErrInvalidEntityPointer) := by
  have h1 : Remove e [entity] = removeLoop e [entity] := by simp [Remove]
  rw [h1, removeLoop_cons_invalid e entity [] h]

/-- C3, refuted as stated: the store after `Add(entA)`, `Add(entA2)` holds the two distinct
entities `entA` and `entA2`, which share the id `"a"`, and `GetById("a")` returns `entA2`;
after `Remove(entA)` it returns nothing, although `entA2` is still in its bucket. -/
theorem C3_counterexample :
    entA ≠ entA2 ∧ entA.Id = entA2.Id ∧
      storeDup.store.lookup "SimpleEntity" = some [entA, entA2] ∧
      GetById storeDup entA2.Id = some entA2 ∧
      GetById (Remove storeDup [entA]).1 entA2.Id = none ∧
      (Remove storeDup [entA]).1.store.lookup "SimpleEntity" = some [entA2] :=
  ⟨by decide, by decide, by decide, by decide, by decide, by decide⟩

/-- C3, amended: for every store and every entity `E1`, `Remove(E1)` does not change the
result of `GetById` for any id other than `E1.Id()`, so not for an entity `E2` whose id
differs from that of `E1`; and when `E1` is valid and a member of the bucket of its type key,
`GetById(E1.Id())` is absent afterwards, whichever entity the id index held under that id. -/
theorem C3_remove_GetById (e : ecStore) (E1 : Entity) :
    (∀ id, id ≠ E1.Id → GetById (Remove e [E1]).1 id = GetById e id) ∧
    (∀ key list, getTypeKey E1 = .ok key → e.store.lookup key = some list → E1 ∈ list →
      GetById (Remove e [E1]).1 E1.Id = none) := by
  constructor
  · intro id hid
    rcases getTypeKey_cases E1 with ⟨key, hk⟩ | hk
    · rw [Remove_singleton e E1 key hk]
      rcases removeEntity_idCache_cases e key E1 with h0 | ⟨a, b, hl, hna⟩
      · rw [h0]
      · show (removeEntity e key E1).idCache.lookup id = e.idCache.lookup id
        rw [removeEntity_idCache e key E1 a b hl hna]
        exact Finmap.lookup_erase_ne hid
    · have hv : ¬ Valid E1 := by
        rintro ⟨key, hkey⟩
        rw [hk] at hkey
        cases hkey
      rw [Remove_singleton_invalid e E1 hv]
  · intro key list hk hl hm
    rw [Remove_singleton e E1 key hk]
    obtain ⟨a, b, hab, hna⟩ := exists_first_occurrence E1 list hm
    rw [hab] at hl
    show (removeEntity e key E1).idCache.lookup E1.Id = none
    rw [removeEntity_idCache e key E1 a b hl hna]
    exact Finmap.lookup_erase _ _

/-- Witness of C3 at the store holding `entA` and `entA2`, removing `entA`. -/
theorem C3_remove_GetById_witness :
    ("b" ≠ entA.Id ∧ GetById (Remove storeDup [entA]).1 "b" = GetById storeDup "b") ∧
    (getTypeKey entA = .ok "SimpleEntity" ∧
      storeDup.store.lookup "SimpleEntity" = some [entA, entA2] ∧ entA ∈ [entA, entA2] ∧
      GetById (Remove storeDup [entA]).1 entA.Id = none) :=
  ⟨⟨by decide, (C3_remove_GetById storeDup entA).1 "b" (by decide)⟩,
    ⟨rfl, by decide, by decide,
      (C3_remove_GetById storeDup entA).2 "SimpleEntity" [entA, entA2] rfl (by decide)
        (by decide)⟩⟩

/-! ## C4: two entities with one id, the second removed -/

/-- C4: for every store and every two distinct valid entities `E1`, `E2` of the same type key
and with the same id, after `Add(E1)`, `Add(E2)` and `Remove(E2)` (all three succeed)
`GetById(id)` is absent, while `E1` is still in the sequence `GetAll` returns for its type
and `CountType` is one more than before the three calls. -/
theorem C4_remove_second_of_same_id (e : ecStore) (E1 E2 : Entity) (key : String)
    (h1 : getTypeKey E1 = .ok key) (h2 : getTypeKey E2 = .ok key) (hne : E1 ≠ E2)
    (hid : E1.Id = E2.Id) :
    (Add e [E1]).2 = none ∧ (Add (Add e [E1]).1 [E2]).2 = none ∧
    (Remove (Add (Add e [E1]).1 [E2]).1 [E2]).2 = none ∧
    GetById (Remove (Add (Add e [E1]).1 [E2]).1 [E2]).1 E1.Id = none ∧
    (∃ list, GetAll (Remove (Add (Add e [E1]).1 [E2]).1 [E2]).1 E1 = .ok list ∧ E1 ∈ list) ∧
    CountType (Remove (Add (Add e [E1]).1 [E2]).1 [E2]).1 E1 = CountType e E1 + 1 := by
  rw [Add_singleton e E1 key h1, Add_singleton _ E2 key h2, Remove_singleton _ E2 key h2]
  have hl := addEntity_store_same (addEntity e key E1) key E2
  rw [addEntity_store_same e key E1, Option.getD_some] at hl
  obtain ⟨a, b, hab, hna⟩ := exists_first_occurrence E2
    ((((e.store.lookup key).getD []) ++ [E1]) ++ [E2]) (by simp)
  rw [hab] at hl
  have hperm := removeEntity_bucket (addEntity (addEntity e key E1) key E2) key E2 a b hl hna
  have hidc := removeEntity_idCache (addEntity (addEntity e key E1) key E2) key E2 a b hl hna
  have hmem : E1 ∈ a ++ b := by
    have hm : E1 ∈ a ++ E2 :: b := by rw [← hab]; simp
    rw [List.mem_append] at hm ⊢
    rcases hm with hm | hm
    · exact Or.inl hm
    · rcases List.mem_cons.1 hm with hm | hm
      · exact absurd hm hne
      · exact Or.inr hm
  have hlen : (a ++ b).length = ((e.store.lookup key).getD []).length + 1 := by
    have := congrArg List.length hab
    simp only [List.length_append, List.length_cons, List.length_singleton,
      List.length_nil] at this ⊢
    omega
  refine ⟨rfl, rfl, rfl, ?_, ?_, ?_⟩
  · show (removeEntity (addEntity (addEntity e key E1) key E2) key E2).idCache.lookup E1.Id
      = none
    rw [hidc, hid]
    exact Finmap.lookup_erase _ _
  · exact ⟨_, GetAll_of_key _ E1 key h1, hperm.symm.subset hmem⟩
  · rw [CountType_of_key _ E1 key h1, CountType_of_key e E1 key h1, hperm.length_eq, hlen]

/-- Witness of C4 at the empty store with `entA` and `entA2`. -/
theorem C4_remove_second_of_same_id_witness :
    getTypeKey entA = .ok "SimpleEntity" ∧ getTypeKey entA2 = .ok "SimpleEntity" ∧
    entA ≠ entA2 ∧ entA.Id = entA2.Id ∧
    GetById (Remove (Add (Add New [entA]).1 [entA2]).1 [entA2]).1 entA.Id = none ∧
    CountType (Remove (Add (Add New [entA]).1 [entA2]).1 [entA2]).1 entA
      = CountType New entA + 1 :=
  have h := C4_remove_second_of_same_id New entA entA2 "SimpleEntity" rfl rfl (by decide)
    (by decide)
  ⟨rfl, rfl, by decide, by decide, h.2.2.2.1, h.2.2.2.2.2⟩

/-! ## The loop of `Add` over valid arguments -/

theorem hasTypeKey_of_key {entity : Entity} {key : String} (hk : getTypeKey entity = .ok key)
    (key' : String) : hasTypeKey key' entity = decide (key = key') := by
  simp [hasTypeKey, hk]

theorem addLoop_append (pre rest : List Entity) :
    ∀ e : ecStore, (∀ x ∈ pre, Valid x) →
      addLoop e (pre ++ rest) = addLoop (addLoop e pre).1 rest := by
  induction pre with
  | nil => intro e _; rfl
  | cons x pre ih =>
    intro e hv
    obtain ⟨key, hk⟩ := hv x (List.mem_cons_self x pre)
    rw [List.cons_append, addLoop_cons_ok e x _ key hk, addLoop_cons_ok e x _ key hk]
    exact ih _ (fun y hy => hv y (List.mem_cons_of_mem x hy))

theorem addLoop_valid_snd (l : List Entity) :
    ∀ e : ecStore, (∀ x ∈ l, Valid x) → (addLoop e l).2 = none := by
  induction l with
  | nil => intro e _; rfl
  | cons x l ih =>
    intro e hv
    obtain ⟨key, hk⟩ := hv x (List.mem_cons_self x l)
    rw [addLoop_cons_ok e x _ key hk]
    exact ih _ (fun y hy => hv y (List.mem_cons_of_mem x hy))

theorem addLoop_bucket (l : List Entity) (key : String) :
    ∀ e : ecStore, (∀ x ∈ l, Valid x) →
      ((addLoop e l).1.store.lookup key).getD [] =
        (e.store.lookup key).getD [] ++ l.filter (hasTypeKey key) := by
  induction l with
  | nil => intro e _; simp [addLoop]
  | cons x l ih =>
    intro e hv
    obtain ⟨kx, hk⟩ := hv x (List.mem_cons_self x l)
    rw [addLoop_cons_ok e x _ kx hk, ih _ (fun y hy => hv y (List.mem_cons_of_mem x hy))]
    by_cases hkk : key = kx
    · subst hkk
      have hx : hasTypeKey key x = true := by rw [hasTypeKey_of_key hk]; simp
      rw [addEntity_store_same, List.filter_cons_of_pos hx]
      simp
    · have hx : ¬ (hasTypeKey key x = true) := by
        rw [hasTypeKey_of_key hk]
        simpa using fun hc : kx = key => hkk hc.symm
      rw [addEntity_store_other e kx x key hkk, List.filter_cons_of_neg hx]

theorem addLoop_idCache_of_not_mem (l : List Entity) (id : String) :
    ∀ e : ecStore, (∀ x ∈ l, Valid x) → (∀ x ∈ l, x.Id ≠ id) →
      (addLoop e l).1.idCache.lookup id = e.idCache.lookup id := by
  induction l with
  | nil => intro e _ _; rfl
  | cons x l ih =>
    intro e hv hid
    obtain ⟨kx, hk⟩ := hv x (List.mem_cons_self x l)
    rw [addLoop_cons_ok e x _ kx hk, ih _ (fun y hy => hv y (List.mem_cons_of_mem x hy))
      (fun y hy => hid y (List.mem_cons_of_mem x hy)), addEntity_idCache]
    exact Finmap.lookup_insert_of_ne _ (fun hc => hid x (List.mem_cons_self x l) hc.symm)

theorem addLoop_idCache_last (pre post : List Entity) (x : Entity) (e : ecStore)
    (hv : ∀ y ∈ pre ++ x :: post, Valid y) (hpost : ∀ y ∈ post, y.Id ≠ x.Id) :
    (addLoop e (pre ++ x :: post)).1.idCache.lookup x.Id = some x := by
  obtain ⟨kx, hk⟩ := hv x (by simp)
  rw [addLoop_append pre _ e (fun y hy => hv y (by simp [hy])),
    addLoop_cons_ok _ x post kx hk,
    addLoop_idCache_of_not_mem post x.Id _ (fun y hy => hv y (by simp [hy])) hpost,
    addEntity_idCache]
  exact Finmap.lookup_insert _

theorem Add_of_ne_nil (e : ecStore) (l : List Entity) (h : l ≠ []) : Add e l = addLoop e l := by
  unfold Add
  rw [if_neg (fun hc => h (List.length_eq_zero.1 hc))]

theorem Add_fst (e : ecStore) (l : List Entity) : (Add e l).1 = (addLoop e l).1 := by
  cases l with
  | nil => rfl
  | cons x l => rw [Add_of_ne_nil e (x :: l) (List.cons_ne_nil x l)]

/-! ## The loop of `Add` up to the first invalid value it reads -/

/-- When the values the loop of `Add` reads are `pre ++ bad :: post`, with `pre` valid and `bad`
invalid, `Add` returns the invalid-entity error and leaves the state that reading `pre` alone
leaves: every bucket is the bucket before followed by the entities of `pre` with that type
key, in order, and when `pre` is empty the state is unchanged. -/
theorem Add_stops_at_first_invalid (e : ecStore) (pre post : List Entity) (bad : Entity)
    (hpre : ∀ x ∈ pre, Valid x) (hbad : ¬ Valid bad) :
    (Add e (pre ++ bad :: post)).2 = some ErrInvalidEntityPointer ∧
    (Add e (pre ++ bad :: post)).1 = (Add e pre).1 ∧
    (pre ≠ [] → (Add e pre).2 = none) ∧
    (pre = [] → (Add e (pre ++ bad :: post)).1 = e) ∧
    (∀ key, ((Add e (pre ++ bad :: post)).1.store.lookup key).getD [] =
      (e.store.lookup key).getD [] ++ pre.filter (hasTypeKey key)) := by
  have hne : pre ++ bad :: post ≠ [] := by simp
  have hrun : Add e (pre ++ bad :: post) = ((addLoop e pre).1, some ErrInvalidEntityPointer) := by
    rw [Add_of_ne_nil e _ hne, addLoop_append pre _ e hpre, addLoop_cons_invalid _ bad post hbad]
  refine ⟨by rw [hrun], by rw [hrun, Add_fst], ?_, ?_, ?_⟩
  · intro hp
    rw [Add_of_ne_nil e pre hp]
    exact addLoop_valid_snd pre e hpre
  · intro hp
    rw [hrun, hp]
    rfl
  · intro key
    rw [hrun]
    exact addLoop_bucket pre key e hpre

/-! ## C6, C7, C8: consequences of the invariant -/

theorem Reachable_storeABC : Reachable storeABC :=
  Reachable.add New [entA, entB, entC] Reachable.new

theorem Reachable_storeElsewhere : Reachable storeElsewhere :=
  Reachable.add New [entElsewhere] Reachable.new

theorem GetAll_ok_iff (e : ecStore) (sample : Entity) (list : List Entity) :
    GetAll e sample = .ok list ↔
      ∃ key, getTypeKey sample = .ok key ∧ list = (e.store.lookup key).getD [] := by
  constructor
  · intro h
    rcases getTypeKey_cases sample with ⟨key, hk⟩ | hk
    · rw [GetAll_of_key e sample key hk] at h
      injection h with h
      exact ⟨key, hk, h.symm⟩
    · simp [GetAll, hk] at h
  · rintro ⟨key, hk, rfl⟩
    exact GetAll_of_key e sample key hk

theorem mem_bucket {e : ecStore} {key : String} {x : Entity}
    (h : x ∈ (e.store.lookup key).getD []) :
    ∃ list, e.store.lookup key = some list ∧ x ∈ list := by
  cases hl : e.store.lookup key with
  | none => rw [hl] at h; simp at h
  | some list => rw [hl] at h; exact ⟨list, rfl, h⟩

/-- C6: in every store state reachable from `New()` by `Add`, `Remove` and `Clear` (entity ids
fixed), an id present in the id index maps to an entity that has that id, that is a member
of the sequence `GetAll` returns for its own type, and that is a member of the bucket of no
other type key. -/
theorem C6_id_index_entries (e : ecStore) (h : Reachable e) (id : String) (x : Entity)
    (hx : GetById e id = some x) :
    x.Id = id ∧
    (∃ list, GetAll e x = .ok list ∧ x ∈ list) ∧
    (∀ sample list, GetAll e sample = .ok list → x ∈ list → getTypeKey sample = getTypeKey x) ∧
    (∀ key list, e.store.lookup key = some list → x ∈ list → getTypeKey x = .ok key) := by
  have hI := Inv_of_Reachable e h
  obtain ⟨h1, key, list, hk, hl, hm⟩ := hI.indexed id x hx
  refine ⟨h1, ⟨list, ?_, hm⟩, ?_, ?_⟩
  · rw [GetAll_of_key e x key hk, hl]
    rfl
  · intro sample list' hg hm'
    obtain ⟨key', hk', rfl⟩ := (GetAll_ok_iff e sample list').1 hg
    obtain ⟨l2, hl2, hm2⟩ := mem_bucket hm'
    rw [hk', hI.keyed key' l2 hl2 x hm2]
  · intro key' list' hl' hm'
    exact hI.keyed key' list' hl' x hm'

/-- Witness of C6 at the store after `Add(entA, entB, entC)` and the id `"b"`. -/
theorem C6_id_index_entries_witness :
    Reachable storeABC ∧ GetById storeABC "b" = some entB ∧ entB.Id = "b" ∧
    (∃ list, GetAll storeABC entB = .ok list ∧ entB ∈ list) :=
  have h := C6_id_index_entries storeABC Reachable_storeABC "b" entB (by decide)
  ⟨Reachable_storeABC, by decide, h.1, h.2.1⟩

/-- C7: in every store state reachable from `New()` by `Add`, `Remove` and `Clear`, no key of
the type index maps to an empty bucket, so a type key is a key of the type index iff the
bucket found under it is non-empty. -/
theorem C7_no_empty_bucket (e : ecStore) (h : Reachable e) (key : String) :
    (∀ list, e.store.lookup key = some list → list ≠ []) ∧
    (key ∈ e.store ↔ (e.store.lookup key).getD [] ≠ []) := by
  have hI := Inv_of_Reachable e h
  refine ⟨hI.nonempty key, ?_⟩
  constructor
  · intro hin
    obtain ⟨list, hl⟩ := Finmap.mem_iff.1 hin
    rw [hl]
    exact hI.nonempty key list hl
  · intro hne
    by_contra hc
    rw [Finmap.lookup_eq_none.2 hc] at hne
    exact hne rfl

/-- Witness of C7 at the store after `Add(entA, entB, entC)` and `Remove(entC)`, where the
bucket of `ComplexEntity` became empty and its key was deleted. -/
theorem C7_no_empty_bucket_witness :
    Reachable (Remove storeABC [entC]).1 ∧
    "ComplexEntity" ∉ (Remove storeABC [entC]).1.store ∧
    ("ComplexEntity" ∈ (Remove storeABC [entC]).1.store ↔
      ((Remove storeABC [entC]).1.store.lookup "ComplexEntity").getD [] ≠ []) :=
  have hr : Reachable (Remove storeABC [entC]).1 :=
    Reachable.remove storeABC [entC] Reachable_storeABC
  ⟨hr, by decide, (C7_no_empty_bucket (Remove storeABC [entC]).1 hr "ComplexEntity").2⟩

/-- C8, refuted as stated: `tSimpleElsewhere` is a struct type of another package that is
also named `SimpleEntity`; after `Add(entElsewhere)` the store is reachable and `GetAll` for
a sample of the type `tSimple` returns `entElsewhere`, an entity of a different type. -/
theorem C8_counterexample :
    Reachable storeElsewhere ∧ storeElsewhere.store.lookup "SimpleEntity" = some [entElsewhere] ∧
      getTypeKey sampleSimple = .ok "SimpleEntity" ∧
      GetAll storeElsewhere sampleSimple = .ok [entElsewhere] ∧
      pointee sampleSimple = some tSimple ∧ pointee entElsewhere = some tSimpleElsewhere ∧
      pointee entElsewhere ≠ pointee sampleSimple :=
  ⟨Reachable_storeElsewhere, by decide, rfl, rfl, rfl, rfl, by decide⟩

/-- C8, amended: in every store state reachable from `New()` by any interleaving of `Add`,
`Remove` and `Clear` calls, every entity in the result of `GetAll(sample)` has the same type
key as `sample`, that is, it points to a struct whose type name is that of the sample's
type: `GetAll` for type A never returns an entity of a type B of another name. -/
theorem C8_type_isolation (e : ecStore) (h : Reachable e) (sample : Entity)
    (list : List Entity) (hg : GetAll e sample = .ok list) (x : Entity) (hx : x ∈ list) :
    getTypeKey x = getTypeKey sample ∧
    ∃ tx ts, pointee x = some tx ∧ pointee sample = some ts ∧ tx.name = ts.name ∧
      tx.kind = Kind.Struct ∧ ts.kind = Kind.Struct := by
  have hI := Inv_of_Reachable e h
  obtain ⟨key, hk, rfl⟩ := (GetAll_ok_iff e sample list).1 hg
  obtain ⟨l2, hl2, hm2⟩ := mem_bucket hx
  have hkx := hI.keyed key l2 hl2 x hm2
  refine ⟨by rw [hkx, hk], ?_⟩
  obtain ⟨tx, ax, ix, rfl, hsx, hnx⟩ := (getTypeKey_ok_iff x key).1 hkx
  obtain ⟨ts, as, is, rfl, hss, hns⟩ := (getTypeKey_ok_iff sample key).1 hk
  exact ⟨tx, ts, rfl, rfl, by rw [hnx, hns], hsx, hss⟩

/-- Witness of C8 at the store after `Add(entA, entB, entC)` with a `SimpleEntity` sample. -/
theorem C8_type_isolation_witness :
    Reachable storeABC ∧ GetAll storeABC sampleSimple = .ok [entA, entB] ∧
    entB ∈ [entA, entB] ∧ getTypeKey entB = getTypeKey sampleSimple :=
  ⟨Reachable_storeABC, rfl, by decide,
    (C8_type_isolation storeABC Reachable_storeABC sampleSimple [entA, entB] rfl entB
      (by decide)).1⟩

/-! ## The id index after the loop of `Add` -/

/-- When the values the loop of `Add` reads are a non-empty list of valid entities, `Add`
succeeds; afterwards `GetById(id)` returns, for each id occurring in the list, the last
entity of the list with that id, and an id occurring nowhere in the list keeps its
`GetById` result. -/
theorem Add_points_id_at_last (e : ecStore) (l : List Entity) (hne : l ≠ [])
    (hv : ∀ x ∈ l, Valid x) :
    (Add e l).2 = none ∧
    (∀ pre x post, l = pre ++ x :: post → (∀ y ∈ post, y.Id ≠ x.Id) →
      GetById (Add e l).1 x.Id = some x) ∧
    (∀ id, (∀ x ∈ l, x.Id ≠ id) → GetById (Add e l).1 id = GetById e id) := by
  rw [Add_of_ne_nil e l hne]
  refine ⟨addLoop_valid_snd l e hv, ?_, ?_⟩
  · intro pre x post hl hpost
    subst hl
    exact addLoop_idCache_last pre post x e hv hpost
  · intro id hid
    exact addLoop_idCache_of_not_mem l id e hv hid

/-! ## The buckets after the loop of `Add` -/

theorem addAll_bucket (calls : List (List Entity)) (key : String) :
    ∀ e : ecStore, (∀ l ∈ calls, ∀ x ∈ l, Valid x) →
      ((addAll e calls).store.lookup key).getD [] =
        (e.store.lookup key).getD [] ++ calls.flatten.filter (hasTypeKey key) := by
  induction calls with
  | nil => intro e _; simp [addAll]
  | cons l calls ih =>
    intro e hv
    have hstep : addAll e (l :: calls) = addAll (Add e l).1 calls := rfl
    rw [hstep, ih _ (fun l' hl' => hv l' (List.mem_cons_of_mem l hl')), Add_fst,
      addLoop_bucket l key e (hv l (List.mem_cons_self l calls))]
    simp

/-- When the values the loop of `Add` reads are a non-empty list of valid entities, `Add`
succeeds and afterwards `GetAll` returns, for a sample of any type key, the sequence it
returned before followed by the values of that type key, in the order read, and `CountType`
grows by their number; after such calls only, from `New()`, `GetAll` returns the values read
of that type key in the order read and `CountType` is their number. -/
theorem Add_appends_in_order (e : ecStore) (l : List Entity) (hne : l ≠ [])
    (hv : ∀ x ∈ l, Valid x) :
    (Add e l).2 = none ∧
    (∀ sample key, getTypeKey sample = .ok key →
      ∃ before, GetAll e sample = .ok before ∧
        GetAll (Add e l).1 sample = .ok (before ++ l.filter (hasTypeKey key)) ∧
        CountType (Add e l).1 sample = CountType e sample + (l.filter (hasTypeKey key)).length) ∧
    (∀ calls : List (List Entity), (∀ c ∈ calls, ∀ x ∈ c, Valid x) →
      ∀ sample key, getTypeKey sample = .ok key →
        GetAll (addAll New calls) sample = .ok (calls.flatten.filter (hasTypeKey key)) ∧
        CountType (addAll New calls) sample = (calls.flatten.filter (hasTypeKey key)).length) := by
  refine ⟨?_, ?_, ?_⟩
  · rw [Add_of_ne_nil e l hne]
    exact addLoop_valid_snd l e hv
  · intro sample key hk
    refine ⟨_, GetAll_of_key e sample key hk, ?_, ?_⟩
    · rw [GetAll_of_key _ sample key hk, Add_fst, addLoop_bucket l key e hv]
    · rw [CountType_of_key _ sample key hk, CountType_of_key e sample key hk, Add_fst,
        addLoop_bucket l key e hv, List.length_append]
  · intro calls hcalls sample key hk
    have hb := addAll_bucket calls key New hcalls
    have hnew : (New.store.lookup key).getD [] = [] := by simp [New]
    rw [hnew, List.nil_append] at hb
    exact ⟨by rw [GetAll_of_key _ sample key hk, hb],
      by rw [CountType_of_key _ sample key hk, hb]⟩

/-! ## C12: removal swaps with the last element -/

theorem getElem?_around (a t : List Entity) (x : Entity) (j : Nat) (hj : j ≠ a.length) :
    (a ++ x :: t)[j]? = if j < a.length then a[j]? else t[j - a.length - 1]? := by
  by_cases hlt : j < a.length
  · rw [if_pos hlt, List.getElem?_append_left hlt]
  · have hle : a.length ≤ j := Nat.le_of_not_lt hlt
    obtain ⟨m, hm⟩ : ∃ m, j - a.length = m + 1 := ⟨j - a.length - 1, by omega⟩
    rw [if_neg hlt, List.getElem?_append_right hle, hm]
    simp

/-- C12: when `E` first occurs at index `i` (the length of `a`) of its bucket `a ++ E :: b` of
length `n`, `Remove(E)` succeeds and leaves under that key a bucket of length `n - 1` that
holds the former last element at index `i` (when `i < n - 1`) and the former element at
every other index `j < n - 1`; the key is deleted when `n = 1`; and when `E` was at index 0
of a bucket of length at least 2, `GetFirst` returns the former last element. -/
theorem C12_swap_with_last (e : ecStore) (E : Entity) (key : String) (a b : List Entity)
    (hk : getTypeKey E = .ok key) (hl : e.store.lookup key = some (a ++ E :: b))
    (hna : E ∉ a) :
    (Remove e [E]).2 = none ∧
    (a ++ b = [] → (Remove e [E]).1.store.lookup key = none) ∧
    (a ++ b ≠ [] → ∃ list', (Remove e [E]).1.store.lookup key = some list' ∧
      list'.length + 1 = (a ++ E :: b).length ∧
      (b ≠ [] → list'[a.length]? = (a ++ E :: b)[(a ++ E :: b).length - 1]?) ∧
      (∀ j, j < list'.length → j ≠ a.length → list'[j]? = (a ++ E :: b)[j]?)) ∧
    (a = [] → b ≠ [] → GetFirst (Remove e [E]).1 E = .ok b.getLast?) := by
  rw [Remove_singleton e E key hk]
  have hsame := removeEntity_store_same e key E a b hl hna
  refine ⟨rfl, ?_, ?_, ?_⟩
  · intro hab
    show (removeEntity e key E).store.lookup key = none
    rw [hsame, if_pos hab]
  · intro hab
    refine ⟨swapRemove (a ++ E :: b) a.length, ?_, ?_, ?_, ?_⟩
    · show (removeEntity e key E).store.lookup key = _
      rw [hsame, if_neg hab]
    · rw [(swapRemove_perm a b E).length_eq]
      simp
      omega
    · intro hb
      rcases List.eq_nil_or_concat b with hb0 | ⟨b', z, hbz⟩
      · exact absurd hb0 hb
      · subst hbz
        rw [List.concat_eq_append, swapRemove_middle]
        have h1 : (a ++ z :: b')[a.length]? = some z := by
          rw [List.getElem?_append_right (Nat.le_refl _)]
          simp
        have h2 : (a ++ E :: (b' ++ [z]))[(a ++ E :: (b' ++ [z])).length - 1]? = some z := by
          have hre : a ++ E :: (b' ++ [z]) = (a ++ E :: b') ++ [z] := by simp
          rw [hre, List.length_append, List.length_singleton, Nat.add_sub_cancel,
            List.getElem?_append_right (Nat.le_refl _)]
          simp
        rw [h1, h2]
    · intro j hj hja
      rcases List.eq_nil_or_concat b with hb0 | ⟨b', z, hbz⟩
      · subst hb0
        rw [swapRemove_last] at hj ⊢
        rw [List.getElem?_append_left hj]
      · subst hbz
        rw [List.concat_eq_append, swapRemove_middle] at hj ⊢
        rw [getElem?_around a b' z j hja, getElem?_around a (b' ++ [z]) E j hja]
        by_cases hlt : j < a.length
        · rw [if_pos hlt, if_pos hlt]
        · rw [if_neg hlt, if_neg hlt]
          have hj2 : j - a.length - 1 < b'.length := by
            simp only [List.length_append, List.length_cons] at hj
            omega
          rw [List.getElem?_append_left hj2]
  · intro ha hb
    subst ha
    rcases List.eq_nil_or_concat b with hb0 | ⟨b', z, hbz⟩
    · exact absurd hb0 hb
    · subst hbz
      have hne : ([] : List Entity) ++ b'.concat z ≠ [] := by simp
      have hlook : (removeEntity e key E).store.lookup key = some (z :: b') := by
        rw [hsame, if_neg hne, List.concat_eq_append]
        exact congrArg some (swapRemove_middle [] b' E z)
      show GetFirst (removeEntity e key E) E = _
      unfold GetFirst
      rw [GetAll_of_key _ E key hk, hlook]
      simp

/-- Witness of C12: removing `entA`, at index 0 of the bucket `[entA, entB]` of the store after
`Add(entA, entB, entC)`, leaves `[entB]` and makes `GetFirst` return `entB`. -/
theorem C12_swap_with_last_witness :
    getTypeKey entA = .ok "SimpleEntity" ∧
    storeABC.store.lookup "SimpleEntity" = some ([] ++ entA :: [entB]) ∧ entA ∉ [] ∧
    (Remove storeABC [entA]).2 = none ∧
    GetFirst (Remove storeABC [entA]).1 entA = .ok [entB].getLast? :=
  have h := C12_swap_with_last storeABC entA "SimpleEntity" [] [entB] rfl (by decide)
    (by simp)
  ⟨rfl, by decide, by simp, h.1, h.2.2.2 rfl (by simp)⟩

/-! ## C13: removing an entity that is not stored -/

/-- C13: for every store state and every valid entity `E` whose type key has no bucket, or
whose bucket does not hold `E` itself, `Remove(E)` returns no error and leaves the type index
and the id index as they were, whatever ids the stored entities have. -/
theorem C13_remove_absent_is_noop (e : ecStore) (E : Entity) (key : String)
    (hk : getTypeKey E = .ok key) (habsent : ∀ list, e.store.lookup key = some list → E ∉ list) :
    Remove e [E] = (e, none) := by
  rw [Remove_singleton e E key hk]
  cases hl : e.store.lookup key with
  | none => rw [removeEntity_absent e key E hl]
  | some list => rw [removeEntity_not_mem e key E list hl (habsent list hl)]

/-- Witness of C13: `entA2` is not in the store holding `entA`, which has the same id. -/
theorem C13_remove_absent_is_noop_witness :
    getTypeKey entA2 = .ok "SimpleEntity" ∧
    (∀ list, storeA.store.lookup "SimpleEntity" = some list → entA2 ∉ list) ∧
    GetById storeA entA2.Id = some entA ∧
    Remove storeA [entA2] = (storeA, none) :=
  have habs : ∀ list, storeA.store.lookup "SimpleEntity" = some list → entA2 ∉ list := by
    intro list hlist
    have h0 : storeA.store.lookup "SimpleEntity" = some [entA] := by decide
    rw [h0] at hlist
    injection hlist with hlist
    rw [← hlist]
    decide
  ⟨rfl, habs, by decide, C13_remove_absent_is_noop storeA entA2 "SimpleEntity" rfl habs⟩

/-! ## C14: calls without arguments -/

/-- C14: for every store state, `Add` and `Remove` called with zero arguments each return the
no-entities-provided error and leave the type index and the id index unchanged. -/
theorem C14_no_entities_provided (e : ecStore) :
    Add e [] = (e, some ErrNoEntitiesProvided) ∧ Remove e [] = (e, some ErrNoEntitiesProvided) :=
  ⟨rfl, rfl⟩

/-! ## C15: `Clear` -/

/-- C15: for every store state, `Clear` returns no error and yields the state of `New()`:
`CountTotal()` is 0, `CountType` is 0 and `GetAll` fails or is empty for every sample,
`GetById` is absent for every id; a second `Clear` gives the same result as the first, and an
`Add` after it returns and leaves what it does on a fresh store. -/
theorem C15_clear_resets (e : ecStore) :
    Clear e = (New, none) ∧
    CountTotal (Clear e).1 = 0 ∧
    (∀ sample, CountType (Clear e).1 sample = 0) ∧
    (∀ sample list, GetAll (Clear e).1 sample = .ok list → list = []) ∧
    (∀ id, GetById (Clear e).1 id = none) ∧
    Clear (Clear e).1 = Clear e ∧
    (∀ entities, Add (Clear e).1 entities = Add New entities) := by
  have hlook : ∀ key, (New.store.lookup key).getD [] = [] := fun key => by simp [New]
  refine ⟨rfl, rfl, ?_, ?_, ?_, rfl, fun _ => rfl⟩
  · intro sample
    show CountType New sample = 0
    rcases getTypeKey_cases sample with ⟨key, hk⟩ | hk
    · rw [CountType_of_key New sample key hk, hlook]
      rfl
    · simp [CountType, GetAll, hk]
  · intro sample list hg
    obtain ⟨key, -, hlist⟩ := (GetAll_ok_iff New sample list).1 hg
    rw [hlist, hlook]
  · intro id
    simp [GetById, Clear]

/-! ## C16: `CountType` -/

theorem GetAll_invalid (e : ecStore) (sample : Entity) (h : ¬ Valid sample) :
    GetAll e sample = .error ErrInvalidEntityPointer := by
  rcases getTypeKey_cases sample with hk | hk
  · exact absurd hk h
  · simp [GetAll, hk]

/-- C16: for every store state and every sample, `CountType(sample)` is the length of the
sequence `GetAll(sample)` returns when the sample is valid, for which `GetAll` never fails
(and is 0, `GetAll` returning the empty result, when its type key has no bucket), and is 0
when the sample is invalid, for which `GetAll` fails with the invalid-entity error. -/
theorem C16_CountType_never_fails (e : ecStore) (sample : Entity) :
    (∀ list, GetAll e sample = .ok list → CountType e sample = list.length) ∧
    (Valid sample → ∃ list, GetAll e sample = .ok list) ∧
    (∀ key, getTypeKey sample = .ok key → e.store.lookup key = none →
      GetAll e sample = .ok [] ∧ CountType e sample = 0) ∧
    (¬ Valid sample →
      GetAll e sample = .error ErrInvalidEntityPointer ∧ CountType e sample = 0) := by
  refine ⟨?_, ?_, ?_, ?_⟩
  · intro list hg
    unfold CountType
    rw [hg]
  · rintro ⟨key, hk⟩
    exact ⟨_, GetAll_of_key e sample key hk⟩
  · intro key hk hnone
    have hg : GetAll e sample = .ok [] := by rw [GetAll_of_key e sample key hk, hnone]; rfl
    refine ⟨hg, ?_⟩
    unfold CountType
    rw [hg]
    rfl
  · intro hv
    have hg := GetAll_invalid e sample hv
    refine ⟨hg, ?_⟩
    unfold CountType
    rw [hg]

/-- Witness of C16: a `ComplexEntity` sample on the store holding `entA` only, and the nil
sample. -/
theorem C16_CountType_never_fails_witness :
    (getTypeKey entC = .ok "ComplexEntity" ∧ storeA.store.lookup "ComplexEntity" = none ∧
      GetAll storeA entC = .ok [] ∧ CountType storeA entC = 0) ∧
    (¬ Valid Entity.nil ∧ GetAll storeA Entity.nil = .error ErrInvalidEntityPointer ∧
      CountType storeA Entity.nil = 0) ∧
    (Valid sampleSimple ∧ ∃ list, GetAll storeA sampleSimple = .ok list) :=
  ⟨⟨rfl, by decide,
      (C16_CountType_never_fails storeA entC).2.2.1 "ComplexEntity" rfl (by decide)⟩,
    ⟨not_Valid_nil, (C16_CountType_never_fails storeA Entity.nil).2.2.2 not_Valid_nil⟩,
    ⟨⟨"SimpleEntity", rfl⟩,
      (C16_CountType_never_fails storeA sampleSimple).2.1 ⟨"SimpleEntity", rfl⟩⟩⟩

/-! ## C17: which values are entities -/

theorem removeLoop_valid_snd (l : List Entity) :
    ∀ e : ecStore, (∀ x ∈ l, Valid x) → (removeLoop e l).2 = none := by
  induction l with
  | nil => intro e _; rfl
  | cons x l ih =>
    intro e hv
    obtain ⟨key, hk⟩ := hv x (List.mem_cons_self x l)
    rw [removeLoop_cons_ok e x _ key hk]
    exact ih _ (fun y hy => hv y (List.mem_cons_of_mem x hy))

theorem addLoop_invalid_snd (l : List Entity) :
    ∀ e : ecStore, (∃ x ∈ l, ¬ Valid x) → (addLoop e l).2 = some ErrInvalidEntityPointer := by
  induction l with
  | nil => rintro e ⟨x, hx, -⟩; simp at hx
  | cons y l ih =>
    rintro e ⟨x, hx, hxv⟩
    rcases getTypeKey_cases y with ⟨key, hk⟩ | hk
    · rw [addLoop_cons_ok e y l key hk]
      rcases List.mem_cons.1 hx with hxy | hxl
      · exact absurd ⟨key, hxy ▸ hk⟩ hxv
      · exact ih _ ⟨x, hxl, hxv⟩
    · rw [addLoop_cons_invalid e y l (not_Valid_of_error hk)]

theorem removeLoop_invalid_snd (l : List Entity) :
    ∀ e : ecStore, (∃ x ∈ l, ¬ Valid x) →
      (removeLoop e l).2 = some ErrInvalidEntityPointer := by
  induction l with
  | nil => rintro e ⟨x, hx, -⟩; simp at hx
  | cons y l ih =>
    rintro e ⟨x, hx, hxv⟩
    rcases getTypeKey_cases y with ⟨key, hk⟩ | hk
    · rw [removeLoop_cons_ok e y l key hk]
      rcases List.mem_cons.1 hx with hxy | hxl
      · exact absurd ⟨key, hxy ▸ hk⟩ hxv
      · exact ih _ ⟨x, hxl, hxv⟩
    · rw [removeLoop_cons_invalid e y l (not_Valid_of_error hk)]

theorem Add_invalid_iff (e : ecStore) (l : List Entity) :
    (Add e l).2 = some ErrInvalidEntityPointer ↔ ∃ x ∈ l, ¬ Valid x := by
  constructor
  · intro h
    by_contra hc
    push_neg at hc
    cases l with
    | nil => simp [Add] at h
    | cons y l =>
      rw [Add_of_ne_nil e _ (List.cons_ne_nil y l), addLoop_valid_snd _ e hc] at h
      cases h
  · intro h
    have hne : l ≠ [] := by
      rintro rfl
      obtain ⟨x, hx, -⟩ := h
      simp at hx
    rw [Add_of_ne_nil e l hne]
    exact addLoop_invalid_snd l e h

theorem Remove_invalid_iff (e : ecStore) (l : List Entity) :
    (Remove e l).2 = some ErrInvalidEntityPointer ↔ ∃ x ∈ l, ¬ Valid x := by
  have hrun : l ≠ [] → Remove e l = removeLoop e l := by
    intro hne
    unfold Remove
    rw [if_neg (fun hc => hne (List.length_eq_zero.1 hc))]
  constructor
  · intro h
    by_contra hc
    push_neg at hc
    cases l with
    | nil => simp [Remove] at h
    | cons y l =>
      rw [hrun (List.cons_ne_nil y l), removeLoop_valid_snd _ e hc] at h
      cases h
  · intro h
    have hne : l ≠ [] := by
      rintro rfl
      obtain ⟨x, hx, -⟩ := h
      simp at hx
    rw [hrun hne]
    exact removeLoop_invalid_snd l e h

theorem not_Valid_iff (x : Entity) :
    ¬ Valid x ↔ (x = Entity.nil ∨ (∃ elem, x = .nilPtr elem) ∨
      (∃ isStruct typeName id, x = .value isStruct typeName id) ∨
      (∃ elem addr id, x = .ptr elem addr id ∧ elem.kind ≠ Kind.Struct)) := by
  cases x with
  | nil => simp [not_Valid_nil]
  | nilPtr elem =>
    have : ¬ Valid (.nilPtr elem) := by
      rintro ⟨key, hk⟩
      obtain ⟨_, _, _, h, -, -⟩ := (getTypeKey_ok_iff _ key).1 hk
      cases h
    simp [this]
  | value b n i =>
    have : ¬ Valid (.value b n i) := by
      rintro ⟨key, hk⟩
      obtain ⟨_, _, _, h, -, -⟩ := (getTypeKey_ok_iff _ key).1 hk
      cases h
    simp [this]
  | ptr elem addr id =>
    by_cases hs : elem.kind = Kind.Struct
    · simp [Valid_ptr elem addr id hs, hs]
    · have : ¬ Valid (.ptr elem addr id) := by
        rintro ⟨key, hk⟩
        obtain ⟨_, _, _, h, hs', -⟩ := (getTypeKey_ok_iff _ key).1 hk
        injection h with h1 h2 h3
        exact hs (h1 ▸ hs')
      simp [this, hs]

theorem getTypeKey_error_iff (x : Entity) :
    getTypeKey x = .error ErrInvalidEntityPointer ↔ ¬ Valid x := by
  constructor
  · exact not_Valid_of_error
  · intro h
    rcases getTypeKey_cases x with hk | hk
    · exact absurd hk h
    · exact hk

/-- C17: `getTypeKey(value)` fails, with the invalid-entity error, exactly when the value is
the nil interface, a nil pointer, or not a pointer to a struct (not a pointer at all, or a
pointer to something else); otherwise it returns the name of the struct type pointed to, so
two valid entities of the same type get the same type key; and `Add`, `Remove` and `GetAll`
fail with the invalid-entity error on the same inputs: the argument lists holding a value
on which `getTypeKey` fails, for `GetAll` the samples on which it fails. -/
theorem C17_type_key_resolution (x : Entity) :
    (getTypeKey x = .error ErrInvalidEntityPointer ↔
      (x = Entity.nil ∨ (∃ elem, x = .nilPtr elem) ∨
        (∃ isStruct typeName id, x = .value isStruct typeName id) ∨
        (∃ elem addr id, x = .ptr elem addr id ∧ elem.kind ≠ Kind.Struct))) ∧
    (∀ err, getTypeKey x = .error err → err = ErrInvalidEntityPointer) ∧
    (∀ key, getTypeKey x = .ok key ↔
      ∃ elem addr id, x = .ptr elem addr id ∧ elem.kind = Kind.Struct ∧ elem.name = key) ∧
    (∀ y, Valid x → Valid y → pointee x = pointee y → getTypeKey x = getTypeKey y) ∧
    (∀ e, (Add e [x]).2 = some ErrInvalidEntityPointer ↔
      getTypeKey x = .error ErrInvalidEntityPointer) ∧
    (∀ e, (Remove e [x]).2 = some ErrInvalidEntityPointer ↔
      getTypeKey x = .error ErrInvalidEntityPointer) ∧
    (∀ e, GetAll e x = .error ErrInvalidEntityPointer ↔
      getTypeKey x = .error ErrInvalidEntityPointer) ∧
    (∀ e e' l, (Add e l).2 = some ErrInvalidEntityPointer ↔
      (Remove e' l).2 = some ErrInvalidEntityPointer) := by
  refine ⟨?_, ?_, ?_, ?_, ?_, ?_, ?_, ?_⟩
  · rw [getTypeKey_error_iff, not_Valid_iff]
  · exact fun err h => getTypeKey_error x err h
  · exact getTypeKey_ok_iff x
  · rintro y ⟨kx, hx⟩ ⟨ky, hy⟩ hp
    obtain ⟨tx, ax, ix, rfl, -, hnx⟩ := (getTypeKey_ok_iff x kx).1 hx
    obtain ⟨ty, ay, iy, rfl, -, hny⟩ := (getTypeKey_ok_iff y ky).1 hy
    have ht : tx = ty := by simpa [pointee] using hp
    rw [hx, hy, ← hnx, ← hny, ht]
  · intro e
    rw [Add_invalid_iff, getTypeKey_error_iff]
    simp
  · intro e
    rw [Remove_invalid_iff, getTypeKey_error_iff]
    simp
  · intro e
    rw [getTypeKey_error_iff]
    constructor
    · intro h hv
      obtain ⟨key, hk⟩ := hv
      rw [GetAll_of_key e x key hk] at h
      cases h
    · exact GetAll_invalid e x
  · intro e e' l
    rw [Add_invalid_iff, Remove_invalid_iff]

/-- Witness of C17: `entA` and the sample `&SimpleEntity{}` are valid and of one type. -/
theorem C17_type_key_resolution_witness :
    Valid entA ∧ Valid sampleSimple ∧ pointee entA = pointee sampleSimple ∧
    getTypeKey entA = getTypeKey sampleSimple ∧
    getTypeKey entA = .ok "SimpleEntity" :=
  ⟨⟨"SimpleEntity", rfl⟩, ⟨"SimpleEntity", rfl⟩, rfl,
    (C17_type_key_resolution entA).2.2.2.1 sampleSimple ⟨"SimpleEntity", rfl⟩
      ⟨"SimpleEntity", rfl⟩ rfl,
    ((C17_type_key_resolution entA).2.2.1 "SimpleEntity").2 ⟨tSimple, 1, "a", rfl, rfl, rfl⟩⟩

/-! ## Stores that hold a duplicate-free list of entities -/

theorem hasTypeKey_iff (key : String) (x : Entity) :
    hasTypeKey key x = true ↔ getTypeKey x = .ok key := by
  rcases getTypeKey_cases x with ⟨k, hk⟩ | hk
  · rw [hasTypeKey_of_key hk, hk]
    simp
  · simp [hasTypeKey, hk]

theorem addEntity_lookup (e : ecStore) (key : String) (entity : Entity) (k : String)
    (list : List Entity) (h : (addEntity e key entity).store.lookup k = some list) :
    (k = key ∧ list = ((e.store.lookup key).getD []) ++ [entity]) ∨
      (k ≠ key ∧ e.store.lookup k = some list) := by
  by_cases hkk : k = key
  · subst hkk
    rw [addEntity_store_same] at h
    injection h with h
    exact Or.inl ⟨rfl, h.symm⟩
  · rw [addEntity_store_other e key entity k hkk] at h
    exact Or.inr ⟨hkk, h⟩

theorem removeEntity_lookup (e : ecStore) (key : String) (entity : Entity) (a b : List Entity)
    (hl : e.store.lookup key = some (a ++ entity :: b)) (hna : entity ∉ a) (k : String)
    (list : List Entity) (h : (removeEntity e key entity).store.lookup k = some list) :
    (k = key ∧ list = swapRemove (a ++ entity :: b) a.length ∧ a ++ b ≠ []) ∨
      (k ≠ key ∧ e.store.lookup k = some list) := by
  by_cases hkk : k = key
  · subst hkk
    rw [removeEntity_store_same e k entity a b hl hna] at h
    by_cases hab : a ++ b = []
    · rw [if_pos hab] at h; cases h
    · rw [if_neg hab] at h
      injection h with h
      exact Or.inl ⟨rfl, h.symm, hab⟩
  · rw [removeEntity_store_other e key entity k hkk] at h
    exact Or.inr ⟨hkk, h⟩

theorem filter_erase_of_nodup (live : List Entity) (p : Entity → Bool) (x : Entity)
    (h : live.Nodup) : (live.filter p).erase x = (live.erase x).filter p := by
  rw [(h.filter p).erase_eq_filter, h.erase_eq_filter, List.filter_filter, List.filter_filter]
  congr 1
  funext y
  exact Bool.and_comm _ _

theorem Live_New : Live New [] := by
  refine ⟨List.nodup_nil, List.nodup_nil, ?_, ?_, ?_, ?_, ?_⟩
  · intro x hx; simp at hx
  · intro key list h; simp [New] at h
  · intro key; simp [New]
  · intro x hx; simp at hx
  · intro id x h; simp [New] at h

theorem Live_stored {e : ecStore} {live : List Entity} (hL : Live e live) {x : Entity}
    {key : String} (hx : x ∈ live) (hk : getTypeKey x = .ok key) :
    ∃ list, e.store.lookup key = some list ∧ x ∈ list := by
  have hf : x ∈ live.filter (hasTypeKey key) :=
    List.mem_filter.2 ⟨hx, (hasTypeKey_iff key x).2 hk⟩
  exact mem_bucket ((hL.bucket key).symm.subset hf)

theorem Live_of_stored {e : ecStore} {live : List Entity} (hL : Live e live) {x : Entity}
    {key : String} {list : List Entity} (hl : e.store.lookup key = some list) (hx : x ∈ list) :
    x ∈ live ∧ getTypeKey x = .ok key := by
  have hb := hL.bucket key
  rw [hl] at hb
  have hf := List.mem_filter.1 (hb.subset hx)
  exact ⟨hf.1, (hasTypeKey_iff key x).1 hf.2⟩

theorem Live_id_injective {e : ecStore} {live : List Entity} (hL : Live e live) {x y : Entity}
    (hx : x ∈ live) (hy : y ∈ live) (h : x.Id = y.Id) : x = y :=
  List.inj_on_of_nodup_map hL.ids hx hy h

theorem Live_addEntity (e : ecStore) (live : List Entity) (key : String) (x : Entity)
    (hL : Live e live) (hk : getTypeKey x = .ok key) (hx : x ∉ live)
    (hid : x.Id ∉ live.map Entity.Id) : Live (addEntity e key x) (live ++ [x]) := by
  refine ⟨?_, ?_, ?_, ?_, ?_, ?_, ?_⟩
  · rw [List.nodup_append]
    refine ⟨hL.nodup, List.nodup_singleton x, ?_⟩
    intro y hy hy'
    rw [List.mem_singleton.1 hy'] at hy
    exact hx hy
  · rw [List.map_append, List.nodup_append]
    refine ⟨hL.ids, List.nodup_singleton _, ?_⟩
    intro i hi hi'
    rw [List.map_singleton, List.mem_singleton] at hi'
    rw [hi'] at hi
    exact hid hi
  · intro y hy
    rcases List.mem_append.1 hy with hy | hy
    · exact hL.valid y hy
    · rw [List.mem_singleton.1 hy]; exact ⟨key, hk⟩
  · intro k list h
    rcases addEntity_lookup e key x k list h with ⟨-, hlist⟩ | ⟨-, hlist⟩
    · rw [hlist]; simp
    · exact hL.nonempty k list hlist
  · intro k
    by_cases hkk : k = key
    · subst hkk
      have hp : hasTypeKey k x = true := (hasTypeKey_iff k x).2 hk
      rw [addEntity_store_same, Option.getD_some, List.filter_append,
        List.filter_cons_of_pos hp, List.filter_nil]
      exact (hL.bucket k).append_right [x]
    · have hp : ¬ (hasTypeKey k x = true) := by
        rw [hasTypeKey_iff, hk]
        intro hc
        injection hc with hc
        exact hkk hc.symm
      rw [addEntity_store_other e key x k hkk, List.filter_append,
        List.filter_cons_of_neg hp, List.filter_nil, List.append_nil]
      exact hL.bucket k
  · intro y hy
    rw [addEntity_idCache]
    rcases List.mem_append.1 hy with hy | hy
    · have hne : y.Id ≠ x.Id := fun hc => hid (hc ▸ List.mem_map_of_mem Entity.Id hy)
      rw [Finmap.lookup_insert_of_ne _ hne]
      exact hL.cached y hy
    · rw [List.mem_singleton.1 hy]
      exact Finmap.lookup_insert _
  · intro id y h
    rw [addEntity_idCache] at h
    by_cases hne : id = x.Id
    · subst hne
      rw [Finmap.lookup_insert] at h
      injection h with h
      subst h
      exact ⟨by simp, rfl⟩
    · rw [Finmap.lookup_insert_of_ne _ hne] at h
      obtain ⟨h1, h2⟩ := hL.indexed id y h
      exact ⟨List.mem_append_left _ h1, h2⟩

theorem Live_removeEntity (e : ecStore) (live : List Entity) (key : String) (x : Entity)
    (hL : Live e live) (hk : getTypeKey x = .ok key) :
    Live (removeEntity e key x) (live.erase x) := by
  by_cases hx : x ∈ live
  swap
  · rw [List.erase_of_not_mem hx]
    cases hl : e.store.lookup key with
    | none => rw [removeEntity_absent e key x hl]; exact hL
    | some list =>
      rw [removeEntity_not_mem e key x list hl (fun hc => hx (Live_of_stored hL hl hc).1)]
      exact hL
  obtain ⟨list, hl0, hm⟩ := Live_stored hL hx hk
  obtain ⟨a, b, hab, hna⟩ := exists_first_occurrence x list hm
  have hl : e.store.lookup key = some (a ++ x :: b) := by rw [hl0, hab]
  have hperm := swapRemove_perm a b x
  have hbucket := removeEntity_bucket e key x a b hl hna
  have hidc := removeEntity_idCache e key x a b hl hna
  have herase : (a ++ x :: b).erase x = a ++ b := by
    rw [List.erase_append_right _ hna, List.erase_cons_head]
  refine ⟨hL.nodup.erase x, ?_, ?_, ?_, ?_, ?_, ?_⟩
  · exact hL.ids.sublist ((List.erase_sublist x live).map Entity.Id)
  · intro y hy
    exact hL.valid y (List.mem_of_mem_erase hy)
  · intro k l h
    rcases removeEntity_lookup e key x a b hl hna k l h with ⟨-, hlist, hne⟩ | ⟨-, hlist⟩
    · rw [hlist]
      intro hc
      apply hne
      have := hperm.length_eq
      rw [hc] at this
      exact List.length_eq_zero.1 this.symm
    · exact hL.nonempty k l hlist
  · intro k
    rw [← filter_erase_of_nodup live (hasTypeKey k) x hL.nodup]
    by_cases hkk : k = key
    · subst hkk
      have hb := hL.bucket k
      rw [hl, Option.getD_some] at hb
      have := hb.erase x
      rw [herase] at this
      exact hbucket.trans this
    · rw [removeEntity_store_other e key x k hkk]
      have hnot : x ∉ live.filter (hasTypeKey k) := by
        intro hc
        have := (hasTypeKey_iff k x).1 (List.mem_filter.1 hc).2
        rw [hk] at this
        injection this with this
        exact hkk this.symm
      rw [List.erase_of_not_mem hnot]
      exact hL.bucket k
  · intro y hy
    have hy' := (hL.nodup.mem_erase_iff).1 hy
    have hne : y.Id ≠ x.Id := fun hc => hy'.1 (Live_id_injective hL hy'.2 hx hc)
    rw [hidc, Finmap.lookup_erase_ne hne]
    exact hL.cached y hy'.2
  · intro id y h
    rw [hidc] at h
    have hne : id ≠ x.Id := by
      intro hc
      rw [hc, Finmap.lookup_erase] at h
      cases h
    rw [Finmap.lookup_erase_ne hne] at h
    obtain ⟨h1, h2⟩ := hL.indexed id y h
    refine ⟨(hL.nodup.mem_erase_iff).2 ⟨?_, h1⟩, h2⟩
    intro hc
    exact hne (by rw [← h2, hc])

theorem Live_addLoop (l : List Entity) :
    ∀ (e : ecStore) (live : List Entity), Live e live → (∀ x ∈ l, Valid x) → l.Nodup →
      (l.map Entity.Id).Nodup → (∀ x ∈ l, x ∉ live) → (∀ x ∈ l, x.Id ∉ live.map Entity.Id) →
      Live (addLoop e l).1 (live ++ l) := by
  induction l with
  | nil => intro e live hL _ _ _ _ _; simpa [addLoop] using hL
  | cons x l ih =>
    intro e live hL hv hnd hids hnew hidnew
    obtain ⟨key, hk⟩ := hv x (List.mem_cons_self x l)
    rw [addLoop_cons_ok e x l key hk]
    have hstep := Live_addEntity e live key x hL hk (hnew x (List.mem_cons_self x l))
      (hidnew x (List.mem_cons_self x l))
    rw [List.nodup_cons] at hnd
    rw [List.map_cons, List.nodup_cons] at hids
    have := ih (addEntity e key x) (live ++ [x]) hstep
      (fun y hy => hv y (List.mem_cons_of_mem x hy)) hnd.2 hids.2
      (fun y hy hc => by
        rcases List.mem_append.1 hc with hc | hc
        · exact hnew y (List.mem_cons_of_mem x hy) hc
        · rw [List.mem_singleton.1 hc] at hy
          exact hnd.1 hy)
      (fun y hy hc => by
        rw [List.map_append, List.mem_append] at hc
        rcases hc with hc | hc
        · exact hidnew y (List.mem_cons_of_mem x hy) hc
        · rw [List.map_singleton, List.mem_singleton] at hc
          exact hids.1 (hc ▸ List.mem_map_of_mem Entity.Id hy))
    simpa using this

theorem Live_removeLoop (l : List Entity) :
    ∀ (e : ecStore) (live : List Entity), Live e live → (∀ x ∈ l, Valid x) →
      Live (removeLoop e l).1 (live.diff l) := by
  induction l with
  | nil => intro e live hL _; simpa [removeLoop] using hL
  | cons x l ih =>
    intro e live hL hv
    obtain ⟨key, hk⟩ := hv x (List.mem_cons_self x l)
    rw [removeLoop_cons_ok e x l key hk, List.diff_cons]
    exact ih _ _ (Live_removeEntity e live key x hL hk)
      (fun y hy => hv y (List.mem_cons_of_mem x hy))

theorem Live_removeLoop_any (l : List Entity) :
    ∀ (e : ecStore) (live : List Entity), Live e live →
      ∃ live', Live (removeLoop e l).1 live' := by
  induction l with
  | nil => intro e live hL; exact ⟨live, hL⟩
  | cons x l ih =>
    intro e live hL
    rcases getTypeKey_cases x with ⟨key, hk⟩ | hk
    · rw [removeLoop_cons_ok e x l key hk]
      exact ih _ _ (Live_removeEntity e live key x hL hk)
    · rw [removeLoop_cons_invalid e x l (not_Valid_of_error hk)]
      exact ⟨live, hL⟩

theorem Live_CountTotal {e : ecStore} {live : List Entity} (hL : Live e live) :
    CountTotal e = live.length := by
  have hkeys : e.idCache.keys = (live.map Entity.Id).toFinset := by
    ext id
    rw [Finmap.mem_keys, Finmap.mem_iff, List.mem_toFinset, List.mem_map]
    constructor
    · rintro ⟨y, hy⟩
      exact ⟨y, hL.indexed id y hy⟩
    · rintro ⟨y, hy, rfl⟩
      exact ⟨y, hL.cached y hy⟩
  unfold CountTotal
  rw [hkeys, List.toFinset_card_of_nodup hL.ids, List.length_map]

theorem Live_CountType {e : ecStore} {live : List Entity} (hL : Live e live) (sample : Entity)
    (key : String) (hk : getTypeKey sample = .ok key) :
    CountType e sample = (live.filter (hasTypeKey key)).length := by
  rw [CountType_of_key e sample key hk, (hL.bucket key).length_eq]

theorem sum_filter_length (keys : Finset String) (l : List Entity)
    (h : ∀ x ∈ l, ∃ k ∈ keys, getTypeKey x = .ok k) :
    ∑ k in keys, (l.filter (hasTypeKey k)).length = l.length := by
  induction l with
  | nil => simp
  | cons x l ih =>
    obtain ⟨kx, hkx, hk⟩ := h x (List.mem_cons_self x l)
    have hstep : ∀ k, ((x :: l).filter (hasTypeKey k)).length =
        (l.filter (hasTypeKey k)).length + if kx = k then 1 else 0 := by
      intro k
      by_cases hkk : kx = k
      · have hp : hasTypeKey k x = true := by rw [hasTypeKey_of_key hk]; simp [hkk]
        rw [List.filter_cons_of_pos hp, if_pos hkk, List.length_cons]
      · have hp : ¬ (hasTypeKey k x = true) := by rw [hasTypeKey_of_key hk]; simp [hkk]
        rw [List.filter_cons_of_neg hp, if_neg hkk, Nat.add_zero]
    rw [Finset.sum_congr rfl (fun k _ => hstep k), Finset.sum_add_distrib,
      ih (fun y hy => h y (List.mem_cons_of_mem x hy)), Finset.sum_ite_eq, if_pos hkx,
      List.length_cons]

theorem Live_bucketTotal {e : ecStore} {live : List Entity} (hL : Live e live) :
    bucketTotal e = live.length := by
  unfold bucketTotal
  rw [Finset.sum_congr rfl (fun k _ => (hL.bucket k).length_eq)]
  apply sum_filter_length
  intro x hx
  obtain ⟨key, hk⟩ := hL.valid x hx
  obtain ⟨list, hl, -⟩ := Live_stored hL hx hk
  exact ⟨key, Finmap.mem_keys.2 (Finmap.mem_of_lookup_eq_some hl), hk⟩

theorem Remove_fst (e : ecStore) (l : List Entity) : (Remove e l).1 = (removeLoop e l).1 := by
  cases l with
  | nil => rfl
  | cons x l =>
    unfold Remove
    rw [if_neg (by simp)]

theorem length_diff_of_subset (l R : List Entity) (hR : R.Nodup) (hsub : ∀ x ∈ R, x ∈ l) :
    (l.diff R).length = l.length - R.length := by
  have hperm : (R ++ l.diff R).Perm l := by
    apply List.subperm_append_diff_self_of_count_le
    intro x hx
    rw [List.count_eq_one_of_mem hR hx]
    exact List.count_pos_iff.2 (hsub x hx)
  have := hperm.length_eq
  rw [List.length_append] at this
  omega

/-! ## C11: removing some of the entities one `Add` stored -/

/-- C11: for the store built from `New()` by one `Add` of the `n` valid, pairwise distinct
entities `l` with pairwise distinct ids, and every non-empty duplicate-free list `R` of
entities of `l`, `Remove(R)` returns no error, `CountTotal()` becomes `n - |R|`, `CountType`
of each type key becomes the number of kept entities of that key, `GetById` is absent for the
id of every removed entity and returns the kept entity for the id of every entity of `l`
that is not in `R`. -/
theorem C11_remove_some_of_added (l R : List Entity) (hv : ∀ x ∈ l, Valid x) (hnd : l.Nodup)
    (hids : (l.map Entity.Id).Nodup) (hR : R ≠ []) (hRnd : R.Nodup) (hsub : ∀ x ∈ R, x ∈ l) :
    (Add New l).2 = none ∧
    (Remove (Add New l).1 R).2 = none ∧
    CountTotal (Remove (Add New l).1 R).1 = l.length - R.length ∧
    (∀ sample key, getTypeKey sample = .ok key →
      CountType (Remove (Add New l).1 R).1 sample =
        ((l.filter (fun x => decide (x ∉ R))).filter (hasTypeKey key)).length) ∧
    (∀ x ∈ R, GetById (Remove (Add New l).1 R).1 x.Id = none) ∧
    (∀ x ∈ l, x ∉ R → GetById (Remove (Add New l).1 R).1 x.Id = some x) := by
  have hl : l ≠ [] := by
    rintro rfl
    cases R with
    | nil => exact hR rfl
    | cons x R => simpa using hsub x (List.mem_cons_self x R)
  have hRv : ∀ x ∈ R, Valid x := fun x hx => hv x (hsub x hx)
  have hL0 := Live_addLoop l New [] Live_New hv hnd hids (fun x _ hc => by simp at hc)
    (fun x _ hc => by simp at hc)
  rw [List.nil_append, ← Add_fst] at hL0
  have hL := Live_removeLoop R (Add New l).1 l hL0 hRv
  rw [← Remove_fst] at hL
  have hdiff : l.diff R = l.filter (fun x => decide (x ∉ R)) := hnd.diff_eq_filter
  refine ⟨?_, ?_, ?_, ?_, ?_, ?_⟩
  · rw [Add_of_ne_nil New l hl]
    exact addLoop_valid_snd l New hv
  · unfold Remove
    rw [if_neg (fun hc => hR (List.length_eq_zero.1 hc))]
    exact removeLoop_valid_snd R _ hRv
  · rw [Live_CountTotal hL, length_diff_of_subset l R hRnd hsub]
  · intro sample key hk
    rw [Live_CountType hL sample key hk, hdiff]
  · intro x hx
    cases hg : GetById (Remove (Add New l).1 R).1 x.Id with
    | none => rfl
    | some y =>
      exfalso
      obtain ⟨hy, hyid⟩ := hL.indexed x.Id y hg
      have hy' := (hnd.mem_diff_iff).1 hy
      have : y = x := List.inj_on_of_nodup_map hids hy'.1 (hsub x hx) hyid
      exact hy'.2 (this ▸ hx)
  · intro x hx hxR
    exact hL.cached x ((hnd.mem_diff_iff).2 ⟨hx, hxR⟩)

/-- Witness of C11: `Add(entA, entB, entC)` on the empty store, then `Remove(entA, entC)`. -/
theorem C11_remove_some_of_added_witness :
    (∀ x ∈ [entA, entB, entC], Valid x) ∧ [entA, entB, entC].Nodup ∧
    ([entA, entB, entC].map Entity.Id).Nodup ∧ [entA, entC] ≠ [] ∧ [entA, entC].Nodup ∧
    (∀ x ∈ [entA, entC], x ∈ [entA, entB, entC]) ∧
    CountTotal (Remove (Add New [entA, entB, entC]).1 [entA, entC]).1 = 3 - 2 ∧
    GetById (Remove (Add New [entA, entB, entC]).1 [entA, entC]).1 entA.Id = none ∧
    GetById (Remove (Add New [entA, entB, entC]).1 [entA, entC]).1 entB.Id = some entB :=
  have hv : ∀ x ∈ [entA, entB, entC], Valid x := fun x hx => by
    simp only [List.mem_cons, List.mem_singleton, List.not_mem_nil, or_false] at hx
    rcases hx with rfl | rfl | rfl
    · exact ⟨"SimpleEntity", rfl⟩
    · exact ⟨"SimpleEntity", rfl⟩
    · exact ⟨"ComplexEntity", rfl⟩
  have hsub : ∀ x ∈ [entA, entC], x ∈ [entA, entB, entC] := by decide
  have h := C11_remove_some_of_added [entA, entB, entC] [entA, entC] hv (by decide) (by decide)
    (by decide) (by decide) hsub
  ⟨hv, by decide, by decide, by decide, by decide, hsub, h.2.2.1,
    h.2.2.2.2.1 entA (by decide), h.2.2.2.2.2 entB (by decide) (by decide)⟩

/-! ## C20: the bijection when the caller supplies uniqueness -/

theorem Add_stop_fst (e : ecStore) (pre post : List Entity) (bad : Entity)
    (hpre : ∀ x ∈ pre, Valid x) (hbad : ¬ Valid bad) :
    (Add e (pre ++ bad :: post)).1 = (addLoop e pre).1 := by
  rw [Add_of_ne_nil e _ (by simp), addLoop_append pre _ e hpre,
    addLoop_cons_invalid _ bad post hbad]

theorem Live_fresh {e : ecStore} {live : List Entity} (hL : Live e live) {l : List Entity}
    (hf : FreshArgs e l) : Live (addLoop e l).1 (live ++ l) := by
  obtain ⟨hv, hnd, hns, hids, hni⟩ := hf
  refine Live_addLoop l e live hL hv hnd hids ?_ ?_
  · intro x hx hc
    obtain ⟨key, hk⟩ := hv x hx
    obtain ⟨list, hl, hm⟩ := Live_stored hL hc hk
    exact hns x hx ⟨key, list, hl, hm⟩
  · intro x hx hc
    obtain ⟨y, hy, hyid⟩ := List.mem_map.1 hc
    have h1 := hL.cached y hy
    have h2 := hni x hx
    unfold GetById at h2
    rw [← hyid, h1] at h2
    cases h2

theorem Live_of_ReachableFresh (e : ecStore) (h : ReachableFresh e) : ∃ live, Live e live := by
  induction h with
  | new => exact ⟨[], Live_New⟩
  | add e l _ hf ih =>
    obtain ⟨live, hL⟩ := ih
    rw [Add_fst]
    exact ⟨live ++ l, Live_fresh hL hf⟩
  | addFailing e pre bad post _ hf hbad ih =>
    obtain ⟨live, hL⟩ := ih
    rw [Add_stop_fst e pre post bad hf.1 hbad]
    exact ⟨live ++ pre, Live_fresh hL hf⟩
  | remove e l _ ih =>
    obtain ⟨live, hL⟩ := ih
    rw [Remove_fst]
    exact Live_removeLoop_any l e live hL
  | clear e _ _ => exact ⟨[], Live_New⟩

theorem FreshArgs_New (l : List Entity) (hv : ∀ x ∈ l, Valid x) (hnd : l.Nodup)
    (hids : (l.map Entity.Id).Nodup) : FreshArgs New l := by
  refine ⟨hv, hnd, ?_, hids, fun _ _ => rfl⟩
  rintro x - ⟨key, list, hl, -⟩
  simp [New] at hl

/-- C20, refuted as stated: the call `Add(entA, entA2, nil)` on the empty store fails, so it
is not a successful `Add` and the condition on successful calls says nothing of it, but it
has stored `entA` and `entA2`, which share the id `"a"`: in the state reached `CountTotal()`
is 1 and the bucket lengths sum to 2. -/
theorem C20_counterexample :
    ReachableSuccessFresh storePartial ∧
      (Add New [entA, entA2, Entity.nil]).2 = some ErrInvalidEntityPointer ∧
      CountTotal storePartial = 1 ∧ bucketTotal storePartial = 2 ∧
      CountTotal storePartial ≠ bucketTotal storePartial :=
  ⟨ReachableSuccessFresh.add New [entA, entA2, Entity.nil] ReachableSuccessFresh.new
      (fun h => absurd h (by decide)),
    by decide, by decide, by decide, by decide⟩

/-- C20, amended: in every store state reachable from `New()` by `Add`, `Remove` and `Clear`
calls in which each `Add`, failing or not, passes up to its first invalid argument only
valid entities that are pairwise distinct, not already stored, and whose ids are pairwise
distinct and not in the id index (ids fixed), `CountTotal()` equals the sum of all bucket
lengths, every stored entity occurs exactly once in its bucket and only in the bucket of its
own type key, `GetById(E.Id())` returns `E` for every stored entity `E` and only stored
entities are indexed; and such an `Add` of `n` entities increases `CountTotal()` by `n`. -/
theorem C20_bijection_under_fresh_adds (e : ecStore) (h : ReachableFresh e) :
    CountTotal e = bucketTotal e ∧
    (∀ key list, e.store.lookup key = some list → ∀ x ∈ list,
      list.count x = 1 ∧ getTypeKey x = .ok key) ∧
    (∀ x, Stored e x → GetById e x.Id = some x) ∧
    (∀ id x, GetById e id = some x → Stored e x ∧ x.Id = id) ∧
    (∀ l, FreshArgs e l → CountTotal (Add e l).1 = CountTotal e + l.length) := by
  obtain ⟨live, hL⟩ := Live_of_ReachableFresh e h
  refine ⟨?_, ?_, ?_, ?_, ?_⟩
  · rw [Live_CountTotal hL, Live_bucketTotal hL]
  · intro key list hl x hx
    have hb := hL.bucket key
    rw [hl, Option.getD_some] at hb
    have hnd : list.Nodup := hb.nodup_iff.2 (hL.nodup.filter _)
    exact ⟨List.count_eq_one_of_mem hnd hx, (Live_of_stored hL hl hx).2⟩
  · rintro x ⟨key, list, hl, hx⟩
    exact hL.cached x (Live_of_stored hL hl hx).1
  · intro id x hg
    obtain ⟨hx, hid⟩ := hL.indexed id x hg
    obtain ⟨key, hk⟩ := hL.valid x hx
    obtain ⟨list, hl, hm⟩ := Live_stored hL hx hk
    exact ⟨⟨key, list, hl, hm⟩, hid⟩
  · intro l hf
    have hL' := Live_fresh hL hf
    rw [← Add_fst] at hL'
    rw [Live_CountTotal hL', Live_CountTotal hL, List.length_append]

/-- Witness of C20: the store after `Add(entA, entB, entC)` on the empty store. -/
theorem C20_bijection_under_fresh_adds_witness :
    ReachableFresh storeABC ∧ CountTotal storeABC = bucketTotal storeABC ∧
    CountTotal storeABC = 3 :=
  have hv : ∀ x ∈ [entA, entB, entC], Valid x := fun x hx => by
    simp only [List.mem_cons, List.mem_singleton, List.not_mem_nil, or_false] at hx
    rcases hx with rfl | rfl | rfl
    · exact ⟨"SimpleEntity", rfl⟩
    · exact ⟨"SimpleEntity", rfl⟩
    · exact ⟨"ComplexEntity", rfl⟩
  have hr : ReachableFresh storeABC :=
    ReachableFresh.add New [entA, entB, entC] ReachableFresh.new
      (FreshArgs_New [entA, entB, entC] hv (by decide) (by decide))
  ⟨hr, (C20_bijection_under_fresh_adds storeABC hr).1, by decide⟩

/-! ## C19: the use of the mutex -/

theorem disciplined_addLoopEvents (l : List Entity) (t : List Event) :
    ∀ e : ecStore, disciplined .exclusive (addLoopEvents e l ++ t) = disciplined .exclusive t := by
  induction l with
  | nil => intro e; rfl
  | cons x l ih =>
    intro e
    unfold addLoopEvents
    split_ifs with h1 h2
    · rfl
    · rfl
    · cases hk : getTypeKey x with
      | error err => rfl
      | ok key =>
        by_cases hin : key ∈ e.store
        · simp only [hin, if_true, List.append_nil, List.singleton_append, List.cons_append,
            List.append_assoc]
          show disciplined .exclusive (addLoopEvents (addEntity e key x) l ++ t) = _
          exact ih _
        · simp only [hin, if_false, List.singleton_append, List.cons_append,
            List.append_assoc, List.nil_append]
          show disciplined .exclusive (addLoopEvents (addEntity e key x) l ++ t) = _
          exact ih _

theorem disciplined_removeEntityEvents (e : ecStore) (key : String) (x : Entity)
    (t : List Event) :
    disciplined .exclusive (removeEntityEvents e key x ++ t) = disciplined .exclusive t := by
  unfold removeEntityEvents
  split
  · rfl
  · split
    · rfl
    · split_ifs <;> rfl

theorem disciplined_removeLoopEvents (l : List Entity) (t : List Event) :
    ∀ e : ecStore,
      disciplined .exclusive (removeLoopEvents e l ++ t) = disciplined .exclusive t := by
  induction l with
  | nil => intro e; rfl
  | cons x l ih =>
    intro e
    unfold removeLoopEvents
    split_ifs with h1 h2
    · rfl
    · rfl
    · cases hk : getTypeKey x with
      | error err => rfl
      | ok key =>
        show disciplined .exclusive
          ((removeEntityEvents e key x ++ removeLoopEvents (removeEntity e key x) l) ++ t) = _
        rw [List.append_assoc, disciplined_removeEntityEvents]
        exact ih _

theorem GetFirstEvents_disciplined_iff (e : ecStore) (ent : Entity) :
    disciplined .free (GetFirstEvents e ent) = decide (CountType e ent = 0) := by
  unfold GetFirstEvents GetAllEvents CountType
  cases hk : getTypeKey ent with
  | error err =>
    have hg : GetAll e ent = .error err := by simp only [GetAll, hk]
    rw [hg]
    rfl
  | ok key =>
    rw [GetAll_of_key e ent key hk]
    cases hl : (e.store.lookup key).getD [] with
    | nil => rfl
    | cons x l => rfl

/-- C19, at the failing operations: `CountTotal()` reads the id index without acquiring `mu`,
and `GetFirst` reads `list[0]` from the array of the bucket after the `RUnlock` deferred in
`GetAll` has run. So the events of `CountTotal`, always, and those of `GetFirst`, whenever
the bucket is not empty, break the locking discipline, which `GetById`, `GetAll`,
`CountType`, `Clear`, `Add` and `Remove` keep on every input and return path. -/
theorem C19_CountTotal_reads_without_lock :
    disciplined .free CountTotalEvents = false ∧
    disciplined .free GetByIdEvents = true ∧
    (∀ ent, disciplined .free (GetAllEvents ent) = true) ∧
    disciplined .free ClearEvents = true ∧
    (∀ e entities, disciplined .free (AddEvents e entities) = true) ∧
    (∀ e entities, disciplined .free (RemoveEvents e entities) = true) ∧
    (∀ ent, disciplined .free (CountTypeEvents ent) = true) ∧
    (∀ e ent, disciplined .free (GetFirstEvents e ent) = decide (CountType e ent = 0)) ∧
    disciplined .free (GetFirstEvents storeA sampleSimple) = false := by
  have hall : ∀ ent, disciplined .free (GetAllEvents ent) = true := by
    intro ent
    unfold GetAllEvents
    cases getTypeKey ent <;> rfl
  refine ⟨rfl, rfl, hall, rfl, ?_, ?_, hall, GetFirstEvents_disciplined_iff, by decide⟩
  · intro e entities
    unfold AddEvents
    split_ifs
    · rfl
    · rw [List.append_assoc, List.singleton_append]
      show disciplined .exclusive (addLoopEvents e entities ++ [Event.Unlock]) = true
      rw [disciplined_addLoopEvents]
      rfl
  · intro e entities
    unfold RemoveEvents
    split_ifs
    · rfl
    · rw [List.append_assoc, List.singleton_append]
      show disciplined .exclusive (removeLoopEvents e entities ++ [Event.Unlock]) = true
      rw [disciplined_removeLoopEvents]
      rfl

/-! ## Writes and appends on the heap -/

theorem take_set_of_le (l : List Entity) (x : Entity) (n m : Nat) (h : m ≤ n) :
    (l.set n x).take m = l.take m := by
  rw [List.set_take]
  exact List.set_eq_of_length_le (Nat.le_trans (List.length_take_le m l) h)

theorem write_length (h : Heap) (a i : Nat) (x : Entity) (b : Nat) :
    ((h.write a i x).arrays b).length = (h.arrays b).length := by
  unfold Heap.write
  by_cases hb : b = a
  · subst hb; simp
  · simp [hb]

theorem write_view_same (h : Heap) (s : Slice) (i : Nat) (x : Entity) :
    (h.write s.arr i x).view s = (h.view s).set i x := by
  simp [Heap.write, Heap.view, List.set_take]

theorem write_view_other (h : Heap) (s : Slice) (a i : Nat) (x : Entity) (hne : s.arr ≠ a) :
    (h.write a i x).view s = h.view s := by
  simp [Heap.write, Heap.view, hne]

theorem write_view_beyond (h : Heap) (s : Slice) (a i : Nat) (x : Entity) (hle : s.len ≤ i) :
    (h.write a i x).view s = h.view s := by
  by_cases hne : s.arr = a
  · subst hne
    rw [write_view_same]
    exact List.set_eq_of_length_le (Nat.le_trans (List.length_take_le _ _) hle)
  · exact write_view_other h s a i x hne

theorem write_backed (h : Heap) (a i : Nat) (x : Entity) (s : Slice)
    (hs : slices.Backed h s) : slices.Backed (h.write a i x) s :=
  ⟨hs.1, by rw [write_length]; exact hs.2⟩

theorem push_cases (grow : Nat → Nat) (h : Heap) (t : Slice) (x : Entity) :
    (t.len < t.cap ∧ h.push grow t x = (h.write t.arr t.len x, ⟨t.arr, t.len + 1, t.cap⟩)) ∨
    (¬ t.len < t.cap ∧ (h.push grow t x).2 =
        ⟨h.next, t.len + 1, max (grow t.cap) (t.len + 1)⟩ ∧
      (h.push grow t x).1.next = h.next + 1 ∧
      (∀ b, b ≠ h.next → (h.push grow t x).1.arrays b = h.arrays b) ∧
      (h.push grow t x).1.arrays h.next =
        h.view t ++ x :: List.replicate (max (grow t.cap) (t.len + 1) - (t.len + 1))
          Entity.nil) := by
  unfold Heap.push
  by_cases hlt : t.len < t.cap
  · left
    exact ⟨hlt, by rw [if_pos hlt]⟩
  · right
    rw [if_neg hlt]
    refine ⟨hlt, rfl, rfl, ?_, ?_⟩
    · intro b hb
      simp [hb]
    · simp

theorem push_backed (grow : Nat → Nat) (h : Heap) (t : Slice) (x : Entity) (s : Slice)
    (hs : slices.Backed h s) : slices.Backed (h.push grow t x).1 s := by
  rcases push_cases grow h t x with ⟨-, heq⟩ | ⟨-, -, hnext, hother, -⟩
  · rw [heq]
    exact write_backed h t.arr t.len x s hs
  · refine ⟨by rw [hnext]; exact Nat.lt_succ_of_lt hs.1, ?_⟩
    rw [hother s.arr (Nat.ne_of_lt hs.1)]
    exact hs.2

theorem push_view (grow : Nat → Nat) (h : Heap) (t : Slice) (x : Entity) (s : Slice)
    (hs : slices.Backed h s) (hcov : t.len < t.cap → t.arr = s.arr → s.len ≤ t.len) :
    (h.push grow t x).1.view s = h.view s := by
  rcases push_cases grow h t x with ⟨hlt, heq⟩ | ⟨-, -, -, hother, -⟩
  · rw [heq]
    by_cases harr : t.arr = s.arr
    · exact write_view_beyond h s t.arr t.len x (hcov hlt harr)
    · exact write_view_other h s t.arr t.len x (fun hc => harr hc.symm)
  · unfold Heap.view
    rw [hother s.arr (Nat.ne_of_lt hs.1)]

theorem push_next_le (grow : Nat → Nat) (h : Heap) (t : Slice) (x : Entity) :
    h.next ≤ (h.push grow t x).1.next := by
  rcases push_cases grow h t x with ⟨-, heq⟩ | ⟨-, -, hnext, -, -⟩
  · rw [heq]; exact Nat.le_refl _
  · rw [hnext]; exact Nat.le_succ _

/-! ## One step of the loops on slices -/

theorem sliceAdd_slot (e : SliceStore) (key : String) :
    ((if key ∈ e.store then e.store else e.store.insert key nilSlice).lookup key).getD nilSlice
      = (e.store.lookup key).getD nilSlice := by
  by_cases h : key ∈ e.store
  · rw [if_pos h]
  · rw [if_neg h, Finmap.lookup_insert, Finmap.lookup_eq_none.2 h]
    rfl

theorem sliceAdd_heap (grow : Nat → Nat) (e : SliceStore) (key : String) (x : Entity) :
    (slices.addEntity grow e key x).heap =
      (e.heap.push grow ((e.store.lookup key).getD nilSlice) x).1 := by
  unfold slices.addEntity
  simp only [sliceAdd_slot]

theorem sliceAdd_store_same (grow : Nat → Nat) (e : SliceStore) (key : String) (x : Entity) :
    (slices.addEntity grow e key x).store.lookup key =
      some (e.heap.push grow ((e.store.lookup key).getD nilSlice) x).2 := by
  unfold slices.addEntity
  simp only [sliceAdd_slot, Finmap.lookup_insert]

theorem sliceAdd_store_other (grow : Nat → Nat) (e : SliceStore) (key : String) (x : Entity)
    (k : String) (hk : k ≠ key) :
    (slices.addEntity grow e key x).store.lookup k = e.store.lookup k := by
  unfold slices.addEntity
  by_cases h : key ∈ e.store
  · simp only [if_pos h, Finmap.lookup_insert_of_ne _ hk]
  · simp only [if_neg h, Finmap.lookup_insert_of_ne _ hk]

theorem sliceAdd_idCache (grow : Nat → Nat) (e : SliceStore) (key : String) (x : Entity) :
    (slices.addEntity grow e key x).idCache = e.idCache.insert x.Id x := rfl

theorem sliceRemove_cases (e : SliceStore) (key : String) (x : Entity) :
    slices.removeEntity e key x = e ∨
    ∃ list i, e.store.lookup key = some list ∧ findEntry x (e.heap.view list) 0 = some i ∧
      (slices.removeEntity e key x).heap =
        e.heap.write list.arr i ((e.heap.view list).getD (list.len - 1) Entity.nil) ∧
      (slices.removeEntity e key x).idCache =
        e.idCache.erase ((e.heap.view list).getD i Entity.nil).Id ∧
      (slices.removeEntity e key x).store.lookup key =
        (if list.len - 1 = 0 then none else some ⟨list.arr, list.len - 1, list.cap⟩) ∧
      (∀ k, k ≠ key → (slices.removeEntity e key x).store.lookup k = e.store.lookup k) := by
  cases hl : e.store.lookup key with
  | none => exact Or.inl (by simp only [slices.removeEntity, hl])
  | some list =>
    cases hf : findEntry x (e.heap.view list) 0 with
    | none => exact Or.inl (by simp only [slices.removeEntity, hl, hf])
    | some i =>
      right
      have heq : slices.removeEntity e key x =
          { store :=
              if list.len - 1 = 0 then
                (e.store.insert key ⟨list.arr, list.len - 1, list.cap⟩).erase key
              else e.store.insert key ⟨list.arr, list.len - 1, list.cap⟩,
            idCache := e.idCache.erase ((e.heap.view list).getD i Entity.nil).Id,
            heap := e.heap.write list.arr i
              ((e.heap.view list).getD (list.len - 1) Entity.nil) } := by
        simp only [slices.removeEntity, hl, hf, Finmap.lookup_insert, Option.getD_some]
      refine ⟨list, i, rfl, hf, by rw [heq], by rw [heq], ?_, ?_⟩
      · rw [heq]
        by_cases hz : list.len - 1 = 0
        · simp only [hz, if_true]
          exact Finmap.lookup_erase _ _
        · simp only [hz, if_false]
          exact Finmap.lookup_insert _
      · intro k hk
        rw [heq]
        by_cases hz : list.len - 1 = 0
        · simp only [hz, if_true]
          rw [Finmap.lookup_erase_ne hk, Finmap.lookup_insert_of_ne _ hk]
        · simp only [hz, if_false]
          rw [Finmap.lookup_insert_of_ne _ hk]

theorem sliceAddLoop_cons_ok (grow : Nat → Nat) (e : SliceStore) (x : Entity)
    (rest : List Entity) (key : String) (h : getTypeKey x = .ok key) :
    slices.addLoop grow e (x :: rest) = slices.addLoop grow (slices.addEntity grow e key x) rest := by
  obtain ⟨h1, h2⟩ := not_nil_of_ok h
  simp only [slices.addLoop, h1, h2, if_false, h]

theorem sliceAddLoop_cons_invalid (grow : Nat → Nat) (e : SliceStore) (x : Entity)
    (rest : List Entity) (h : ¬ Valid x) :
    slices.addLoop grow e (x :: rest) = (e, some ErrInvalidEntityPointer) := by
  rcases getTypeKey_cases x with hk | hk
  · exact absurd hk h
  · simp only [slices.addLoop, hk]
    split_ifs <;> rfl

theorem sliceRemoveLoop_cons_ok (e : SliceStore) (x : Entity) (rest : List Entity)
    (key : String) (h : getTypeKey x = .ok key) :
    slices.removeLoop e (x :: rest) = slices.removeLoop (slices.removeEntity e key x) rest := by
  obtain ⟨h1, h2⟩ := not_nil_of_ok h
  simp only [slices.removeLoop, h1, h2, if_false, h]

theorem sliceRemoveLoop_cons_invalid (e : SliceStore) (x : Entity) (rest : List Entity)
    (h : ¬ Valid x) :
    slices.removeLoop e (x :: rest) = (e, some ErrInvalidEntityPointer) := by
  rcases getTypeKey_cases x with hk | hk
  · exact absurd hk h
  · simp only [slices.removeLoop, hk]
    split_ifs <;> rfl

/-! ## Properties kept by every call on slices -/

theorem sliceAddLoop_keeps (grow : Nat → Nat) (P : SliceStore → Prop)
    (hstep : ∀ e key x, getTypeKey x = .ok key → P e → P (slices.addEntity grow e key x))
    (l : List Entity) : ∀ e, P e → P (slices.addLoop grow e l).1 := by
  induction l with
  | nil => intro e h; exact h
  | cons x l ih =>
    intro e h
    rcases getTypeKey_cases x with ⟨key, hk⟩ | hk
    · rw [sliceAddLoop_cons_ok grow e x l key hk]
      exact ih _ (hstep e key x hk h)
    · rw [sliceAddLoop_cons_invalid grow e x l (not_Valid_of_error hk)]
      exact h

theorem sliceRemoveLoop_keeps (P : SliceStore → Prop)
    (hstep : ∀ e key x, getTypeKey x = .ok key → P e → P (slices.removeEntity e key x))
    (l : List Entity) : ∀ e, P e → P (slices.removeLoop e l).1 := by
  induction l with
  | nil => intro e h; exact h
  | cons x l ih =>
    intro e h
    rcases getTypeKey_cases x with ⟨key, hk⟩ | hk
    · rw [sliceRemoveLoop_cons_ok e x l key hk]
      exact ih _ (hstep e key x hk h)
    · rw [sliceRemoveLoop_cons_invalid e x l (not_Valid_of_error hk)]
      exact h

theorem sliceAdd_keeps (grow : Nat → Nat) (P : SliceStore → Prop)
    (hstep : ∀ e key x, getTypeKey x = .ok key → P e → P (slices.addEntity grow e key x))
    (e : SliceStore) (l : List Entity) (h : P e) : P (slices.Add grow e l).1 := by
  unfold slices.Add
  split_ifs
  · exact h
  · exact sliceAddLoop_keeps grow P hstep l e h

theorem sliceRemove_keeps (P : SliceStore → Prop)
    (hstep : ∀ e key x, getTypeKey x = .ok key → P e → P (slices.removeEntity e key x))
    (e : SliceStore) (l : List Entity) (h : P e) : P (slices.Remove e l).1 := by
  unfold slices.Remove
  split_ifs
  · exact h
  · exact sliceRemoveLoop_keeps P hstep l e h

theorem sliceRun_keeps (grow : Nat → Nat) (P : SliceStore → Prop)
    (hadd : ∀ e key x, getTypeKey x = .ok key → P e → P (slices.addEntity grow e key x))
    (hrem : ∀ e key x, getTypeKey x = .ok key → P e → P (slices.removeEntity e key x))
    (hclear : ∀ e, P e → P (slices.Clear e).1)
    (calls : List slices.Call) : ∀ e, P e → P (slices.run grow e calls) := by
  induction calls with
  | nil => intro e h; exact h
  | cons c calls ih =>
    intro e h
    show P (slices.run grow (slices.step grow e c) calls)
    apply ih
    cases c with
    | add l => exact sliceAdd_keeps grow P hadd e l h
    | remove l => exact sliceRemove_keeps P hrem e l h
    | clear => exact hclear e h

theorem sliceAdd_backed (grow : Nat → Nat) (s : Slice) (e : SliceStore) (key : String)
    (x : Entity) (h : slices.Backed e.heap s) :
    slices.Backed (slices.addEntity grow e key x).heap s := by
  rw [sliceAdd_heap]
  exact push_backed grow e.heap _ x s h

theorem sliceRemove_backed (s : Slice) (e : SliceStore) (key : String) (x : Entity)
    (h : slices.Backed e.heap s) : slices.Backed (slices.removeEntity e key x).heap s := by
  rcases sliceRemove_cases e key x with h0 | ⟨list, i, -, -, hheap, -, -, -⟩
  · rw [h0]; exact h
  · rw [hheap]
    exact write_backed e.heap _ _ _ s h

theorem sliceRun_backed (grow : Nat → Nat) (s : Slice) (calls : List slices.Call)
    (e : SliceStore) (h : slices.Backed e.heap s) :
    slices.Backed (slices.run grow e calls).heap s :=
  sliceRun_keeps grow (fun e => slices.Backed e.heap s)
    (fun e key x _ h => sliceAdd_backed grow s e key x h)
    (fun e key x _ h => sliceRemove_backed s e key x h)
    (fun _ h => h) calls e h

theorem view_length_of_backed (h : Heap) (s : Slice) (hs : slices.Backed h s) :
    (h.view s).length = s.len := by
  unfold Heap.view
  exact List.length_take_of_le hs.2

/-! ## Well-formed slice stores -/

theorem WF_sliceNew : slices.WF slices.New := by
  refine ⟨Nat.le_refl 1, ?_, ?_⟩
  · intro key t h; simp [slices.New] at h
  · intro k1 k2 t1 t2 h; simp [slices.New] at h

theorem WF_slot (e : SliceStore) (hW : slices.WF e) (key : String) :
    ((e.store.lookup key).getD nilSlice).len ≤ ((e.store.lookup key).getD nilSlice).cap ∧
    ((e.store.lookup key).getD nilSlice).cap ≤
      (e.heap.arrays ((e.store.lookup key).getD nilSlice).arr).length ∧
    ((e.store.lookup key).getD nilSlice).arr < e.heap.next := by
  cases hl : e.store.lookup key with
  | none => exact ⟨Nat.le_refl _, Nat.zero_le _, hW.next_pos⟩
  | some t =>
    obtain ⟨h1, h2, h3⟩ := hW.bounds key t hl
    exact ⟨h2, h3, h1⟩

theorem WF_sliceAdd (grow : Nat → Nat) (e : SliceStore) (key : String) (x : Entity)
    (hW : slices.WF e) : slices.WF (slices.addEntity grow e key x) := by
  obtain ⟨hlc, hcl, harr⟩ := WF_slot e hW key
  have hheap := sliceAdd_heap grow e key x
  have hsame := sliceAdd_store_same grow e key x
  have hother := sliceAdd_store_other grow e key x
  generalize (e.store.lookup key).getD nilSlice = t at hlc hcl harr hheap hsame
  have hnext := push_next_le grow e.heap t x
  have hold : ∀ k u, k ≠ key → e.store.lookup k = some u →
      u.arr < (e.heap.push grow t x).1.next ∧ u.len ≤ u.cap ∧
        u.cap ≤ ((e.heap.push grow t x).1.arrays u.arr).length := by
    intro k u _ hu
    obtain ⟨h1, h2, h3⟩ := hW.bounds k u hu
    refine ⟨Nat.lt_of_lt_of_le h1 hnext, h2, ?_⟩
    rcases push_cases grow e.heap t x with ⟨-, heq⟩ | ⟨-, -, -, hoth, -⟩
    · rw [heq, write_length]; exact h3
    · rw [hoth u.arr (Nat.ne_of_lt h1)]; exact h3
  have hnew : (e.heap.push grow t x).2.arr < (e.heap.push grow t x).1.next ∧
      (e.heap.push grow t x).2.len ≤ (e.heap.push grow t x).2.cap ∧
      (e.heap.push grow t x).2.cap ≤
        ((e.heap.push grow t x).1.arrays (e.heap.push grow t x).2.arr).length := by
    rcases push_cases grow e.heap t x with ⟨hlt, heq⟩ | ⟨-, h2, hnx, -, hfresh⟩
    · rw [heq]
      exact ⟨harr, hlt, by rw [write_length]; exact hcl⟩
    · rw [h2, hnx]
      refine ⟨Nat.lt_succ_self _, Nat.le_max_right _ _, ?_⟩
      show max (grow t.cap) (t.len + 1) ≤
        ((e.heap.push grow t x).1.arrays e.heap.next).length
      rw [hfresh, List.length_append, List.length_cons, List.length_replicate,
        view_length_of_backed e.heap t ⟨harr, Nat.le_trans hlc hcl⟩]
      have := Nat.le_max_right (grow t.cap) (t.len + 1)
      omega
  have hnewarr : (e.heap.push grow t x).2.arr = t.arr ∨
      (e.heap.push grow t x).2.arr = e.heap.next := by
    rcases push_cases grow e.heap t x with ⟨-, heq⟩ | ⟨-, h2, -, -, -⟩
    · rw [heq]; exact Or.inl rfl
    · rw [h2]; exact Or.inr rfl
  refine ⟨?_, ?_, ?_⟩
  · rw [hheap]
    exact Nat.le_trans hW.next_pos hnext
  · intro k u hu
    rw [hheap]
    by_cases hk : k = key
    · subst hk
      rw [hsame] at hu
      injection hu with hu
      subst hu
      exact hnew
    · rw [hother k hk] at hu
      exact hold k u hk hu
  · intro k1 k2 t1 t2 h1 h2 h12
    by_contra hne
    have key_case : ∀ k u, k ≠ key → e.store.lookup k = some u →
        u.arr = (e.heap.push grow t x).2.arr → False := by
      intro k u hk hu harr'
      rcases hnewarr with ha | ha
      · rw [ha] at harr'
        cases hl : e.store.lookup key with
        | none =>
          rcases push_cases grow e.heap t x with ⟨hlt, -⟩ | ⟨-, h2', -, -, -⟩
          · have h0 := sliceAdd_slot e key
            have ht : (e.store.lookup key).getD nilSlice = nilSlice := by rw [hl]; rfl
            have hnx := (hW.bounds k u hu).1
            have := sliceAdd_store_same grow e key x
            rw [ht] at this
            rw [hsame] at this
            injection this with this
            have hnil : ¬ nilSlice.len < nilSlice.cap := by decide
            rcases push_cases grow e.heap nilSlice x with ⟨hlt', -⟩ | ⟨-, h2n, -, -, -⟩
            · exact hnil hlt'
            · rw [h2n] at this
              have harr2 : (e.heap.push grow t x).2.arr = e.heap.next := by rw [this]
              rw [ha] at harr2
              rw [harr2] at harr'
              omega
          · rw [h2'] at ha
            have hnx := (hW.bounds k u hu).1
            simp only at ha
            omega
        | some t0 =>
          have ht : (e.store.lookup key).getD nilSlice = t0 := by rw [hl]; rfl
          have hs2 := sliceAdd_store_same grow e key x
          rw [ht, hsame] at hs2
          injection hs2 with hs2
          rcases push_cases grow e.heap t0 x with ⟨-, heq0⟩ | ⟨-, h20, -, -, -⟩
          · have : (e.heap.push grow t x).2.arr = t0.arr := by rw [hs2, heq0]
            rw [ha] at this
            exact hk (hW.distinct k key u t0 hu hl (harr'.trans this))
          · have : (e.heap.push grow t x).2.arr = e.heap.next := by rw [hs2, h20]
            rw [ha] at this
            have hnx := (hW.bounds k u hu).1
            omega
      · rw [ha] at harr'
        have hnx := (hW.bounds k u hu).1
        omega
    by_cases hk1 : k1 = key
    · have hk2 : k2 ≠ key := fun hc => hne (hk1.trans hc.symm)
      subst hk1
      rw [hsame] at h1
      injection h1 with h1
      rw [hother k2 hk2] at h2
      exact key_case k2 t2 hk2 h2 (by rw [← h12, h1])
    · rw [hother k1 hk1] at h1
      by_cases hk2 : k2 = key
      · subst hk2
        rw [hsame] at h2
        injection h2 with h2
        exact key_case k1 t1 hk1 h1 (by rw [h12, h2])
      · rw [hother k2 hk2] at h2
        exact hne (hW.distinct k1 k2 t1 t2 h1 h2 h12)

theorem WF_sliceRemove (e : SliceStore) (key : String) (x : Entity) (hW : slices.WF e) :
    slices.WF (slices.removeEntity e key x) := by
  rcases sliceRemove_cases e key x with h0 | ⟨list, i, hl, -, hheap, -, hsame, hother⟩
  · rw [h0]; exact hW
  have look : ∀ k u, (slices.removeEntity e key x).store.lookup k = some u →
      ∃ u0, e.store.lookup k = some u0 ∧ u.arr = u0.arr ∧ u.len ≤ u0.len ∧ u.cap = u0.cap := by
    intro k u hu
    by_cases hk : k = key
    · subst hk
      rw [hsame] at hu
      by_cases hz : list.len - 1 = 0
      · rw [if_pos hz] at hu; cases hu
      · rw [if_neg hz] at hu
        injection hu with hu
        subst hu
        exact ⟨list, hl, rfl, Nat.sub_le _ _, rfl⟩
    · rw [hother k hk] at hu
      exact ⟨u, hu, rfl, Nat.le_refl _, rfl⟩
  refine ⟨?_, ?_, ?_⟩
  · rw [hheap]; exact hW.next_pos
  · intro k u hu
    obtain ⟨u0, hu0, ha, hlen, hc⟩ := look k u hu
    obtain ⟨h1, h2, h3⟩ := hW.bounds k u0 hu0
    rw [hheap, write_length, ha, hc]
    exact ⟨h1, Nat.le_trans hlen h2, h3⟩
  · intro k1 k2 t1 t2 h1 h2 h12
    obtain ⟨u1, hu1, ha1, -, -⟩ := look k1 t1 h1
    obtain ⟨u2, hu2, ha2, -, -⟩ := look k2 t2 h2
    exact hW.distinct k1 k2 u1 u2 hu1 hu2 (by rw [← ha1, ← ha2, h12])

theorem WF_sliceRun (grow : Nat → Nat) (calls : List slices.Call) (e : SliceStore)
    (hW : slices.WF e) : slices.WF (slices.run grow e calls) := by
  refine sliceRun_keeps grow slices.WF (fun e key x _ h => WF_sliceAdd grow e key x h)
    (fun e key x _ h => WF_sliceRemove e key x h) ?_ calls e hW
  intro e h
  refine ⟨h.next_pos, ?_, ?_⟩
  · intro key t ht; simp [slices.Clear] at ht
  · intro k1 k2 t1 t2 ht; simp [slices.Clear] at ht

/-! ## The slice `GetAll` hands out -/

theorem sliceGetAll_ok (e : SliceStore) (sample : Entity) (s : Slice)
    (h : slices.GetAll e sample = .ok s) :
    ∃ key, getTypeKey sample = .ok key ∧ s = (e.store.lookup key).getD nilSlice := by
  rcases getTypeKey_cases sample with ⟨key, hk⟩ | hk
  · refine ⟨key, hk, ?_⟩
    cases hl : e.store.lookup key with
    | none =>
      simp only [slices.GetAll, hk, hl] at h
      injection h with h
      exact h.symm
    | some t =>
      simp only [slices.GetAll, hk, hl] at h
      injection h with h
      exact h.symm
  · simp [slices.GetAll, hk] at h

theorem sliceGetAll_backed (e : SliceStore) (hW : slices.WF e) (sample : Entity) (s : Slice)
    (h : slices.GetAll e sample = .ok s) : slices.Backed e.heap s ∧ slices.Covered e s := by
  obtain ⟨key, -, rfl⟩ := sliceGetAll_ok e sample s h
  obtain ⟨h1, h2, h3⟩ := WF_slot e hW key
  refine ⟨⟨h3, Nat.le_trans h1 h2⟩, ?_⟩
  intro k t ht harr
  cases hl : e.store.lookup key with
  | none => exact Nat.zero_le _
  | some t0 =>
    rw [hl] at harr
    have hk := hW.distinct k key t t0 ht hl harr
    subst hk
    rw [hl] at ht
    injection ht with ht
    rw [ht]
    exact Nat.le_refl _

/-! ## What later calls do to a slice handed out -/

theorem sliceAdd_covered (grow : Nat → Nat) (s : Slice) (e : SliceStore) (key : String)
    (x : Entity) (hB : slices.Backed e.heap s) (hC : slices.Covered e s) :
    slices.Covered (slices.addEntity grow e key x) s ∧
      (slices.addEntity grow e key x).heap.view s = e.heap.view s := by
  have hslot : ∀ t, (e.store.lookup key).getD nilSlice = t → t.len < t.cap →
      t.arr = s.arr → s.len ≤ t.len := by
    intro t ht hlt harr
    cases hl : e.store.lookup key with
    | none =>
      rw [hl] at ht
      rw [← ht] at hlt
      exact absurd hlt (by decide)
    | some t0 =>
      rw [hl] at ht
      have : t0 = t := ht
      subst this
      exact hC key t0 hl harr
  constructor
  · intro k t ht harr
    by_cases hk : k = key
    · subst hk
      rw [sliceAdd_store_same] at ht
      injection ht with ht
      rcases push_cases grow e.heap ((e.store.lookup k).getD nilSlice) x with
        ⟨hlt, heq⟩ | ⟨-, h2, -, -, -⟩
      · rw [heq] at ht
        rw [← ht] at harr ⊢
        exact Nat.le_succ_of_le (hslot _ rfl hlt harr)
      · rw [h2] at ht
        rw [← ht] at harr
        have := hB.1
        simp only at harr
        omega
    · rw [sliceAdd_store_other grow e key x k hk] at ht
      exact hC k t ht harr
  · rw [sliceAdd_heap]
    exact push_view grow e.heap _ x s hB (hslot _ rfl)

theorem sliceKeeps_view (grow : Nat → Nat) (s : Slice) (later : List slices.Call) :
    ∀ e : SliceStore, (∀ c ∈ later, c.keeps = true) → slices.Backed e.heap s →
      slices.Covered e s → (slices.run grow e later).heap.view s = e.heap.view s := by
  induction later with
  | nil => intro e _ _ _; rfl
  | cons c later ih =>
    intro e hk hB hC
    show (slices.run grow (slices.step grow e c) later).heap.view s = e.heap.view s
    have hrest : ∀ c' ∈ later, c'.keeps = true := fun c' hc' => hk c' (List.mem_cons_of_mem c hc')
    cases c with
    | remove l =>
      have hfalse : (slices.Call.remove l).keeps = true := hk _ (List.mem_cons_self _ _)
      cases hfalse
    | clear =>
      have hC' : slices.Covered (slices.step grow e .clear) s := by
        intro k t ht
        simp [slices.step, slices.Clear] at ht
      exact ih _ hrest hB hC'
    | add l =>
      have hstep := sliceAdd_keeps grow
        (fun e' => slices.Backed e'.heap s ∧ slices.Covered e' s ∧
          e'.heap.view s = e.heap.view s)
        (fun e' key x _ h => by
          obtain ⟨h1, h2⟩ := sliceAdd_covered grow s e' key x h.1 h.2.1
          exact ⟨sliceAdd_backed grow s e' key x h.1, h1, by rw [h2, h.2.2]⟩)
        e l ⟨hB, hC, rfl⟩
      have hnext := ih (slices.step grow e (.add l)) hrest hstep.1 hstep.2.1
      rw [hnext]
      exact hstep.2.2

theorem sliceRemove_found_heap (e : SliceStore) (key : String) (x : Entity) (list : Slice)
    (i : Nat) (hl : e.store.lookup key = some list)
    (hf : findEntry x (e.heap.view list) 0 = some i) :
    (slices.removeEntity e key x).heap =
      e.heap.write list.arr i ((e.heap.view list).getD (list.len - 1) Entity.nil) := by
  simp only [slices.removeEntity, hl, hf]

theorem sliceRemove_singleton (e : SliceStore) (x : Entity) (key : String)
    (hk : getTypeKey x = .ok key) :
    slices.Remove e [x] = (slices.removeEntity e key x, none) := by
  have h1 : slices.Remove e [x] = slices.removeLoop e [x] := by simp [slices.Remove]
  rw [h1, sliceRemoveLoop_cons_ok e x [] key hk]
  rfl

/-! ## The store on lists is what the store on slices shows -/

theorem push_view_result (grow : Nat → Nat) (h : Heap) (t : Slice) (x : Entity)
    (h1 : t.len ≤ t.cap) (h2 : t.cap ≤ (h.arrays t.arr).length) :
    (h.push grow t x).1.view (h.push grow t x).2 = h.view t ++ [x] := by
  rcases push_cases grow h t x with ⟨hlt, heq⟩ | ⟨-, hsl, -, -, hfresh⟩
  · rw [heq]
    have hin : t.len < (h.arrays t.arr).length := Nat.lt_of_lt_of_le hlt h2
    show ((h.write t.arr t.len x).arrays t.arr).take (t.len + 1) = _
    have harr : (h.write t.arr t.len x).arrays t.arr = (h.arrays t.arr).set t.len x := by
      simp [Heap.write]
    rw [harr, List.take_succ, List.getElem?_set_self hin,
      take_set_of_le _ x t.len t.len (Nat.le_refl _)]
    rfl
  · rw [hsl]
    show ((h.push grow t x).1.arrays h.next).take (t.len + 1) = _
    have hlen : (h.view t ++ [x]).length = t.len + 1 := by
      have hv : (h.view t).length = t.len := List.length_take_of_le (Nat.le_trans h1 h2)
      rw [List.length_append, List.length_singleton, hv]
    have hre : h.view t ++ x :: List.replicate (max (grow t.cap) (t.len + 1) - (t.len + 1))
        Entity.nil = (h.view t ++ [x]) ++
          List.replicate (max (grow t.cap) (t.len + 1) - (t.len + 1)) Entity.nil := by
      simp
    rw [hfresh, hre, List.take_left' hlen]

theorem removeEntity_found_at (e : ecStore) (key : String) (x : Entity) (list : List Entity)
    (i : Nat) (hl : e.store.lookup key = some list) (hf : findEntry x list 0 = some i) :
    removeEntity e key x =
      { store := if (swapRemove list i).length = 0 then e.store.erase key
          else e.store.insert key (swapRemove list i),
        idCache := e.idCache.erase (list.getD i Entity.nil).Id } := by
  simp only [removeEntity, hl, hf, Finmap.lookup_insert, Option.getD_some, erase_insert_same]

theorem sliceRemove_found (e : SliceStore) (key : String) (x : Entity) (list : Slice)
    (i : Nat) (hl : e.store.lookup key = some list)
    (hf : findEntry x (e.heap.view list) 0 = some i) :
    slices.removeEntity e key x =
      { store := if list.len - 1 = 0 then e.store.erase key
          else e.store.insert key ⟨list.arr, list.len - 1, list.cap⟩,
        idCache := e.idCache.erase ((e.heap.view list).getD i Entity.nil).Id,
        heap := e.heap.write list.arr i
          ((e.heap.view list).getD (list.len - 1) Entity.nil) } := by
  simp only [slices.removeEntity, hl, hf, Finmap.lookup_insert, Option.getD_some,
    erase_insert_same]

theorem Shows_New : slices.Shows slices.New New :=
  ⟨rfl, fun key => by simp [slices.New, New]⟩

theorem Shows_add (grow : Nat → Nat) (s : SliceStore) (e : ecStore) (key : String)
    (x : Entity) (hS : slices.Shows s e) (hW : slices.WF s) :
    slices.Shows (slices.addEntity grow s key x) (addEntity e key x) := by
  obtain ⟨hlc, hcl, -⟩ := WF_slot s hW key
  have hslot : (e.store.lookup key).getD [] =
      s.heap.view ((s.store.lookup key).getD nilSlice) := by
    rw [hS.store key]
    cases s.store.lookup key with
    | none => simp [Heap.view, nilSlice]
    | some t => rfl
  refine ⟨?_, ?_⟩
  · rw [addEntity_idCache, sliceAdd_idCache, hS.idCache]
  · intro k
    by_cases hk : k = key
    · subst hk
      rw [addEntity_store_same, sliceAdd_store_same, Option.map_some', sliceAdd_heap,
        push_view_result grow s.heap _ x hlc hcl, hslot]
    · rw [addEntity_store_other e key x k hk, sliceAdd_store_other grow s key x k hk,
        hS.store k]
      cases hl : s.store.lookup k with
      | none => rfl
      | some u =>
        obtain ⟨hu1, hu2, hu3⟩ := hW.bounds k u hl
        rw [Option.map_some', Option.map_some', sliceAdd_heap]
        refine congrArg some (push_view grow s.heap _ x u ⟨hu1, Nat.le_trans hu2 hu3⟩ ?_).symm
        intro hlt harr
        exfalso
        cases hlk : s.store.lookup key with
        | none =>
          rw [hlk] at hlt
          exact absurd hlt (by decide)
        | some t0 =>
          rw [hlk] at harr
          exact hk (hW.distinct k key u t0 hl hlk harr.symm)

theorem Shows_remove (s : SliceStore) (e : ecStore) (key : String) (x : Entity)
    (hS : slices.Shows s e) (hW : slices.WF s) :
    slices.Shows (slices.removeEntity s key x) (removeEntity e key x) := by
  cases hl : s.store.lookup key with
  | none =>
    have hle : e.store.lookup key = none := by rw [hS.store key, hl]; rfl
    have h1 : slices.removeEntity s key x = s := by simp only [slices.removeEntity, hl]
    rw [h1, removeEntity_absent e key x hle]
    exact hS
  | some sl =>
    have hle : e.store.lookup key = some (s.heap.view sl) := by rw [hS.store key, hl]; rfl
    cases hf : findEntry x (s.heap.view sl) 0 with
    | none =>
      have h1 : slices.removeEntity s key x = s := by simp only [slices.removeEntity, hl, hf]
      rw [h1, removeEntity_not_mem e key x _ hle ((findEntry_none x _ 0).1 hf)]
      exact hS
    | some i =>
      obtain ⟨hb1, hb2, hb3⟩ := hW.bounds key sl hl
      have hlen : (s.heap.view sl).length = sl.len :=
        view_length_of_backed s.heap sl ⟨hb1, Nat.le_trans hb2 hb3⟩
      have hswaplen : (swapRemove (s.heap.view sl) i).length = sl.len - 1 := by
        simp only [swapRemove, List.length_take, List.length_set, hlen]
        omega
      have hview : (s.heap.write sl.arr i ((s.heap.view sl).getD (sl.len - 1) Entity.nil)).view
          ⟨sl.arr, sl.len - 1, sl.cap⟩ = swapRemove (s.heap.view sl) i := by
        have harr : (s.heap.write sl.arr i
            ((s.heap.view sl).getD (sl.len - 1) Entity.nil)).arrays sl.arr =
            (s.heap.arrays sl.arr).set i ((s.heap.view sl).getD (sl.len - 1) Entity.nil) := by
          simp [Heap.write]
        show ((s.heap.write sl.arr i _).arrays sl.arr).take (sl.len - 1) = _
        rw [harr]
        unfold swapRemove
        rw [hlen]
        show _ = List.take (sl.len - 1) (List.set (List.take sl.len (s.heap.arrays sl.arr)) i _)
        rw [← List.set_take, List.take_take, Nat.min_eq_left (Nat.sub_le _ _)]
      rw [sliceRemove_found s key x sl i hl hf, removeEntity_found_at e key x _ i hle hf]
      refine ⟨?_, ?_⟩
      · show e.idCache.erase _ = s.idCache.erase _
        rw [hS.idCache]
      · intro k
        show Finmap.lookup k (if (swapRemove (s.heap.view sl) i).length = 0 then e.store.erase key
            else e.store.insert key (swapRemove (s.heap.view sl) i)) =
          (Finmap.lookup k (if sl.len - 1 = 0 then s.store.erase key
            else s.store.insert key ⟨sl.arr, sl.len - 1, sl.cap⟩)).map
            (s.heap.write sl.arr i ((s.heap.view sl).getD (sl.len - 1) Entity.nil)).view
        rw [hswaplen]
        have hothers : ∀ u, s.store.lookup k = some u → k ≠ key →
            (s.heap.write sl.arr i ((s.heap.view sl).getD (sl.len - 1) Entity.nil)).view u =
              s.heap.view u := by
          intro u hu hk
          apply write_view_other
          intro hc
          exact hk (hW.distinct k key u sl hu hl hc)
        by_cases hk : k = key
        · subst hk
          by_cases hz : sl.len - 1 = 0
          · rw [if_pos hz, if_pos hz, Finmap.lookup_erase, Finmap.lookup_erase]
            rfl
          · rw [if_neg hz, if_neg hz, Finmap.lookup_insert, Finmap.lookup_insert,
              Option.map_some', hview]
        · have hrest : e.store.lookup k = (s.store.lookup k).map
              (s.heap.write sl.arr i ((s.heap.view sl).getD (sl.len - 1) Entity.nil)).view := by
            rw [hS.store k]
            cases hu : s.store.lookup k with
            | none => rfl
            | some u => rw [Option.map_some', Option.map_some', hothers u hu hk]
          by_cases hz : sl.len - 1 = 0
          · rw [if_pos hz, if_pos hz, Finmap.lookup_erase_ne hk, Finmap.lookup_erase_ne hk]
            exact hrest
          · rw [if_neg hz, if_neg hz, Finmap.lookup_insert_of_ne _ hk,
              Finmap.lookup_insert_of_ne _ hk]
            exact hrest

theorem Shows_addLoop (grow : Nat → Nat) (l : List Entity) :
    ∀ (s : SliceStore) (e : ecStore), slices.Shows s e → slices.WF s →
      slices.Shows (slices.addLoop grow s l).1 (addLoop e l).1 ∧
      slices.WF (slices.addLoop grow s l).1 ∧
      (slices.addLoop grow s l).2 = (addLoop e l).2 := by
  induction l with
  | nil => intro s e hS hW; exact ⟨hS, hW, rfl⟩
  | cons x l ih =>
    intro s e hS hW
    rcases getTypeKey_cases x with ⟨key, hk⟩ | hk
    · rw [sliceAddLoop_cons_ok grow s x l key hk, addLoop_cons_ok e x l key hk]
      exact ih _ _ (Shows_add grow s e key x hS hW) (WF_sliceAdd grow s key x hW)
    · rw [sliceAddLoop_cons_invalid grow s x l (not_Valid_of_error hk),
        addLoop_cons_invalid e x l (not_Valid_of_error hk)]
      exact ⟨hS, hW, rfl⟩

theorem Shows_removeLoop (l : List Entity) :
    ∀ (s : SliceStore) (e : ecStore), slices.Shows s e → slices.WF s →
      slices.Shows (slices.removeLoop s l).1 (removeLoop e l).1 ∧
      slices.WF (slices.removeLoop s l).1 ∧
      (slices.removeLoop s l).2 = (removeLoop e l).2 := by
  induction l with
  | nil => intro s e hS hW; exact ⟨hS, hW, rfl⟩
  | cons x l ih =>
    intro s e hS hW
    rcases getTypeKey_cases x with ⟨key, hk⟩ | hk
    · rw [sliceRemoveLoop_cons_ok s x l key hk, removeLoop_cons_ok e x l key hk]
      exact ih _ _ (Shows_remove s e key x hS hW) (WF_sliceRemove s key x hW)
    · rw [sliceRemoveLoop_cons_invalid s x l (not_Valid_of_error hk),
        removeLoop_cons_invalid e x l (not_Valid_of_error hk)]
      exact ⟨hS, hW, rfl⟩

theorem Shows_step (grow : Nat → Nat) (s : SliceStore) (e : ecStore) (c : slices.Call)
    (hS : slices.Shows s e) (hW : slices.WF s) :
    slices.Shows (slices.step grow s c) (slices.listStep e c) := by
  cases c with
  | add l =>
    show slices.Shows (slices.Add grow s l).1 (Add e l).1
    unfold slices.Add Add
    split_ifs
    · exact hS
    · exact (Shows_addLoop grow l s e hS hW).1
  | remove l =>
    show slices.Shows (slices.Remove s l).1 (Remove e l).1
    unfold slices.Remove Remove
    split_ifs
    · exact hS
    · exact (Shows_removeLoop l s e hS hW).1
  | clear => exact ⟨rfl, fun key => by simp [slices.step, slices.listStep, slices.Clear, Clear]⟩

/-- After the same calls from `New()`, the store with lists as buckets is what the store on
slices shows, and a `GetAll` on lists returns the elements of the slice `GetAll` returns. -/
theorem Shows_run (grow : Nat → Nat) (calls : List slices.Call) :
    slices.Shows (slices.run grow slices.New calls) (slices.listRun New calls) ∧
    ∀ sample, (∀ sl, slices.GetAll (slices.run grow slices.New calls) sample = .ok sl →
        GetAll (slices.listRun New calls) sample =
          .ok ((slices.run grow slices.New calls).heap.view sl)) ∧
      (∀ err, slices.GetAll (slices.run grow slices.New calls) sample = .error err →
        GetAll (slices.listRun New calls) sample = .error err) := by
  have key : ∀ (calls : List slices.Call) (s : SliceStore) (e : ecStore), slices.Shows s e →
      slices.WF s → slices.Shows (slices.run grow s calls) (slices.listRun e calls) := by
    intro calls
    induction calls with
    | nil => intro s e hS _; exact hS
    | cons c calls ih =>
      intro s e hS hW
      exact ih _ _ (Shows_step grow s e c hS hW) (WF_sliceRun grow [c] s hW)
  have hS := key calls slices.New New Shows_New WF_sliceNew
  refine ⟨hS, fun sample => ⟨?_, ?_⟩⟩
  · intro sl hg
    obtain ⟨k, hk, hsl⟩ := sliceGetAll_ok _ sample sl hg
    rw [GetAll_of_key _ sample k hk, hS.store k, hsl]
    cases (slices.run grow slices.New calls).store.lookup k with
    | none => simp [Heap.view, nilSlice]
    | some t => rfl
  · intro err hg
    rcases getTypeKey_cases sample with ⟨k, hk⟩ | hk
    · exfalso
      unfold slices.GetAll at hg
      rw [hk] at hg
      cases hl : (slices.run grow slices.New calls).store.lookup k with
      | none => simp [hl] at hg
      | some t => simp [hl] at hg
    · simp only [slices.GetAll, hk] at hg
      simp only [GetAll, hk]
      injection hg with hg
      rw [hg]

/-! ## C18: the sequence `GetAll` returns and later calls -/

/-- C18, refuted as stated: after `Add(entA, entB)`, `GetAll` returns the slice of length 2
over the array at address 2, which shows `[entA, entB]`; after the later call `Remove(entA)`
the same slice shows `[entB, entB]`: the element at index 0 has changed, because `Remove`
wrote the last element over it in the array the slice shares with the bucket. -/
theorem C18_counterexample :
    slices.GetAll sliceAB sampleSimple = .ok ⟨2, 2, 2⟩ ∧
      sliceAB.heap.view ⟨2, 2, 2⟩ = [entA, entB] ∧
      (slices.Remove sliceAB [entA]).1.heap.view ⟨2, 2, 2⟩ = [entB, entB] ∧
      (sliceAB.heap.view ⟨2, 2, 2⟩)[0]? ≠
        ((slices.Remove sliceAB [entA]).1.heap.view ⟨2, 2, 2⟩)[0]? :=
  ⟨rfl, by decide, by decide, by decide⟩

/-- C18, amended: for every store state reached from `New()` and whatever the growth of
capacities, the sequence a `GetAll(sample)` call returns keeps its length after any later
`Add`, `Remove` and `Clear` calls, and keeps the element at every index after later `Add`
and `Clear` calls; but a `Remove(E)` that follows and finds `E` first at index `i` of that
bucket writes the last element of the bucket over index `i` of the returned sequence, which
shares the backing array of the bucket. -/
theorem C18_returned_slice_shares_array (grow : Nat → Nat) (history : List slices.Call)
    (sample : Entity) (s : Slice)
    (hg : slices.GetAll (slices.run grow slices.New history) sample = .ok s) :
    (∀ later, ((slices.run grow (slices.run grow slices.New history) later).heap.view s).length
      = ((slices.run grow slices.New history).heap.view s).length) ∧
    (∀ later, (∀ c ∈ later, c.keeps = true) →
      (slices.run grow (slices.run grow slices.New history) later).heap.view s
        = (slices.run grow slices.New history).heap.view s) ∧
    (∀ E a b, getTypeKey E = getTypeKey sample →
      (slices.run grow slices.New history).heap.view s = a ++ E :: b → E ∉ a →
      (slices.Remove (slices.run grow slices.New history) [E]).1.heap.view s
        = (a ++ E :: b).set a.length ((a ++ E :: b).getLast?.getD Entity.nil)) := by
  have hW := WF_sliceRun grow history slices.New WF_sliceNew
  generalize slices.run grow slices.New history = e at hg hW
  obtain ⟨hB, hC⟩ := sliceGetAll_backed e hW sample s hg
  refine ⟨?_, ?_, ?_⟩
  · intro later
    rw [view_length_of_backed _ s (sliceRun_backed grow s later e hB),
      view_length_of_backed _ s hB]
  · intro later hk
    exact sliceKeeps_view grow s later e hk hB hC
  · intro E a b hE hv hna
    obtain ⟨key, hk, hs⟩ := sliceGetAll_ok e sample s hg
    rw [hk] at hE
    have hl : e.store.lookup key = some s := by
      cases hl : e.store.lookup key with
      | none =>
        rw [hl] at hs
        rw [hs] at hv
        simp [Heap.view, nilSlice] at hv
      | some t =>
        rw [hl] at hs
        rw [hs]
        rfl
    have hf : findEntry E (e.heap.view s) 0 = some a.length := by
      rw [hv]
      exact findEntry_append E a b hna
    have hlen : s.len = (a ++ E :: b).length := by
      rw [← hv, view_length_of_backed e.heap s hB]
    rw [sliceRemove_singleton e E key hE]
    show (slices.removeEntity e key E).heap.view s = _
    rw [sliceRemove_found_heap e key E s a.length hl hf, write_view_same, hv, hlen,
      List.getD_eq_getElem?_getD, List.getLast?_eq_getElem?]

/-- Witness of C18: the slice returned after `Add(entA, entB)`, then `Add(entC)` and `Clear`,
or `Remove(entA)`. -/
theorem C18_returned_slice_shares_array_witness :
    slices.GetAll (slices.run double slices.New [.add [entA, entB]]) sampleSimple
      = .ok ⟨2, 2, 2⟩ ∧
    (slices.run double (slices.run double slices.New [.add [entA, entB]])
        [.add [entC], .clear]).heap.view ⟨2, 2, 2⟩
      = (slices.run double slices.New [.add [entA, entB]]).heap.view ⟨2, 2, 2⟩ ∧
    (slices.Remove (slices.run double slices.New [.add [entA, entB]]) [entA]).1.heap.view
        ⟨2, 2, 2⟩
      = ([] ++ entA :: [entB]).set ([] : List Entity).length
          (([] ++ entA :: [entB]).getLast?.getD Entity.nil) :=
  have h := C18_returned_slice_shares_array double [.add [entA, entB]] sampleSimple ⟨2, 2, 2⟩
    rfl
  ⟨rfl, h.2.1 [.add [entC], .clear] (by decide),
    h.2.2 entA [] [entB] rfl (by decide) (by simp)⟩

/-! ## The loop of `Add` on the caller's slice -/

theorem addArgsFrom_succ_ok (grow : Nat → Nat) (args : slices.ArgSlice) (n k : Nat)
    (e : SliceStore) (key : String)
    (h : getTypeKey ((e.heap.arrays args.arr).getD (args.off + k) Entity.nil) = .ok key) :
    slices.addArgsFrom grow args (n + 1) k e =
      slices.addArgsFrom grow args n (k + 1)
        (slices.addEntity grow e key
          ((e.heap.arrays args.arr).getD (args.off + k) Entity.nil)) := by
  obtain ⟨h1, h2⟩ := not_nil_of_ok h
  simp only [slices.addArgsFrom, h1, h2, if_false, h]

theorem addArgsFrom_succ_invalid (grow : Nat → Nat) (args : slices.ArgSlice) (n k : Nat)
    (e : SliceStore)
    (h : ¬ Valid ((e.heap.arrays args.arr).getD (args.off + k) Entity.nil)) :
    slices.addArgsFrom grow args (n + 1) k e = (e, some ErrInvalidEntityPointer) := by
  rcases getTypeKey_cases ((e.heap.arrays args.arr).getD (args.off + k) Entity.nil) with hk | hk
  · exact absurd hk h
  · simp only [slices.addArgsFrom, hk]
    split_ifs <;> rfl

theorem window_set_beyond (l : List Entity) (x : Entity) (off len i : Nat)
    (h : off + len ≤ i) : ((l.set i x).drop off).take len = (l.drop off).take len := by
  rw [List.take_drop, List.take_drop, take_set_of_le l x i (off + len) h]

theorem argList_length (h : Heap) (args : slices.ArgSlice)
    (hin : args.off + args.len ≤ (h.arrays args.arr).length) :
    (slices.argList h args).length = args.len := by
  unfold slices.argList
  rw [List.length_take, List.length_drop]
  omega

theorem argList_getD (h : Heap) (args : slices.ArgSlice) (k : Nat) (hk : k < args.len) :
    (slices.argList h args).getD k Entity.nil =
      (h.arrays args.arr).getD (args.off + k) Entity.nil := by
  unfold slices.argList
  rw [List.getD_eq_getElem?_getD, List.getD_eq_getElem?_getD, List.getElem?_take_of_lt hk,
    List.getElem?_drop]

theorem Apart_sliceAdd (grow : Nat → Nat) (e : SliceStore) (args : slices.ArgSlice)
    (key : String) (x : Entity) (hA : slices.Apart e args) :
    slices.Apart (slices.addEntity grow e key x) args ∧
    slices.argList (slices.addEntity grow e key x).heap args = slices.argList e.heap args := by
  have hheap := sliceAdd_heap grow e key x
  have hsame := sliceAdd_store_same grow e key x
  have hother := sliceAdd_store_other grow e key x
  have hslot : ∀ t, (e.store.lookup key).getD nilSlice = t → t.len < t.cap →
      e.store.lookup key = some t := by
    intro t ht hlt
    cases hl : e.store.lookup key with
    | none =>
      rw [hl] at ht
      subst ht
      exact absurd hlt (by decide)
    | some u =>
      rw [hl] at ht
      exact congrArg some ht
  generalize (e.store.lookup key).getD nilSlice = t at hheap hsame hslot
  have hslot := hslot t rfl
  rcases push_cases grow e.heap t x with ⟨hlt, heq⟩ | ⟨-, hsl, hnext, hothers, -⟩
  · rw [heq] at hheap hsame
    have hheap : (slices.addEntity grow e key x).heap = e.heap.write t.arr t.len x := hheap
    have hsame : (slices.addEntity grow e key x).store.lookup key =
        some ⟨t.arr, t.len + 1, t.cap⟩ := hsame
    have harrs : (slices.addEntity grow e key x).heap.arrays args.arr =
        if args.arr = t.arr then (e.heap.arrays t.arr).set t.len x
        else e.heap.arrays args.arr := by
      rw [hheap]
      rfl
    have hwin : slices.argList (slices.addEntity grow e key x).heap args =
        slices.argList e.heap args := by
      unfold slices.argList
      rw [harrs]
      by_cases harr : args.arr = t.arr
      · rw [if_pos harr, harr]
        have hle := hA.apart key t (hslot hlt) harr.symm
        exact window_set_beyond _ x _ _ _ hle
      · rw [if_neg harr]
    refine ⟨⟨?_, ?_, ?_⟩, hwin⟩
    · rw [hheap]
      exact hA.allocated
    · rw [hheap, write_length]
      exact hA.inside
    · intro k u hu harr
      by_cases hk : k = key
      · subst hk
        rw [hsame] at hu
        injection hu with hu
        subst hu
        have hle := hA.apart k t (hslot hlt) harr
        exact Nat.le_succ_of_le hle
      · rw [hother k hk] at hu
        exact hA.apart k u hu harr
  · have hne : args.arr ≠ e.heap.next := Nat.ne_of_lt hA.allocated
    have harrs : (slices.addEntity grow e key x).heap.arrays args.arr = e.heap.arrays args.arr := by
      rw [hheap]
      exact hothers args.arr hne
    refine ⟨⟨?_, ?_, ?_⟩, ?_⟩
    · rw [hheap, hnext]
      exact Nat.lt_succ_of_lt hA.allocated
    · rw [harrs]
      exact hA.inside
    · intro k u hu harr
      by_cases hk : k = key
      · subst hk
        rw [hsame, hsl] at hu
        injection hu with hu
        subst hu
        exact absurd harr.symm hne
      · rw [hother k hk] at hu
        exact hA.apart k u hu harr
    · unfold slices.argList
      rw [harrs]

theorem addArgsFrom_eq_addLoop (grow : Nat → Nat) (args : slices.ArgSlice) :
    ∀ (n k : Nat) (e : SliceStore), slices.Apart e args → k + n = args.len →
      slices.addArgsFrom grow args n k e =
        slices.addLoop grow e ((slices.argList e.heap args).drop k) := by
  intro n
  induction n with
  | zero =>
    intro k e hA hk
    have hlen := argList_length e.heap args hA.inside
    rw [List.drop_of_length_le (by omega)]
    rfl
  | succ n ih =>
    intro k e hA hk
    have hlen := argList_length e.heap args hA.inside
    have hlt : k < (slices.argList e.heap args).length := by omega
    have hread : (slices.argList e.heap args)[k] =
        (e.heap.arrays args.arr).getD (args.off + k) Entity.nil := by
      rw [← argList_getD e.heap args k (by omega), List.getD_eq_getElem _ _ hlt]
    rw [List.drop_eq_getElem_cons hlt, hread]
    rcases getTypeKey_cases ((e.heap.arrays args.arr).getD (args.off + k) Entity.nil)
      with ⟨key, hkey⟩ | hkey
    · obtain ⟨hA1, hwin⟩ := Apart_sliceAdd grow e args key
        ((e.heap.arrays args.arr).getD (args.off + k) Entity.nil) hA
      rw [addArgsFrom_succ_ok grow args n k e key hkey, sliceAddLoop_cons_ok grow e _ _ key hkey,
        ih (k + 1) _ hA1 (by omega), hwin]
    · rw [addArgsFrom_succ_invalid grow args n k e (not_Valid_of_error hkey),
        sliceAddLoop_cons_invalid grow e _ _ (not_Valid_of_error hkey)]

/-- On a caller's slice none of whose elements lies in the spare capacity of a bucket, `Add`
reads the elements the slice shows when the call is made. -/
theorem AddArgs_eq_Add (grow : Nat → Nat) (e : SliceStore) (args : slices.ArgSlice)
    (hA : slices.Apart e args) :
    slices.AddArgs grow e args = slices.Add grow e (slices.argList e.heap args) := by
  unfold slices.AddArgs slices.Add
  rw [argList_length e.heap args hA.inside]
  by_cases h0 : args.len = 0
  · rw [if_pos h0, if_pos h0]
  · rw [if_neg h0, if_neg h0, addArgsFrom_eq_addLoop grow args args.len 0 e hA (by omega)]
    rfl

/-- Whatever slice is passed, `Add` leaves the slices of the type index well formed. -/
theorem WF_AddArgs (grow : Nat → Nat) (e : SliceStore) (args : slices.ArgSlice)
    (hW : slices.WF e) : slices.WF (slices.AddArgs grow e args).1 := by
  have hloop : ∀ (n k : Nat) (e : SliceStore), slices.WF e →
      slices.WF (slices.addArgsFrom grow args n k e).1 := by
    intro n
    induction n with
    | zero => intro k e h; exact h
    | succ n ih =>
      intro k e h
      rcases getTypeKey_cases ((e.heap.arrays args.arr).getD (args.off + k) Entity.nil)
        with ⟨key, hkey⟩ | hkey
      · rw [addArgsFrom_succ_ok grow args n k e key hkey]
        exact ih _ _ (WF_sliceAdd grow e key _ h)
      · rw [addArgsFrom_succ_invalid grow args n k e (not_Valid_of_error hkey)]
        exact h
  unfold slices.AddArgs
  split_ifs
  · exact hW
  · exact hloop _ _ e hW

/-! ## The two indices after the loop of `Add` on slices -/

theorem sliceAddLoop_idCache (grow : Nat → Nat) (l : List Entity) :
    ∀ (s : SliceStore) (e : ecStore), e.idCache = s.idCache →
      (slices.addLoop grow s l).1.idCache = (addLoop e l).1.idCache ∧
      (slices.addLoop grow s l).2 = (addLoop e l).2 := by
  induction l with
  | nil => intro s e h; exact ⟨h.symm, rfl⟩
  | cons x l ih =>
    intro s e h
    rcases getTypeKey_cases x with ⟨key, hk⟩ | hk
    · rw [sliceAddLoop_cons_ok grow s x l key hk, addLoop_cons_ok e x l key hk]
      exact ih _ _ (by rw [addEntity_idCache, sliceAdd_idCache, h])
    · rw [sliceAddLoop_cons_invalid grow s x l (not_Valid_of_error hk),
        addLoop_cons_invalid e x l (not_Valid_of_error hk)]
      exact ⟨h.symm, rfl⟩

theorem sliceAddLoop_append (grow : Nat → Nat) (pre rest : List Entity) :
    ∀ s : SliceStore, (∀ x ∈ pre, Valid x) →
      slices.addLoop grow s (pre ++ rest) =
        slices.addLoop grow (slices.addLoop grow s pre).1 rest := by
  induction pre with
  | nil => intro s _; rfl
  | cons x pre ih =>
    intro s hv
    obtain ⟨key, hk⟩ := hv x (List.mem_cons_self x pre)
    rw [List.cons_append, sliceAddLoop_cons_ok grow s x _ key hk,
      sliceAddLoop_cons_ok grow s x _ key hk]
    exact ih _ (fun y hy => hv y (List.mem_cons_of_mem x hy))

theorem sliceAddLoop_valid_snd (grow : Nat → Nat) (l : List Entity) (s : SliceStore)
    (hv : ∀ x ∈ l, Valid x) : (slices.addLoop grow s l).2 = none := by
  rw [(sliceAddLoop_idCache grow l s ⟨∅, s.idCache⟩ rfl).2]
  exact addLoop_valid_snd l _ hv

theorem sliceAdd_of_ne_nil (grow : Nat → Nat) (s : SliceStore) (l : List Entity)
    (h : l ≠ []) : slices.Add grow s l = slices.addLoop grow s l := by
  unfold slices.Add
  rw [if_neg (fun hc => h (List.length_eq_zero.1 hc))]

theorem sliceAdd_fst (grow : Nat → Nat) (s : SliceStore) (l : List Entity) :
    (slices.Add grow s l).1 = (slices.addLoop grow s l).1 := by
  cases l with
  | nil => rfl
  | cons x l => rw [sliceAdd_of_ne_nil grow s (x :: l) (List.cons_ne_nil x l)]

theorem WF_sliceAddLoop (grow : Nat → Nat) (l : List Entity) (s : SliceStore)
    (hW : slices.WF s) : slices.WF (slices.addLoop grow s l).1 :=
  sliceAddLoop_keeps grow slices.WF (fun e key x _ h => WF_sliceAdd grow e key x h) l s hW

theorem sliceAdd_view (grow : Nat → Nat) (s : SliceStore) (key : String) (x : Entity)
    (k : String) (hW : slices.WF s) :
    (slices.addEntity grow s key x).heap.view
        (((slices.addEntity grow s key x).store.lookup k).getD nilSlice) =
      s.heap.view ((s.store.lookup k).getD nilSlice) ++ (if k = key then [x] else []) := by
  obtain ⟨hlc, hcl, -⟩ := WF_slot s hW key
  by_cases hk : k = key
  · subst hk
    rw [sliceAdd_store_same, Option.getD_some, sliceAdd_heap,
      push_view_result grow s.heap _ x hlc hcl, if_pos rfl]
  · rw [sliceAdd_store_other grow s key x k hk, if_neg hk, List.append_nil, sliceAdd_heap]
    cases hl : s.store.lookup k with
    | none => simp [Heap.view, nilSlice]
    | some u =>
      obtain ⟨hu1, hu2, hu3⟩ := hW.bounds k u hl
      refine push_view grow s.heap _ x u ⟨hu1, Nat.le_trans hu2 hu3⟩ ?_
      intro hlt harr
      exfalso
      cases hlk : s.store.lookup key with
      | none =>
        rw [hlk] at hlt
        exact absurd hlt (by decide)
      | some t0 =>
        rw [hlk] at harr
        exact hk (hW.distinct k key u t0 hl hlk harr.symm)

theorem sliceAddLoop_view (grow : Nat → Nat) (l : List Entity) (k : String) :
    ∀ s : SliceStore, slices.WF s → (∀ x ∈ l, Valid x) →
      (slices.addLoop grow s l).1.heap.view
          (((slices.addLoop grow s l).1.store.lookup k).getD nilSlice) =
        s.heap.view ((s.store.lookup k).getD nilSlice) ++ l.filter (hasTypeKey k) := by
  induction l with
  | nil => intro s _ _; simp [slices.addLoop]
  | cons x l ih =>
    intro s hW hv
    obtain ⟨kx, hk⟩ := hv x (List.mem_cons_self x l)
    rw [sliceAddLoop_cons_ok grow s x l kx hk,
      ih _ (WF_sliceAdd grow s kx x hW) (fun y hy => hv y (List.mem_cons_of_mem x hy)),
      sliceAdd_view grow s kx x k hW]
    by_cases hkk : k = kx
    · have hx : hasTypeKey k x = true := by rw [hasTypeKey_of_key hk]; simp [hkk]
      rw [if_pos hkk, List.filter_cons_of_pos hx]
      simp
    · have hx : ¬ (hasTypeKey k x = true) := by
        rw [hasTypeKey_of_key hk]
        simpa using fun hc : kx = k => hkk hc.symm
      rw [if_neg hkk, List.filter_cons_of_neg hx, List.append_nil]

theorem sliceGetAll_of_key (e : SliceStore) (sample : Entity) (key : String)
    (hk : getTypeKey sample = .ok key) :
    slices.GetAll e sample = .ok ((e.store.lookup key).getD nilSlice) := by
  cases hl : e.store.lookup key with
  | none => simp only [slices.GetAll, hk, hl]; rfl
  | some t => simp only [slices.GetAll, hk, hl]; rfl

theorem sliceCountType_of_key (e : SliceStore) (sample : Entity) (key : String)
    (hk : getTypeKey sample = .ok key) :
    slices.CountType e sample = ((e.store.lookup key).getD nilSlice).len := by
  unfold slices.CountType
  rw [sliceGetAll_of_key e sample key hk]

theorem slot_view_length (e : SliceStore) (hW : slices.WF e) (key : String) :
    (e.heap.view ((e.store.lookup key).getD nilSlice)).length =
      ((e.store.lookup key).getD nilSlice).len := by
  obtain ⟨h1, h2, h3⟩ := WF_slot e hW key
  exact view_length_of_backed e.heap _ ⟨h3, Nat.le_trans h1 h2⟩

/-! ## Argument slices that are safe to pass -/

/-- The slice `GetAll` returns may be passed to `Add` as it is. -/
theorem Apart_of_GetAll (e : SliceStore) (hW : slices.WF e) (sample : Entity) (t : Slice)
    (hg : slices.GetAll e sample = .ok t) : slices.Apart e t.args := by
  obtain ⟨hB, hC⟩ := sliceGetAll_backed e hW sample t hg
  refine ⟨hB.1, ?_, ?_⟩
  · show 0 + t.len ≤ _
    rw [Nat.zero_add]
    exact hB.2
  · intro key u hu harr
    show 0 + t.len ≤ _
    rw [Nat.zero_add]
    exact hC key u hu harr

theorem Apart_take (e : SliceStore) (args : slices.ArgSlice) (n : Nat) (hn : n ≤ args.len)
    (hA : slices.Apart e args) : slices.Apart e ⟨args.arr, args.off, n⟩ :=
  ⟨hA.allocated, Nat.le_trans (Nat.add_le_add_left hn _) hA.inside,
    fun key t ht harr => Nat.le_trans (Nat.add_le_add_left hn _) (hA.apart key t ht harr)⟩

theorem argList_take (h : Heap) (args : slices.ArgSlice) (pre rest : List Entity)
    (hl : slices.argList h args = pre ++ rest) :
    slices.argList h ⟨args.arr, args.off, pre.length⟩ = pre := by
  have hlen : pre.length ≤ args.len := by
    have h1 : (slices.argList h args).length ≤ args.len := by
      unfold slices.argList
      exact List.length_take_le _ _
    rw [hl, List.length_append] at h1
    omega
  have h2 : (slices.argList h args).take pre.length = pre := by
    rw [hl, List.take_left']
    rfl
  unfold slices.argList at h2 ⊢
  rw [List.take_take, Nat.min_eq_left hlen] at h2
  exact h2

theorem WF_place (e : SliceStore) (entities : List Entity) (hW : slices.WF e) :
    slices.WF (slices.place e entities).1 := by
  refine ⟨Nat.le_succ_of_le hW.next_pos, ?_, hW.distinct⟩
  intro key t ht
  obtain ⟨h1, h2, h3⟩ := hW.bounds key t ht
  refine ⟨Nat.lt_succ_of_lt h1, h2, ?_⟩
  show t.cap ≤ (if t.arr = e.heap.next then entities else e.heap.arrays t.arr).length
  rw [if_neg (Nat.ne_of_lt h1)]
  exact h3

theorem Apart_place (e : SliceStore) (entities : List Entity) (hW : slices.WF e) :
    slices.Apart (slices.place e entities).1 (slices.place e entities).2 := by
  refine ⟨Nat.lt_succ_self _, ?_, ?_⟩
  · show 0 + entities.length ≤
      (if e.heap.next = e.heap.next then entities else e.heap.arrays e.heap.next).length
    rw [if_pos rfl, Nat.zero_add]
  · intro key t ht harr
    exact absurd harr (Nat.ne_of_lt (hW.bounds key t ht).1)

theorem argList_place (e : SliceStore) (entities : List Entity) :
    slices.argList (slices.place e entities).1.heap (slices.place e entities).2 = entities := by
  show ((if e.heap.next = e.heap.next then entities else e.heap.arrays e.heap.next).drop 0).take
    entities.length = entities
  rw [if_pos rfl, List.drop_zero, List.take_length]

theorem view_place (e : SliceStore) (entities : List Entity) (hW : slices.WF e) (key : String) :
    (slices.place e entities).1.heap.view
        (((slices.place e entities).1.store.lookup key).getD nilSlice) =
      e.heap.view ((e.store.lookup key).getD nilSlice) := by
  obtain ⟨-, -, h3⟩ := WF_slot e hW key
  show (if ((e.store.lookup key).getD nilSlice).arr = e.heap.next then entities
    else e.heap.arrays ((e.store.lookup key).getD nilSlice).arr).take _ = _
  rw [if_neg (Nat.ne_of_lt h3)]
  rfl

theorem addPlaced_view (grow : Nat → Nat) (e : SliceStore) (entities : List Entity)
    (hW : slices.WF e) (hv : ∀ x ∈ entities, Valid x) :
    slices.WF (slices.addPlaced grow e entities).1 ∧
    ∀ key, (slices.addPlaced grow e entities).1.heap.view
        (((slices.addPlaced grow e entities).1.store.lookup key).getD nilSlice) =
      e.heap.view ((e.store.lookup key).getD nilSlice) ++ entities.filter (hasTypeKey key) := by
  have hWp := WF_place e entities hW
  unfold slices.addPlaced
  rw [AddArgs_eq_Add grow _ _ (Apart_place e entities hW), argList_place, sliceAdd_fst]
  refine ⟨WF_sliceAddLoop grow entities _ hWp, fun key => ?_⟩
  rw [sliceAddLoop_view grow entities key _ hWp hv, view_place e entities hW key]

theorem addAllPlaced_view (grow : Nat → Nat) (calls : List (List Entity)) (key : String) :
    ∀ e : SliceStore, slices.WF e → (∀ l ∈ calls, ∀ x ∈ l, Valid x) →
      slices.WF (slices.addAllPlaced grow e calls) ∧
      (slices.addAllPlaced grow e calls).heap.view
          (((slices.addAllPlaced grow e calls).store.lookup key).getD nilSlice) =
        e.heap.view ((e.store.lookup key).getD nilSlice) ++
          calls.flatten.filter (hasTypeKey key) := by
  induction calls with
  | nil => intro e hW _; exact ⟨hW, by simp [slices.addAllPlaced]⟩
  | cons l calls ih =>
    intro e hW hv
    have hstep : slices.addAllPlaced grow e (l :: calls) =
        slices.addAllPlaced grow (slices.addPlaced grow e l).1 calls := rfl
    obtain ⟨hW1, hview⟩ := addPlaced_view grow e l hW (hv l (List.mem_cons_self l calls))
    obtain ⟨hW2, hall⟩ := ih _ hW1 (fun l' hl' => hv l' (List.mem_cons_of_mem l hl'))
    rw [hstep]
    refine ⟨hW2, ?_⟩
    rw [hall, hview key]
    simp

theorem WF_sliceAB : slices.WF sliceAB :=
  WF_sliceRun double [.add [entA, entB]] slices.New WF_sliceNew

/-! ## C5: `Add` with an invalid argument -/

/-- C5, refuted as stated: after `Add(entA, entB, entD)` the bucket has length 3 in an array
of capacity 4. The caller takes `all := GetAll(...)`, makes `args := append(all, nil)`, which
writes `nil` in place at index 3 of the bucket's array, and calls `Add(args...)`. When the
call is made the arguments are `entA, entB, entD, nil`, the first invalid one at position 3.
Iteration 0 appends `entA` in place, over that `nil`, so iteration 3 reads `entA`: `Add`
returns no error and the bucket has 7 entries, not the 6 that appending the first 3
arguments leaves. -/
theorem C5_counterexample :
    slices.GetAll sliceABD sampleSimple = .ok ⟨3, 3, 4⟩ ∧
    (sliceABD.heap.push double ⟨3, 3, 4⟩ Entity.nil).2 = ⟨3, 4, 4⟩ ∧
    slices.argList sliceABDnil.heap (Slice.args ⟨3, 4, 4⟩) =
      [entA, entB, entD] ++ Entity.nil :: [] ∧
    (∀ x ∈ [entA, entB, entD], Valid x) ∧ ¬ Valid Entity.nil ∧
    (slices.AddArgs double sliceABDnil (Slice.args ⟨3, 4, 4⟩)).2 = none ∧
    slices.CountType (slices.AddArgs double sliceABDnil (Slice.args ⟨3, 4, 4⟩)).1 sampleSimple
      = 7 ∧
    slices.CountType (slices.Add double sliceABDnil [entA, entB, entD]).1 sampleSimple = 6 :=
  ⟨rfl, by decide, by decide,
    fun x hx => by
      simp only [List.mem_cons, List.mem_singleton, List.not_mem_nil, or_false] at hx
      rcases hx with rfl | rfl | rfl <;> exact ⟨"SimpleEntity", rfl⟩,
    not_Valid_nil, by decide, by decide, by decide⟩

/-- C5, amended: for every store state on slices and every argument slice none of whose
elements lies in the spare capacity of a bucket (an explicit argument list, a slice of the
caller's own, the slice `GetAll` has just returned), showing `pre ++ bad :: post` when the
call is made, with `pre` valid and `bad` invalid: `Add`
returns the invalid-entity error and leaves the state that `Add` of the first `|pre|`
arguments leaves, a call that succeeds when `pre` is not empty; when `pre` is empty the
state is unchanged; and every bucket shows what it showed before followed by the entities of
`pre` with that type key, in order. -/
theorem C5_AddArgs_stops_at_first_invalid (grow : Nat → Nat) (s : SliceStore)
    (args : slices.ArgSlice) (pre post : List Entity) (bad : Entity)
    (hW : slices.WF s) (hA : slices.Apart s args)
    (hl : slices.argList s.heap args = pre ++ bad :: post)
    (hpre : ∀ x ∈ pre, Valid x) (hbad : ¬ Valid bad) :
    (slices.AddArgs grow s args).2 = some ErrInvalidEntityPointer ∧
    (slices.AddArgs grow s args).1 =
      (slices.AddArgs grow s ⟨args.arr, args.off, pre.length⟩).1 ∧
    (pre ≠ [] → (slices.AddArgs grow s ⟨args.arr, args.off, pre.length⟩).2 = none) ∧
    (pre = [] → (slices.AddArgs grow s args).1 = s) ∧
    (∀ key, (slices.AddArgs grow s args).1.heap.view
        (((slices.AddArgs grow s args).1.store.lookup key).getD nilSlice) =
      s.heap.view ((s.store.lookup key).getD nilSlice) ++ pre.filter (hasTypeKey key)) := by
  have hlen : pre.length ≤ args.len := by
    have h1 := argList_length s.heap args hA.inside
    rw [hl, List.length_append] at h1
    omega
  have hne : pre ++ bad :: post ≠ [] := by simp
  have hrun : slices.AddArgs grow s args =
      ((slices.addLoop grow s pre).1, some ErrInvalidEntityPointer) := by
    rw [AddArgs_eq_Add grow s args hA, hl, sliceAdd_of_ne_nil grow s _ hne,
      sliceAddLoop_append grow pre _ s hpre, sliceAddLoop_cons_invalid grow _ bad post hbad]
  have hfirst : slices.AddArgs grow s ⟨args.arr, args.off, pre.length⟩ =
      slices.Add grow s pre := by
    rw [AddArgs_eq_Add grow s _ (Apart_take s args pre.length hlen hA),
      argList_take s.heap args pre (bad :: post) hl]
  refine ⟨by rw [hrun], by rw [hrun, hfirst, sliceAdd_fst], ?_, ?_, ?_⟩
  · intro hp
    rw [hfirst, sliceAdd_of_ne_nil grow s pre hp]
    exact sliceAddLoop_valid_snd grow pre s hpre
  · intro hp
    rw [hrun, hp]
    rfl
  · intro key
    rw [hrun]
    exact sliceAddLoop_view grow pre key s hW hpre

/-- Witness of C5: `Add(entA, nil, entB)` with explicit arguments on the empty store. -/
theorem C5_AddArgs_stops_at_first_invalid_witness :
    slices.WF (slices.place slices.New [entA, Entity.nil, entB]).1 ∧
    slices.Apart (slices.place slices.New [entA, Entity.nil, entB]).1
      (slices.place slices.New [entA, Entity.nil, entB]).2 ∧
    slices.argList (slices.place slices.New [entA, Entity.nil, entB]).1.heap
      (slices.place slices.New [entA, Entity.nil, entB]).2 = [entA] ++ Entity.nil :: [entB] ∧
    (∀ x ∈ [entA], Valid x) ∧ ¬ Valid Entity.nil ∧
    (slices.AddArgs double (slices.place slices.New [entA, Entity.nil, entB]).1
      (slices.place slices.New [entA, Entity.nil, entB]).2).2 = some ErrInvalidEntityPointer ∧
    (slices.AddArgs double (slices.place slices.New [entA, Entity.nil, entB]).1
        (slices.place slices.New [entA, Entity.nil, entB]).2).1.heap.view
      (((slices.AddArgs double (slices.place slices.New [entA, Entity.nil, entB]).1
        (slices.place slices.New [entA, Entity.nil, entB]).2).1.store.lookup
          "SimpleEntity").getD nilSlice) =
      (slices.place slices.New [entA, Entity.nil, entB]).1.heap.view
        (((slices.place slices.New [entA, Entity.nil, entB]).1.store.lookup
          "SimpleEntity").getD nilSlice) ++ [entA].filter (hasTypeKey "SimpleEntity") :=
  have hW := WF_place slices.New [entA, Entity.nil, entB] WF_sliceNew
  have hA := Apart_place slices.New [entA, Entity.nil, entB] WF_sliceNew
  have hpre : ∀ x ∈ [entA], Valid x := fun x hx => by
    rw [List.mem_singleton.1 hx]
    exact ⟨"SimpleEntity", rfl⟩
  have h := C5_AddArgs_stops_at_first_invalid double
    (slices.place slices.New [entA, Entity.nil, entB]).1
    (slices.place slices.New [entA, Entity.nil, entB]).2 [entA] [entB] Entity.nil hW hA
    (argList_place slices.New [entA, Entity.nil, entB]) hpre not_Valid_nil
  ⟨hW, hA, argList_place slices.New [entA, Entity.nil, entB], hpre, not_Valid_nil, h.1,
    h.2.2.2.2 "SimpleEntity"⟩

/-! ## C9: the id index after a successful `Add` -/

/-- C9, refuted as stated: after `Add(entA, entB)` the caller takes `all := GetAll(...)`, the
slice of length 2 over the array at address 2, calls `Remove(entB)`, which leaves the bucket
with length 1 in that array, and then `Add(all...)`. When the call is made the arguments are
the valid entities `entA, entB`, and `entB` is the last with the id `"b"`. Iteration 0
appends `entA` in place at index 1 of the array, so iteration 1 reads `entA` again: `Add`
succeeds and `GetById("b")` is absent, not `entB`. -/
theorem C9_counterexample :
    slices.GetAll sliceAB sampleSimple = .ok ⟨2, 2, 2⟩ ∧
    slices.argList sliceABminusB.heap (Slice.args ⟨2, 2, 2⟩) = [entA] ++ entB :: [] ∧
    (∀ x ∈ [entA, entB], Valid x) ∧
    (slices.AddArgs double sliceABminusB (Slice.args ⟨2, 2, 2⟩)).2 = none ∧
    slices.GetById (slices.AddArgs double sliceABminusB (Slice.args ⟨2, 2, 2⟩)).1 entB.Id
      = none :=
  ⟨rfl, by decide,
    fun x hx => by
      simp only [List.mem_cons, List.mem_singleton, List.not_mem_nil, or_false] at hx
      rcases hx with rfl | rfl <;> exact ⟨"SimpleEntity", rfl⟩,
    by decide, by decide⟩

/-- C9, amended: for every store state on slices and every non-empty argument slice of valid
entities none of whose elements lies in the spare capacity of a bucket (an explicit argument
list, a slice of the caller's own, the slice `GetAll` has just returned), `Add` succeeds;
afterwards `GetById(id)` returns, for each id occurring among the arguments, the very entity that is the last argument with that id,
whatever was indexed under that id before; an id occurring nowhere among the arguments keeps
its previous `GetById` result. -/
theorem C9_AddArgs_points_id_at_last (grow : Nat → Nat) (s : SliceStore)
    (args : slices.ArgSlice) (hA : slices.Apart s args) (hne : args.len ≠ 0)
    (hv : ∀ x ∈ slices.argList s.heap args, Valid x) :
    (slices.AddArgs grow s args).2 = none ∧
    (∀ pre x post, slices.argList s.heap args = pre ++ x :: post →
      (∀ y ∈ post, y.Id ≠ x.Id) →
      slices.GetById (slices.AddArgs grow s args).1 x.Id = some x) ∧
    (∀ id, (∀ x ∈ slices.argList s.heap args, x.Id ≠ id) →
      slices.GetById (slices.AddArgs grow s args).1 id = slices.GetById s id) := by
  have hnil : slices.argList s.heap args ≠ [] := by
    intro hc
    have h1 := argList_length s.heap args hA.inside
    rw [hc] at h1
    exact hne h1.symm
  have hlist := Add_points_id_at_last ⟨∅, s.idCache⟩ (slices.argList s.heap args) hnil hv
  rw [Add_of_ne_nil _ _ hnil] at hlist
  obtain ⟨hid, herr⟩ := sliceAddLoop_idCache grow (slices.argList s.heap args) s
    ⟨∅, s.idCache⟩ rfl
  rw [AddArgs_eq_Add grow s args hA, sliceAdd_of_ne_nil grow s _ hnil]
  refine ⟨by rw [herr]; exact hlist.1, ?_, ?_⟩
  · intro pre x post hl hpost
    show (slices.addLoop grow s (slices.argList s.heap args)).1.idCache.lookup x.Id = some x
    rw [hid]
    exact hlist.2.1 pre x post hl hpost
  · intro id hid2
    show (slices.addLoop grow s (slices.argList s.heap args)).1.idCache.lookup id = _
    rw [hid]
    exact hlist.2.2 id hid2

/-- Witness of C9: after `Add(entA, entB)`, `Add(all...)` with the slice `all` that `GetAll`
returned; `entB` is the last argument with the id `"b"`. -/
theorem C9_AddArgs_points_id_at_last_witness :
    slices.Apart sliceAB (Slice.args ⟨2, 2, 2⟩) ∧ (Slice.args ⟨2, 2, 2⟩).len ≠ 0 ∧
    (∀ x ∈ slices.argList sliceAB.heap (Slice.args ⟨2, 2, 2⟩), Valid x) ∧
    (slices.AddArgs double sliceAB (Slice.args ⟨2, 2, 2⟩)).2 = none ∧
    slices.GetById (slices.AddArgs double sliceAB (Slice.args ⟨2, 2, 2⟩)).1 entB.Id
      = some entB ∧
    slices.GetById (slices.AddArgs double sliceAB (Slice.args ⟨2, 2, 2⟩)).1 "c"
      = slices.GetById sliceAB "c" :=
  have hA : slices.Apart sliceAB (Slice.args ⟨2, 2, 2⟩) :=
    Apart_of_GetAll sliceAB WF_sliceAB sampleSimple ⟨2, 2, 2⟩ rfl
  have hl : slices.argList sliceAB.heap (Slice.args ⟨2, 2, 2⟩) = [entA] ++ entB :: [] := by
    decide
  have hv : ∀ x ∈ slices.argList sliceAB.heap (Slice.args ⟨2, 2, 2⟩), Valid x :=
    fun x hx => by
      rw [hl] at hx
      simp only [List.singleton_append, List.mem_cons, List.mem_singleton, List.not_mem_nil,
        or_false] at hx
      rcases hx with rfl | rfl <;> exact ⟨"SimpleEntity", rfl⟩
  have h := C9_AddArgs_points_id_at_last double sliceAB (Slice.args ⟨2, 2, 2⟩) hA
    (by decide) hv
  ⟨hA, by decide, hv, h.1, h.2.1 [entA] entB [] hl (by simp),
    h.2.2 "c" (fun x hx => by
      rw [hl] at hx
      simp only [List.singleton_append, List.mem_cons, List.mem_singleton, List.not_mem_nil,
        or_false] at hx
      rcases hx with rfl | rfl <;> decide)⟩

/-! ## C10: `Add` appends to the buckets in argument order -/

/-- C10, refuted as stated: after `Add(entA, entB)` the caller takes `all := GetAll(...)`,
calls `Remove(entB)` and then `Add(all...)`. Before the call the bucket shows `entA` and the
arguments are the valid entities `entA, entB`, both of the type key of the bucket. `Add`
succeeds and the bucket then shows `entA, entA, entA`, not `entA` followed by `entA, entB`:
iteration 0 appended `entA` in place over the `entB` that iteration 1 had still to read. -/
theorem C10_counterexample :
    slices.GetAll sliceAB sampleSimple = .ok ⟨2, 2, 2⟩ ∧
    slices.GetAll sliceABminusB sampleSimple = .ok ⟨2, 1, 2⟩ ∧
    sliceABminusB.heap.view ⟨2, 1, 2⟩ = [entA] ∧
    slices.argList sliceABminusB.heap (Slice.args ⟨2, 2, 2⟩) = [entA, entB] ∧
    [entA, entB].filter (hasTypeKey "SimpleEntity") = [entA, entB] ∧
    (slices.AddArgs double sliceABminusB (Slice.args ⟨2, 2, 2⟩)).2 = none ∧
    slices.GetAll (slices.AddArgs double sliceABminusB (Slice.args ⟨2, 2, 2⟩)).1 sampleSimple
      = .ok ⟨3, 3, 4⟩ ∧
    (slices.AddArgs double sliceABminusB (Slice.args ⟨2, 2, 2⟩)).1.heap.view ⟨3, 3, 4⟩
      = [entA, entA, entA] ∧
    (slices.AddArgs double sliceABminusB (Slice.args ⟨2, 2, 2⟩)).1.heap.view ⟨3, 3, 4⟩
      ≠ [entA] ++ [entA, entB] :=
  ⟨rfl, rfl, by decide, by decide, by decide, by decide, rfl, by decide, by decide⟩

/-- C10, amended: for every store state on slices and every non-empty argument slice of
valid entities none of whose elements lies in the spare capacity of a bucket (an explicit
argument list, a slice of the caller's own, the slice `GetAll` has just returned), `Add`
succeeds and afterwards `GetAll` returns, for a sample of any type key, a slice showing what the slice it returned before showed, followed
by the arguments of that type key in argument order, and `CountType` grows by their number;
hence in a store built from `New()` by calls `Add(x1, ..., xn)` with explicit valid
arguments only, `GetAll` shows the entities added of that type key in insertion order and
`CountType` is their number. -/
theorem C10_AddArgs_appends_in_order (grow : Nat → Nat) (s : SliceStore)
    (args : slices.ArgSlice) (hW : slices.WF s) (hA : slices.Apart s args)
    (hne : args.len ≠ 0) (hv : ∀ x ∈ slices.argList s.heap args, Valid x) :
    (slices.AddArgs grow s args).2 = none ∧
    (∀ sample key, getTypeKey sample = .ok key →
      ∃ before after, slices.GetAll s sample = .ok before ∧
        slices.GetAll (slices.AddArgs grow s args).1 sample = .ok after ∧
        (slices.AddArgs grow s args).1.heap.view after =
          s.heap.view before ++ (slices.argList s.heap args).filter (hasTypeKey key) ∧
        slices.CountType (slices.AddArgs grow s args).1 sample =
          slices.CountType s sample +
            ((slices.argList s.heap args).filter (hasTypeKey key)).length) ∧
    (∀ calls : List (List Entity), (∀ c ∈ calls, ∀ x ∈ c, Valid x) →
      ∀ sample key, getTypeKey sample = .ok key →
        ∃ all, slices.GetAll (slices.addAllPlaced grow slices.New calls) sample = .ok all ∧
          (slices.addAllPlaced grow slices.New calls).heap.view all =
            calls.flatten.filter (hasTypeKey key) ∧
          slices.CountType (slices.addAllPlaced grow slices.New calls) sample =
            (calls.flatten.filter (hasTypeKey key)).length) := by
  have hnil : slices.argList s.heap args ≠ [] := by
    intro hc
    have h1 := argList_length s.heap args hA.inside
    rw [hc] at h1
    exact hne h1.symm
  have hrun : slices.AddArgs grow s args =
      slices.addLoop grow s (slices.argList s.heap args) := by
    rw [AddArgs_eq_Add grow s args hA, sliceAdd_of_ne_nil grow s _ hnil]
  refine ⟨?_, ?_, ?_⟩
  · rw [hrun]
    exact sliceAddLoop_valid_snd grow _ s hv
  · intro sample key hk
    have hview := sliceAddLoop_view grow (slices.argList s.heap args) key s hW hv
    have hW1 := WF_sliceAddLoop grow (slices.argList s.heap args) s hW
    refine ⟨_, _, sliceGetAll_of_key s sample key hk, sliceGetAll_of_key _ sample key hk, ?_, ?_⟩
    · rw [hrun]
      exact hview
    · rw [sliceCountType_of_key _ sample key hk, sliceCountType_of_key s sample key hk, hrun,
        ← slot_view_length _ hW1 key, ← slot_view_length s hW key, hview, List.length_append]
  · intro calls hcalls sample key hk
    obtain ⟨hW1, hall⟩ := addAllPlaced_view grow calls key slices.New WF_sliceNew hcalls
    have hnew : slices.New.heap.view ((slices.New.store.lookup key).getD nilSlice) = [] := by
      simp [slices.New, Heap.view, nilSlice]
    rw [hnew, List.nil_append] at hall
    refine ⟨_, sliceGetAll_of_key _ sample key hk, hall, ?_⟩
    rw [sliceCountType_of_key _ sample key hk, ← slot_view_length _ hW1 key, hall]

/-- Witness of C10: `Add(entD, entC, entA2)` with explicit arguments on the store holding
`entA` and `entB`. -/
theorem C10_AddArgs_appends_in_order_witness :
    slices.WF (slices.place sliceAB [entD, entC, entA2]).1 ∧
    slices.Apart (slices.place sliceAB [entD, entC, entA2]).1
      (slices.place sliceAB [entD, entC, entA2]).2 ∧
    (slices.place sliceAB [entD, entC, entA2]).2.len ≠ 0 ∧
    (∀ x ∈ slices.argList (slices.place sliceAB [entD, entC, entA2]).1.heap
      (slices.place sliceAB [entD, entC, entA2]).2, Valid x) ∧
    (slices.AddArgs double (slices.place sliceAB [entD, entC, entA2]).1
      (slices.place sliceAB [entD, entC, entA2]).2).2 = none ∧
    (∃ before after,
      slices.GetAll (slices.place sliceAB [entD, entC, entA2]).1 sampleSimple = .ok before ∧
      slices.GetAll (slices.AddArgs double (slices.place sliceAB [entD, entC, entA2]).1
        (slices.place sliceAB [entD, entC, entA2]).2).1 sampleSimple = .ok after ∧
      (slices.AddArgs double (slices.place sliceAB [entD, entC, entA2]).1
        (slices.place sliceAB [entD, entC, entA2]).2).1.heap.view after =
        (slices.place sliceAB [entD, entC, entA2]).1.heap.view before ++
          (slices.argList (slices.place sliceAB [entD, entC, entA2]).1.heap
            (slices.place sliceAB [entD, entC, entA2]).2).filter (hasTypeKey "SimpleEntity") ∧
      slices.CountType (slices.AddArgs double (slices.place sliceAB [entD, entC, entA2]).1
        (slices.place sliceAB [entD, entC, entA2]).2).1 sampleSimple =
        slices.CountType (slices.place sliceAB [entD, entC, entA2]).1 sampleSimple +
          ((slices.argList (slices.place sliceAB [entD, entC, entA2]).1.heap
            (slices.place sliceAB [entD, entC, entA2]).2).filter
              (hasTypeKey "SimpleEntity")).length) :=
  have hW := WF_place sliceAB [entD, entC, entA2] WF_sliceAB
  have hA := Apart_place sliceAB [entD, entC, entA2] WF_sliceAB
  have hv : ∀ x ∈ slices.argList (slices.place sliceAB [entD, entC, entA2]).1.heap
      (slices.place sliceAB [entD, entC, entA2]).2, Valid x := fun x hx => by
    rw [argList_place] at hx
    simp only [List.mem_cons, List.mem_singleton, List.not_mem_nil, or_false] at hx
    rcases hx with rfl | rfl | rfl
    · exact ⟨"SimpleEntity", rfl⟩
    · exact ⟨"ComplexEntity", rfl⟩
    · exact ⟨"SimpleEntity", rfl⟩
  have h := C10_AddArgs_appends_in_order double (slices.place sliceAB [entD, entC, entA2]).1
    (slices.place sliceAB [entD, entC, entA2]).2 hW hA (by decide) hv
  ⟨hW, hA, by decide, hv, h.1, h.2.1 sampleSimple "SimpleEntity" rfl⟩

end ecstore
